import Mathlib

/-!
Coursework programs: a verification development

Part 1: the shape hierarchy of `shape_classes.cpp`

The program computes with `double`.  A `double` is modelled by `Dbl`: either
a finite number, taken as an exact real (no rounding, no overflow), or a value
that is not a finite number (an infinity or a NaN).  The operations follow
IEEE 754 and `<cmath>` on finite arguments: a division by zero, a root or a
non-integral power of a negative number, and `atanh` outside `(-1, 1)` give a
value that is not finite, and every operation on such a value gives one again.
That last rule is sound for the functions modelled here: the exponents passed
to `std::pow` are non-zero constants, and in `ellipsoid::area` a quotient by
an infinite eccentricity is multiplied by `atanh` or `asinh` of it, so that
an infinity is never turned back into a finite number.  The dimensions of a
shape are finite numbers.
-/

noncomputable section

namespace Shapes

/-! ### The model of `double` -/

/-- A value of type `double`: `fin x` is the finite number `x`, `nan` is a
value that is not a finite number. -/
inductive Dbl where
  | fin (x : ℝ)
  | nan

namespace Dbl

/-- Lifts a binary operation on finite numbers; a non-finite operand gives a
non-finite result. -/
def map₂ (f : ℝ → ℝ → Dbl) : Dbl → Dbl → Dbl
  | fin x, fin y => f x y
  | _, _ => nan

/-- Lifts a unary operation on finite numbers. -/
def map₁ (f : ℝ → Dbl) : Dbl → Dbl
  | fin x => f x
  | nan => nan

instance : Coe ℝ Dbl := ⟨fin⟩

instance (n : ℕ) : OfNat Dbl n := ⟨fin (n : ℝ)⟩

instance : OfScientific Dbl := ⟨fun m s e => fin (OfScientific.ofScientific m s e)⟩

instance : Add Dbl := ⟨map₂ fun x y => fin (x + y)⟩

instance : Sub Dbl := ⟨map₂ fun x y => fin (x - y)⟩

instance : Mul Dbl := ⟨map₂ fun x y => fin (x * y)⟩

/-- Division: `x / 0` is an infinity or a NaN. -/
instance : Div Dbl := ⟨map₂ fun x y => if y = 0 then nan else fin (x / y)⟩

end Dbl

open Dbl

/-- The function `std::pow(x, y)`: NaN for a negative base with a non-integral
exponent, an infinity for a zero base with a negative exponent. -/
def pow : Dbl → Dbl → Dbl :=
  map₂ fun x y =>
    if x < 0 ∧ ((⌊y⌋ : ℤ) : ℝ) ≠ y then nan
    else if x = 0 ∧ y < 0 then nan
    else fin (x ^ y)

/-- The function `atan`. -/
def atan : Dbl → Dbl :=
  map₁ fun x => fin (Real.arctan x)

/-- The function `asinh`. -/
def asinh : Dbl → Dbl :=
  map₁ fun x => fin (Real.arsinh x)

/-- The function `atanh`: finite on `(-1, 1)`, infinite at `-1` and `1`, NaN
beyond. -/
def atanh : Dbl → Dbl :=
  map₁ fun x => if -1 < x ∧ x < 1 then fin (Real.log ((1 + x) / (1 - x)) / 2) else nan

/-- The constant `const double pi{4*atan(1)}`. -/
def pi : Dbl := 4 * atan 1

/-! ### The classes -/

/-- The enumeration `enum class shape_type`. -/
inductive shape_type where
  | Unassigned | Square | Rectangle | Ellipse | Circle
  | Cube | Cuboid | Ellipsoid | Sphere | Prism
  deriving DecidableEq, Repr

/-- The class `square`. -/
structure square where
  length : ℝ

/-- The class `rectangle`. -/
structure rectangle where
  length : ℝ
  height : ℝ

/-- The class `ellipse`. -/
structure ellipse where
  semi_axis_a : ℝ
  semi_axis_b : ℝ

/-- The class `circle`. -/
structure circle where
  radius : ℝ

/-- The method `square::perimeter`. -/
def square.perimeter (s : square) : Dbl :=
  4 * (s.length : Dbl)

/-- The method `square::area`. -/
def square.area (s : square) : Dbl :=
  pow s.length 2

/-- The method `rectangle::perimeter`. -/
def rectangle.perimeter (s : rectangle) : Dbl :=
  2 * ((s.length : Dbl) + s.height)

/-- The method `rectangle::area`. -/
def rectangle.area (s : rectangle) : Dbl :=
  (s.length : Dbl) * s.height

/-- The method `ellipse::perimeter` (Ramanujan approximation). -/
def ellipse.perimeter (s : ellipse) : Dbl :=
  pi * (3 * ((s.semi_axis_a : Dbl) + s.semi_axis_b)
    - pow ((3 * (s.semi_axis_a : Dbl) + s.semi_axis_b) * ((s.semi_axis_a : Dbl) + 3 * s.semi_axis_b)) 0.5)

/-- The method `ellipse::area`. -/
def ellipse.area (s : ellipse) : Dbl :=
  pi * s.semi_axis_a * s.semi_axis_b

/-- The method `circle::perimeter`. -/
def circle.perimeter (s : circle) : Dbl :=
  2 * pi * s.radius

/-- The method `circle::area`. -/
def circle.area (s : circle) : Dbl :=
  pi * pow s.radius 2

/-- An object seen through `polygon*`: one of the four classes derived from
`polygon`. -/
inductive polygon where
  | square (s : square)
  | rectangle (s : rectangle)
  | ellipse (s : ellipse)
  | circle (s : circle)

/-- The field `type`, set by each constructor, read by `shape::get_type`. -/
def polygon.get_type : polygon → shape_type
  | .square _ => shape_type.Square
  | .rectangle _ => shape_type.Rectangle
  | .ellipse _ => shape_type.Ellipse
  | .circle _ => shape_type.Circle

/-- The virtual call `perimeter()` on a `polygon*`. -/
def polygon.perimeter : polygon → Dbl
  | .square s => s.perimeter
  | .rectangle s => s.perimeter
  | .ellipse s => s.perimeter
  | .circle s => s.perimeter

/-- The virtual call `area()` on a `polygon*`. -/
def polygon.area : polygon → Dbl
  | .square s => s.area
  | .rectangle s => s.area
  | .ellipse s => s.area
  | .circle s => s.area

/-- The method `polygon::volume`, inherited by the four classes. -/
def polygon.volume (_ : polygon) : Dbl :=
  0

/-- The class `cube`. -/
structure cube where
  width : ℝ

/-- The class `cuboid`. -/
structure cuboid where
  width : ℝ
  depth : ℝ
  height : ℝ

/-- The class `ellipsoid`. -/
structure ellipsoid where
  semi_axis_a : ℝ
  semi_axis_b : ℝ
  semi_axis_c : ℝ

/-- The class `sphere`. -/
structure sphere where
  radius : ℝ

/-- The class `prism`: the base face it owns and its height. -/
structure prism where
  face : polygon
  height : ℝ

/-- The method `cube::area`. -/
def cube.area (s : cube) : Dbl :=
  6 * pow s.width 2

/-- The method `cube::volume`. -/
def cube.volume (s : cube) : Dbl :=
  pow s.width 3

/-- The method `cuboid::area`. -/
def cuboid.area (s : cuboid) : Dbl :=
  2 * ((s.width : Dbl) * s.depth + (s.width : Dbl) * s.height + (s.depth : Dbl) * s.height)

/-- The method `cuboid::volume`. -/
def cuboid.volume (s : cuboid) : Dbl :=
  (s.width : Dbl) * s.depth * s.height

/-- The method `ellipsoid::area`. -/
def ellipsoid.area (s : ellipsoid) : Dbl :=
  if s.semi_axis_a = s.semi_axis_b then
    if s.semi_axis_a > s.semi_axis_c then
      let eccentricity : Dbl := pow (1 - pow ((s.semi_axis_c : Dbl) / s.semi_axis_a) 2) 0.5
      2 * pi * pow s.semi_axis_a 2
        * (1 + (pow ((s.semi_axis_c : Dbl) / s.semi_axis_a) 2 / eccentricity) * atanh eccentricity)
    else
      let eccentricity : Dbl := pow (1 - pow ((s.semi_axis_a : Dbl) / s.semi_axis_c) 2) 0.5
      2 * pi * pow s.semi_axis_a 2
        * (1 + (s.semi_axis_c : Dbl) / ((s.semi_axis_a : Dbl) * eccentricity) * asinh eccentricity)
  else
    let power : Dbl := 1.6075
    let numerator : Dbl :=
      pow s.semi_axis_a power * pow s.semi_axis_b power
        + pow s.semi_axis_a power * pow s.semi_axis_c power
        + pow s.semi_axis_b power * pow s.semi_axis_c power
    4 * pi * pow (numerator / 3) (1 / power)

/-- The method `ellipsoid::volume`. -/
def ellipsoid.volume (s : ellipsoid) : Dbl :=
  (4 * (s.semi_axis_a : Dbl) * s.semi_axis_b * s.semi_axis_c) / 3

/-- The method `sphere::area`. -/
def sphere.area (s : sphere) : Dbl :=
  4 * pi * pow s.radius 2

/-- The method `sphere::volume`. -/
def sphere.volume (s : sphere) : Dbl :=
  (4 * pi * pow s.radius 3) / 3

/-- The field `face_type`, set by the constructor of `prism`. -/
def prism.face_type (s : prism) : shape_type :=
  s.face.get_type

/-- The method `prism::area`. -/
def prism.area (s : prism) : Dbl :=
  let base_area : Dbl := s.face.area
  let base_perimeter : Dbl := s.face.perimeter
  2 * base_area + base_perimeter * s.height

/-- The method `prism::volume`. -/
def prism.volume (s : prism) : Dbl :=
  let base_area : Dbl := s.face.area
  base_area * s.height

/-! ### The formulas of the specification for the area of an ellipsoid

These three definitions follow the words of the specification, not the source:
they are what `ellipsoid::area` is compared with. -/

/-- The function `sqrt`: NaN below zero. -/
def sqrt : Dbl → Dbl :=
  map₁ fun x => if x < 0 then nan else fin (Real.sqrt x)

/-- The power `x^n` with a natural exponent. -/
instance : Pow Dbl ℕ := ⟨fun x n => map₁ (fun r => fin (r ^ n)) x⟩

/-- Oblate spheroid, as the specification writes it:
`2*pi*a^2*(1 + ((c/a)^2 / e) * atanh(e))` with `e = sqrt(1 - (c/a)^2)`. -/
def spec_oblate_area (a c : ℝ) : Dbl :=
  let e : Dbl := sqrt (1 - ((c : Dbl) / a) ^ 2)
  2 * fin Real.pi * (a : Dbl) ^ 2 * (1 + ((((c : Dbl) / a) ^ 2) / e) * atanh e)

/-- Prolate spheroid, as the specification writes it:
`2*pi*a^2*(1 + (c/(a*e)) * asinh(e))` with `e = sqrt(1 - (a/c)^2)`. -/
def spec_prolate_area (a c : ℝ) : Dbl :=
  let e : Dbl := sqrt (1 - ((a : Dbl) / c) ^ 2)
  2 * fin Real.pi * (a : Dbl) ^ 2 * (1 + ((c : Dbl) / ((a : Dbl) * e)) * asinh e)

/-- Triaxial approximation, as the specification writes it:
`4*pi*((a^p*b^p + a^p*c^p + b^p*c^p)/3)^(1/p)` with `p = 1.6075`. -/
def spec_triaxial_area (a b c : ℝ) : Dbl :=
  let p : Dbl := 1.6075
  4 * fin Real.pi
    * pow ((pow a p * pow b p + pow a p * pow c p + pow b p * pow c p) / 3) (1 / p)

/-! ### Every shape, and shapes of positive dimensions -/

/-- An object seen through `polyhedron*`: one of the five classes derived from
`polyhedron`. -/
inductive polyhedron where
  | cube (s : cube)
  | cuboid (s : cuboid)
  | ellipsoid (s : ellipsoid)
  | sphere (s : sphere)
  | prism (s : prism)

/-- The virtual call `area()` on a `polyhedron*`. -/
def polyhedron.area : polyhedron → Dbl
  | .cube s => s.area
  | .cuboid s => s.area
  | .ellipsoid s => s.area
  | .sphere s => s.area
  | .prism s => s.area

/-- The virtual call `volume()` on a `polyhedron*`. -/
def polyhedron.volume : polyhedron → Dbl
  | .cube s => s.volume
  | .cuboid s => s.volume
  | .ellipsoid s => s.volume
  | .sphere s => s.volume
  | .prism s => s.volume

/-- An object seen through `shape*`, as the entries of the array `shapes` of
`main`. -/
inductive shape where
  | polygon (p : polygon)
  | polyhedron (p : polyhedron)

/-- The virtual call `area()` on a `shape*`. -/
def shape.area : shape → Dbl
  | .polygon p => p.area
  | .polyhedron p => p.area

/-- The virtual call `volume()` on a `shape*`. -/
def shape.volume : shape → Dbl
  | .polygon p => p.volume
  | .polyhedron p => p.volume

/-- A value is non-negative: a finite number that is at least 0. -/
def Dbl.nonneg (x : Dbl) : Prop :=
  ∃ r : ℝ, x = fin r ∧ 0 ≤ r

/-- All the dimensions of a 2-D shape are strictly positive. -/
def polygon.dims_pos : polygon → Prop
  | .square s => 0 < s.length
  | .rectangle s => 0 < s.length ∧ 0 < s.height
  | .ellipse s => 0 < s.semi_axis_a ∧ 0 < s.semi_axis_b
  | .circle s => 0 < s.radius

/-- All the dimensions of a 3-D shape are strictly positive; for a prism,
those of its base and its height. -/
def polyhedron.dims_pos : polyhedron → Prop
  | .cube s => 0 < s.width
  | .cuboid s => 0 < s.width ∧ 0 < s.depth ∧ 0 < s.height
  | .ellipsoid s => 0 < s.semi_axis_a ∧ 0 < s.semi_axis_b ∧ 0 < s.semi_axis_c
  | .sphere s => 0 < s.radius
  | .prism s => s.face.dims_pos ∧ 0 < s.height

/-- All the dimensions of a shape are strictly positive. -/
def shape.dims_pos : shape → Prop
  | .polygon p => p.dims_pos
  | .polyhedron p => p.dims_pos

/-! ### Sign change and comparisons of `double`

The comparisons are those of IEEE 754 on values that are finite or NaN: a
comparison with a NaN is false.  They are used for the class `complex`, where
no operation yields an infinity from finite operands (the one division is
guarded, and over exact reals its divisor is zero only when the guard
holds), so that a value that is not finite is a NaN there. -/

/-- The unary minus. -/
instance : Neg Dbl := ⟨map₁ fun x => fin (-x)⟩

/-- The comparison `x == y`: false when an operand is a NaN. -/
def Dbl.is_eq : Dbl → Dbl → Prop
  | fin x, fin y => x = y
  | _, _ => False

/-- The comparison `x < y`: false when an operand is a NaN. -/
def Dbl.is_lt : Dbl → Dbl → Prop
  | fin x, fin y => x < y
  | _, _ => False

/-- The comparison `x > y`: false when an operand is a NaN. -/
def Dbl.is_gt : Dbl → Dbl → Prop
  | fin x, fin y => x > y
  | _, _ => False

/-- The comparison `x >= y`: false when an operand is a NaN. -/
def Dbl.is_ge : Dbl → Dbl → Prop
  | fin x, fin y => x ≥ y
  | _, _ => False

instance (x y : Dbl) : Decidable (Dbl.is_eq x y) := Classical.propDecidable _

instance (x y : Dbl) : Decidable (Dbl.is_lt x y) := Classical.propDecidable _

instance (x y : Dbl) : Decidable (Dbl.is_gt x y) := Classical.propDecidable _

instance (x y : Dbl) : Decidable (Dbl.is_ge x y) := Classical.propDecidable _

end Shapes

/-!
Part 2: the class `complex` of `complex_numbers_as_classes_final.cpp`

A `complex` object holds two values of type `double`; they are modelled by
`Shapes.Dbl`, with the same conventions as for the shapes.
-/

namespace ComplexNumbers

open Shapes Shapes.Dbl

/-- The macro `M_PI` of `<cmath>`: the number π. -/
def M_PI : Dbl := fin Real.pi

/-- The class `complex`: its two private components. -/
structure complex where
  real : Dbl
  imaginary : Dbl

/-- The method `complex::re`. -/
def complex.re (z : complex) : Dbl :=
  z.real

/-- The method `complex::im`. -/
def complex.im (z : complex) : Dbl :=
  z.imaginary

/-- The method `complex::modulus`. -/
def complex.modulus (z : complex) : Dbl :=
  sqrt (z.real * z.real + z.imaginary * z.imaginary)

/-- The method `complex::conjugate`. -/
def complex.conjugate (z : complex) : complex :=
  ⟨z.real, -z.imaginary⟩

/-- The method `complex::argument(bool positive)`; the parameter defaults to
`false` in the source. -/
def complex.argument (z : complex) (positive : Bool) : Dbl :=
  if Dbl.is_eq z.imaginary 0 then
    if Dbl.is_gt z.real 0 then 0
    else if Dbl.is_lt z.real 0 then M_PI
    else nan
  else if Dbl.is_ge z.imaginary 0 ∨ positive = false then
    2 * atan ((z.modulus - z.real) / z.imaginary)
  else
    2 * atan ((z.modulus - z.real) / z.imaginary) + (2 * M_PI)

/-- The operator `operator+`. -/
def complex.add (a b : complex) : complex :=
  let new_real : Dbl := a.real + b.real
  let new_imaginary : Dbl := a.imaginary + b.imaginary
  ⟨new_real, new_imaginary⟩

/-- The operator `operator-`. -/
def complex.sub (a b : complex) : complex :=
  let new_real : Dbl := a.real - b.real
  let new_imaginary : Dbl := a.imaginary - b.imaginary
  ⟨new_real, new_imaginary⟩

/-- The operator `operator*`. -/
def complex.mul (a b : complex) : complex :=
  let new_real : Dbl := (a.real * b.real) - (a.imaginary * b.imaginary)
  let new_imaginary : Dbl := (a.imaginary * b.real) + (a.real * b.imaginary)
  ⟨new_real, new_imaginary⟩

/-- The operator `operator/`. -/
def complex.div (a b : complex) : complex :=
  if Dbl.is_eq b.real 0 ∧ Dbl.is_eq b.imaginary 0 then
    ⟨nan, nan⟩
  else
    let denominator : Dbl := (b.real * b.real) + (b.imaginary * b.imaginary)
    let new_real : Dbl := ((a.real * b.real) + (a.imaginary * b.imaginary)) / denominator
    let new_imaginary : Dbl := ((a.imaginary * b.real) - (a.real * b.imaginary)) / denominator
    ⟨new_real, new_imaginary⟩

/-- The operator `operator/=`: the value of `a` after the call (the operator
returns a copy of it). -/
def complex.div_assign (a b : complex) : complex :=
  if Dbl.is_eq b.real 0 ∧ Dbl.is_eq b.imaginary 0 then
    ⟨nan, nan⟩
  else
    let denominator : Dbl := (b.real * b.real) + (b.imaginary * b.imaginary)
    let temp_real : Dbl := ((a.real * b.real) + (a.imaginary * b.imaginary)) / denominator
    let temp_imaginary : Dbl := ((a.imaginary * b.real) - (a.real * b.imaginary)) / denominator
    ⟨temp_real, temp_imaginary⟩

instance : Add complex := ⟨complex.add⟩

instance : Sub complex := ⟨complex.sub⟩

instance : Mul complex := ⟨complex.mul⟩

instance : Div complex := ⟨complex.div⟩

/-- The complex number of Mathlib with the same two finite components. -/
def toComplex (x y : ℝ) : ℂ :=
  ⟨x, y⟩

end ComplexNumbers

/-!
Part 3: the statistics of `grade_fetch_and_statistics_final.cpp`

The grades read from the file are finite numbers; the computations on them are
made in `Shapes.Dbl`.  An `int` is modelled by an integer; the one conversion
that can leave the range of `int`, from the size of the vector, is made
explicit in `to_int`.
-/

namespace CourseList

open Shapes Shapes.Dbl

/-- The conversion of a `std::size_t` to `int` in `int length{grades.size()}`:
the value modulo `2^32`, taken in the range of `int`. -/
def to_int (size : ℕ) : ℤ :=
  ((size : ℤ) + 2 ^ 31) % 2 ^ 32 - 2 ^ 31

/-- The conversion of an `int` to `double` in an arithmetic expression. -/
def int_to_double (i : ℤ) : Dbl :=
  fin (i : ℝ)

/-- The function `grade_mean`. -/
def grade_mean (grades : List ℝ) (length : ℤ) : Dbl :=
  let sum : Dbl := grades.foldl (fun (sum : Dbl) (grade : ℝ) => sum + (grade : Dbl)) 0
  sum / int_to_double length

/-- The function `grade_stand_dev`. -/
def grade_stand_dev (grades : List ℝ) (mean : Dbl) (length : ℤ) : Dbl :=
  let difference_sum : Dbl :=
    grades.foldl
      (fun (difference_sum : Dbl) (grade : ℝ) => difference_sum + pow ((grade : Dbl) - mean) 2) 0
  pow (difference_sum / int_to_double (length - 1)) 0.5

/-- The function `grade_stand_err`. -/
def grade_stand_err (stand_dev : Dbl) (length : ℤ) : Dbl :=
  stand_dev * pow (int_to_double length) (-0.5)

/-- The function `grade_statistics`: the mean, the standard deviation and the
standard error that it computes and prints. -/
def grade_statistics (grades : List ℝ) : Dbl × Dbl × Dbl :=
  let length : ℤ := to_int grades.length
  let mean_grade : Dbl := grade_mean grades length
  let grade_deviation : Dbl := grade_stand_dev grades mean_grade length
  let mean_grade_error : Dbl := grade_stand_err grade_deviation length
  (mean_grade, grade_deviation, mean_grade_error)

/-- The mean of the header comment: the sum of the grades over their number. -/
def spec_mean (grades : List ℝ) : ℝ :=
  grades.sum / grades.length

/-- The standard deviation of the header comment: the root of the sum of the
squared differences to the mean over `n - 1`. -/
def spec_stand_dev (grades : List ℝ) : ℝ :=
  Real.sqrt ((grades.map fun g => (g - spec_mean grades) ^ 2).sum / ((grades.length : ℝ) - 1))

/-- The standard error of the header comment: the standard deviation over the
root of the number of grades. -/
def spec_stand_err (grades : List ℝ) : ℝ :=
  spec_stand_dev grades / Real.sqrt grades.length

end CourseList

/-!
Part 5: the energy of `bohr_atom_calculator.cpp`

The quantum numbers and the atomic number are of type `int`; they enter the
computation only through their conversion to `double`, so that an `int` is
modelled by an integer.
-/

namespace BohrAtom

open Shapes Shapes.Dbl

/-- The conversion of an `int` argument of `std::pow` to `double`. -/
def int_to_double (i : ℤ) : Dbl :=
  fin (i : ℝ)

/-- The constant `const double ev_to_J{1.60217663 * std::pow(10,-19)}`. -/
def ev_to_J : Dbl :=
  1.60217663 * pow 10 (-19)

/-- The function `delta_E_calc`. -/
def delta_E_calc (quantum_initial quantum_final atomic_no : ℤ) (convert : Bool) : Dbl :=
  let delta_E : Dbl :=
    13.6 * pow (int_to_double atomic_no) 2
      * (pow (int_to_double quantum_final) (-2) - pow (int_to_double quantum_initial) (-2))
  if convert then delta_E * ev_to_J else delta_E

/-- The energy in eV as the claim writes it:
`13.6 * Z^2 * (1/n_final^2 - 1/n_initial^2)`. -/
def spec_delta_E (n_initial n_final Z : ℤ) : ℝ :=
  13.6 * (Z : ℝ) ^ 2 * (1 / (n_final : ℝ) ^ 2 - 1 / (n_initial : ℝ) ^ 2)

end BohrAtom

end

/-!
Part 4: the Hubble types of `galaxies_as_classes_final.cpp`

The two stream operators are modelled on what they exchange with the stream:
`operator<<` by the string it inserts, `operator>>` by its effect on the
target and on the fail bit of `std::cin`, given the string that
`input >> input_string` has read.
-/

namespace Galaxies

/-- The enumeration `enum class hubble_class`. -/
inductive hubble_class where
  | E0 | E1 | E2 | E3 | E4 | E5 | E6 | E7 | S0 | Sa | Sb | Sc | SBa | SBb | SBc | Irr
  deriving DecidableEq, Repr

/-- The vector `hubble_types`. -/
def hubble_types : List String :=
  ["E0", "E1", "E2", "E3", "E4", "E5", "E6", "E7", "S0", "Sa", "Sb", "Sc",
   "SBa", "SBb", "SBc", "Irr"]

/-- The conversion `int(hubble_type)`: the rank of the enumerator. -/
def hubble_class.to_int : hubble_class → ℕ
  | .E0 => 0 | .E1 => 1 | .E2 => 2 | .E3 => 3 | .E4 => 4 | .E5 => 5 | .E6 => 6 | .E7 => 7
  | .S0 => 8 | .Sa => 9 | .Sb => 10 | .Sc => 11 | .SBa => 12 | .SBb => 13 | .SBc => 14
  | .Irr => 15

/-- The conversion `hubble_class{index}` of an index of `hubble_types`. -/
def hubble_class.of_index (index : ℕ) (h : index < hubble_types.length) : hubble_class :=
  match index, h with
  | 0, _ => .E0 | 1, _ => .E1 | 2, _ => .E2 | 3, _ => .E3 | 4, _ => .E4 | 5, _ => .E5
  | 6, _ => .E6 | 7, _ => .E7 | 8, _ => .S0 | 9, _ => .Sa | 10, _ => .Sb | 11, _ => .Sc
  | 12, _ => .SBa | 13, _ => .SBb | 14, _ => .SBc | 15, _ => .Irr
  | n + 16, h => absurd h (Nat.not_lt.mpr (Nat.le_add_left 16 n))

/-- The operator `operator<<` for `hubble_class`: the string it inserts,
`hubble_types[int(hubble_type)]`. -/
def insert_string (hubble_type : hubble_class) : String :=
  hubble_types.get ⟨hubble_type.to_int, by cases hubble_type <;> decide⟩

/-- The operator `operator>>` for `hubble_class`, after `input >> input_string`:
the new value of the target and the new fail bit of `std::cin`. The position
found by `std::find` is counted from `hubble_types.begin()`; it is the size of
the vector when the string is absent. -/
def extract (input_string : String) (hubble_type : hubble_class) (failbit : Bool) :
    hubble_class × Bool :=
  let position : ℕ := hubble_types.indexOf input_string
  if h : position < hubble_types.length ∧ position ≥ 0 then
    let index : ℕ := position
    (hubble_class.of_index index h.1, failbit)
  else
    (hubble_type, true)

end Galaxies

/-!
Part 6: the selection of a year in `grade_fetch_and_statistics_final.cpp`

The vectors are lists; an `int` index is an integer.  The unchecked access
`v[i]` has no defined result outside the vector: the loop that makes one
returns `none`.
-/

namespace CourseList

/-- The loop of `selection_menu` from the iterator at distance `index` of
`years.begin()` on: the indices pushed back to `selection_indices`. -/
def selection_loop (selection : ℤ) : List ℤ → ℤ → List ℤ → List ℤ
  | [], _, selection_indices => selection_indices
  | year :: rest, index, selection_indices =>
    if selection ≠ 0 then
      if year = selection then
        selection_loop selection rest (index + 1) (selection_indices ++ [index])
      else
        selection_loop selection rest (index + 1) selection_indices
    else
      selection_loop selection rest (index + 1) (selection_indices ++ [index])

/-- The function `selection_menu`, after the validated input `selection`: the
new value of `selection_indices`. -/
def selection_menu (years : List ℤ) (selection : ℤ) (selection_indices : List ℤ) : List ℤ :=
  selection_loop selection years 0 selection_indices

/-- The unchecked access `v[i]` with an `int` index. -/
def at_index {α : Type} (v : List α) (i : ℤ) : Option α :=
  if 0 ≤ i then v.get? i.toNat else none

/-- The three vectors that the reduction of `main` leaves for `sorting`. -/
structure selection where
  selection_indices : List ℤ
  selection_grades : List ℝ
  selection_titles : List String

/-- The loop of `main` over `selection_indices`, from `index_current` on: the
entries before `index_current` are already corrected and are kept in the
state, with the grades and titles pushed back so far. -/
def reduction_loop (grades : List ℝ) (course_titles : List String) (first_index : ℤ) :
    List ℤ → selection → Option selection
  | [], state => some state
  | index_current :: rest, state =>
    match at_index grades index_current, at_index course_titles index_current with
    | some grade, some title =>
      reduction_loop grades course_titles first_index rest
        ⟨state.selection_indices ++ [index_current - first_index],
          state.selection_grades ++ [grade], state.selection_titles ++ [title]⟩
    | _, _ => none

/-- The reduction of `main` to the requested entries, lines 82 to 105: the
vectors `selection_indices`, `selection_grades` and `selection_titles` after
it. Reading `*index_first` of an empty selection has no defined result. -/
def reduce_selection (grades : List ℝ) (course_titles : List String) (years : List ℤ)
    (selection_indices : List ℤ) : Option selection :=
  if selection_indices.length ≠ years.length then
    match selection_indices with
    | [] => none
    | first_index :: _ =>
      reduction_loop grades course_titles first_index selection_indices ⟨[], [], []⟩
  else
    some ⟨selection_indices, grades, course_titles⟩

end CourseList

noncomputable section

/-!
Part 7: the same methods in binary64 arithmetic

The parts above give the value of each expression over exact reals.  Whether
two different computations agree, whether a result keeps a sign or a range,
depends on what `double` arithmetic does to that value: this part models it.
A `double` is a finite number, an infinity or a NaN (`F64`); every operation
returns the exact result rounded to the nearest number of 53 significant bits
with an exponent from -1074 on, ties to even, and an infinity when the rounded
result reaches `2^1024`, as IEEE 754 prescribes for `+`, `-`, `*`, `/` and
`sqrt`.  The functions of `<cmath>` (`pow`, `atan`) are taken as correctly
rounded; the theorems below use them where the exact result is a `double`,
where it underflows to zero, for its sign, and within the relative error
`2^-53` of a rounding.  The sign of a zero is not
kept: a zero divisor is taken as `+0`, which is what every zero divisor of
the methods below is.  The dimensions of a shape and the components of a
complex number are given by their values, which are `double`s.
-/

namespace Binary64

/-- A value of type `double` in binary64. -/
inductive F64 where
  | fin (x : ℝ)
  | pinf
  | ninf
  | nan

open F64

/-- The nearest integer, ties to even. -/
def round_even (t : ℝ) : ℤ :=
  if t - ⌊t⌋ < 1 / 2 then ⌊t⌋
  else if 1 / 2 < t - ⌊t⌋ then ⌊t⌋ + 1
  else if Even ⌊t⌋ then ⌊t⌋
  else ⌊t⌋ + 1

/-- The exponent of the unit in the last place of `x`: 53 significant bits,
and never below the exponent -1074 of the subnormal numbers. -/
def ulp_exponent (x : ℝ) : ℤ :=
  max (Int.log 2 |x| - 52) (-1074)

/-- Rounding to the nearest multiple of the unit in the last place, ties to
even, before the test of overflow. -/
def round_unbounded (x : ℝ) : ℝ :=
  (round_even (x / (2 : ℝ) ^ ulp_exponent x) : ℝ) * (2 : ℝ) ^ ulp_exponent x

/-- Rounding to binary64: an infinity when the rounded value reaches `2^1024`. -/
def round_nearest (x : ℝ) : F64 :=
  if (2 : ℝ) ^ (1024 : ℤ) ≤ round_unbounded x then pinf
  else if round_unbounded x ≤ -(2 : ℝ) ^ (1024 : ℤ) then ninf
  else fin (round_unbounded x)

/-- The infinity of the sign of `s`; a NaN when `s` is zero. -/
def inf_of_sign (s : ℝ) : F64 :=
  if 0 < s then pinf else if s < 0 then ninf else nan

/-- The unary minus. -/
def neg : F64 → F64
  | fin x => fin (-x)
  | pinf => ninf
  | ninf => pinf
  | nan => nan

/-- The addition. -/
def add : F64 → F64 → F64
  | fin x, fin y => round_nearest (x + y)
  | fin _, pinf => pinf
  | fin _, ninf => ninf
  | pinf, fin _ => pinf
  | pinf, pinf => pinf
  | ninf, fin _ => ninf
  | ninf, ninf => ninf
  | _, _ => nan

/-- The subtraction. -/
def sub (x y : F64) : F64 :=
  add x (neg y)

/-- The multiplication; an infinity times zero is a NaN. -/
def mul : F64 → F64 → F64
  | fin x, fin y => round_nearest (x * y)
  | fin x, pinf => inf_of_sign x
  | fin x, ninf => inf_of_sign (-x)
  | pinf, fin y => inf_of_sign y
  | ninf, fin y => inf_of_sign (-y)
  | pinf, pinf => pinf
  | pinf, ninf => ninf
  | ninf, pinf => ninf
  | ninf, ninf => pinf
  | _, _ => nan

/-- The division; a non-zero number over zero is an infinity, zero over zero
and an infinity over an infinity are NaN. -/
def div : F64 → F64 → F64
  | fin x, fin y => if y = 0 then inf_of_sign x else round_nearest (x / y)
  | fin _, pinf => fin 0
  | fin _, ninf => fin 0
  | pinf, fin y => if 0 ≤ y then pinf else ninf
  | ninf, fin y => if 0 ≤ y then ninf else pinf
  | _, _ => nan

instance : Coe ℝ F64 := ⟨fin⟩

instance (n : ℕ) : OfNat F64 n := ⟨fin (n : ℝ)⟩

instance : Neg F64 := ⟨neg⟩

instance : Add F64 := ⟨add⟩

instance : Sub F64 := ⟨sub⟩

instance : Mul F64 := ⟨mul⟩

instance : Div F64 := ⟨div⟩

/-- The comparison `x == y`. -/
def F64.is_eq : F64 → F64 → Prop
  | fin x, fin y => x = y
  | pinf, pinf => True
  | ninf, ninf => True
  | _, _ => False

/-- The comparison `x > y`. -/
def F64.is_gt : F64 → F64 → Prop
  | fin x, fin y => x > y
  | pinf, fin _ => True
  | pinf, ninf => True
  | fin _, ninf => True
  | _, _ => False

/-- The comparison `x < y`. -/
def F64.is_lt (x y : F64) : Prop :=
  F64.is_gt y x

/-- The comparison `x >= y`. -/
def F64.is_ge (x y : F64) : Prop :=
  F64.is_gt x y ∨ F64.is_eq x y

/-- The function `std::pow(x, y)` for a finite exponent `y`, as in every call
of the source. -/
def pow (x : F64) (y : ℝ) : F64 :=
  match x with
  | fin a =>
    if a < 0 ∧ ((⌊y⌋ : ℤ) : ℝ) ≠ y then nan
    else if a = 0 ∧ y < 0 then pinf
    else round_nearest (a ^ y)
  | pinf => if 0 < y then pinf else if y < 0 then fin 0 else fin 1
  | ninf =>
    if 0 < y then (if ((⌊y⌋ : ℤ) : ℝ) = y ∧ Odd ⌊y⌋ then ninf else pinf)
    else if y < 0 then fin 0
    else fin 1
  | nan => if y = 0 then fin 1 else nan

/-- The function `std::sqrt`. -/
def sqrt : F64 → F64
  | fin a => if a < 0 then nan else round_nearest (Real.sqrt a)
  | pinf => pinf
  | _ => nan

/-- The function `std::atan`. -/
def atan : F64 → F64
  | fin a => round_nearest (Real.arctan a)
  | pinf => round_nearest (Real.pi / 2)
  | ninf => round_nearest (-(Real.pi / 2))
  | nan => nan

/-- The constant `const double pi{4*atan(1)}`. -/
def pi : F64 := 4 * atan 1

/-- The macro `M_PI` of `<cmath>`: the `double` nearest to π. -/
def M_PI : F64 := round_nearest Real.pi

/-- The method `square::perimeter`. -/
def square.perimeter (s : Shapes.square) : F64 :=
  4 * (s.length : F64)

/-- The method `rectangle::perimeter`. -/
def rectangle.perimeter (s : Shapes.rectangle) : F64 :=
  2 * ((s.length : F64) + s.height)

/-- The method `cube::area`. -/
def cube.area (s : Shapes.cube) : F64 :=
  6 * pow s.width 2

/-- The method `cube::volume`. -/
def cube.volume (s : Shapes.cube) : F64 :=
  pow s.width 3

/-- The method `circle::perimeter`. -/
def circle.perimeter (s : Shapes.circle) : F64 :=
  2 * pi * s.radius

/-- The method `circle::area`. -/
def circle.area (s : Shapes.circle) : F64 :=
  pi * pow s.radius 2

/-- The method `sphere::area`. -/
def sphere.area (s : Shapes.sphere) : F64 :=
  4 * pi * pow s.radius 2

/-- The method `sphere::volume`. -/
def sphere.volume (s : Shapes.sphere) : F64 :=
  (4 * pi * pow s.radius 3) / 3

/-- The method `ellipsoid::volume`. -/
def ellipsoid.volume (s : Shapes.ellipsoid) : F64 :=
  (4 * (s.semi_axis_a : F64) * s.semi_axis_b * s.semi_axis_c) / 3

/-- The method `ellipse::perimeter` (Ramanujan approximation). -/
def ellipse.perimeter (s : Shapes.ellipse) : F64 :=
  pi * (3 * ((s.semi_axis_a : F64) + s.semi_axis_b)
    - pow ((3 * (s.semi_axis_a : F64) + s.semi_axis_b) * ((s.semi_axis_a : F64) + 3 * s.semi_axis_b)) 0.5)

/-- The virtual call `perimeter()` on a `polygon*`. -/
def polygon.perimeter : Shapes.polygon → F64
  | .square s => square.perimeter s
  | .rectangle s => rectangle.perimeter s
  | .ellipse s => ellipse.perimeter s
  | .circle s => circle.perimeter s

/-- All the dimensions of a 2-D shape lie between `l` and `u`. -/
def polygon.dims_between (l u : ℝ) : Shapes.polygon → Prop
  | .square s => l ≤ s.length ∧ s.length ≤ u
  | .rectangle s => (l ≤ s.length ∧ s.length ≤ u) ∧ (l ≤ s.height ∧ s.height ≤ u)
  | .ellipse s => (l ≤ s.semi_axis_a ∧ s.semi_axis_a ≤ u) ∧
      (l ≤ s.semi_axis_b ∧ s.semi_axis_b ≤ u)
  | .circle s => l ≤ s.radius ∧ s.radius ≤ u

/-- The class `complex`: its two private components. -/
structure complex where
  real : F64
  imaginary : F64

/-- The method `complex::modulus`. -/
def complex.modulus (z : complex) : F64 :=
  sqrt (z.real * z.real + z.imaginary * z.imaginary)

open Classical in
/-- The method `complex::argument(bool positive)`. -/
def complex.argument (z : complex) (positive : Bool) : F64 :=
  if F64.is_eq z.imaginary 0 then
    if F64.is_gt z.real 0 then 0
    else if F64.is_lt z.real 0 then M_PI
    else nan
  else if F64.is_ge z.imaginary 0 ∨ positive = false then
    2 * atan ((z.modulus - z.real) / z.imaginary)
  else
    2 * atan ((z.modulus - z.real) / z.imaginary) + (2 * M_PI)

end Binary64

end

namespace Shapes

open Dbl

/-! ### Arithmetic of `Dbl` on finite numbers -/

namespace Dbl

@[simp] theorem fin_add_fin (x y : ℝ) : (fin x + fin y : Dbl) = fin (x + y) := rfl

@[simp] theorem fin_sub_fin (x y : ℝ) : (fin x - fin y : Dbl) = fin (x - y) := rfl

@[simp] theorem fin_mul_fin (x y : ℝ) : (fin x * fin y : Dbl) = fin (x * y) := rfl

theorem fin_div_fin (x y : ℝ) :
    (fin x / fin y : Dbl) = if y = 0 then nan else fin (x / y) := rfl

@[simp] theorem fin_div_fin_of_ne {x y : ℝ} (h : y ≠ 0) : (fin x / fin y : Dbl) = fin (x / y) := by
  rw [fin_div_fin, if_neg h]

@[simp] theorem fin_div_zero (x : ℝ) : (fin x / fin 0 : Dbl) = nan := by
  rw [fin_div_fin, if_pos rfl]

@[simp] theorem ofNat_eq (n : ℕ) : (OfNat.ofNat n : Dbl) = fin (n : ℝ) := rfl

@[simp] theorem add_nan (x : Dbl) : (x + nan : Dbl) = nan := by cases x <;> rfl

@[simp] theorem nan_mul (x : Dbl) : (nan * x : Dbl) = nan := rfl

@[simp] theorem mul_nan (x : Dbl) : (x * nan : Dbl) = nan := by cases x <;> rfl

@[simp] theorem sub_nan (x : Dbl) : (x - nan : Dbl) = nan := by cases x <;> rfl

@[simp] theorem div_nan (x : Dbl) : (x / nan : Dbl) = nan := by cases x <;> rfl

end Dbl

/-- The constant `pi` is the number π. -/
theorem pi_eq : pi = fin Real.pi := by
  delta pi atan map₁
  simp only [Dbl.ofNat_eq, Dbl.fin_mul_fin]
  congr 1
  simp only [Nat.cast_ofNat, Nat.cast_one, Real.arctan_one]
  ring

/-- A power with a natural exponent is the finite power. -/
theorem pow_natCast (x : ℝ) (n : ℕ) : pow (fin x) (fin (n : ℝ)) = fin (x ^ n) := by
  have h1 : ¬ (x < 0 ∧ ((⌊(n : ℝ)⌋ : ℤ) : ℝ) ≠ (n : ℝ)) := by
    rintro ⟨-, h⟩
    exact h (by simp)
  have h2 : ¬ (x = 0 ∧ (n : ℝ) < 0) := by
    rintro ⟨-, h⟩
    exact absurd h (not_lt.mpr (Nat.cast_nonneg n))
  delta pow map₂
  simp only [if_neg h1, if_neg h2, Real.rpow_natCast]

/-- The call `std::pow(x, 2)`. -/
theorem pow_two_eq (x : ℝ) : pow (fin x) 2 = fin (x ^ 2) :=
  pow_natCast x 2

/-- The call `std::pow(x, 3)`. -/
theorem pow_three_eq (x : ℝ) : pow (fin x) 3 = fin (x ^ 3) :=
  pow_natCast x 3

@[simp] theorem pow_fin_two (x : ℝ) : pow (fin x) (fin 2) = fin (x ^ 2) := by
  have h := pow_natCast x 2
  simpa using h

@[simp] theorem pow_fin_three (x : ℝ) : pow (fin x) (fin 3) = fin (x ^ 3) := by
  have h := pow_natCast x 3
  simpa using h

/-- The call `std::pow(x, 0.5)`: the square root, NaN below zero. -/
theorem pow_half_eq (x : ℝ) : pow (fin x) 0.5 = if x < 0 then nan else fin (Real.sqrt x) := by
  have hfl : ((⌊(0.5 : ℝ)⌋ : ℤ) : ℝ) ≠ (0.5 : ℝ) := by
    have h0 : ⌊(0.5 : ℝ)⌋ = 0 := by
      rw [Int.floor_eq_iff]; norm_num
    rw [h0]; norm_num
  have h2 : ¬ (x = 0 ∧ (0.5 : ℝ) < 0) := by
    rintro ⟨-, h⟩; norm_num at h
  have hpow : pow (fin x) 0.5 = pow (fin x) (fin (0.5 : ℝ)) := rfl
  rw [hpow]
  by_cases hx : x < 0
  · have h1 : x < 0 ∧ ((⌊(0.5 : ℝ)⌋ : ℤ) : ℝ) ≠ (0.5 : ℝ) := ⟨hx, hfl⟩
    delta pow map₂
    simp only [if_pos h1, if_pos hx]
  · have h1 : ¬ (x < 0 ∧ ((⌊(0.5 : ℝ)⌋ : ℤ) : ℝ) ≠ (0.5 : ℝ)) := fun h => hx h.1
    delta pow map₂
    simp only [if_neg h1, if_neg h2, if_neg hx]
    congr 1
    rw [Real.sqrt_eq_rpow]; norm_num

/-! ### The claims on the shape hierarchy -/

/-- C1. For every 2-D base `B` and every height `h > 0`, the volume of
`prism(B, h)` is `B.area() * h` and its area is
`2 * B.area() + B.perimeter() * h`. -/
theorem prism_identity (B : polygon) (h : ℝ) (_hh : 0 < h) :
    (prism.mk B h).volume = B.area * (h : Dbl) ∧
      (prism.mk B h).area = 2 * B.area + B.perimeter * (h : Dbl) :=
  ⟨rfl, rfl⟩

/-- Witness of C1: the prism of height 4 over the square of side 2, as built
in `main`: volume 16, area 40. -/
theorem prism_identity_witness :
    (0 : ℝ) < 4 ∧ (prism.mk (polygon.square ⟨2⟩) 4).volume = fin 16 ∧
      (prism.mk (polygon.square ⟨2⟩) 4).area = fin 40 := by
  obtain ⟨hv, ha⟩ := prism_identity (polygon.square ⟨2⟩) 4 (by norm_num)
  refine ⟨by norm_num, ?_, ?_⟩
  · rw [hv]
    delta polygon.area square.area
    simp only [pow_two_eq, Dbl.fin_mul_fin]
    norm_num
  · rw [ha]
    delta polygon.area polygon.perimeter square.area square.perimeter
    simp only [pow_two_eq, Dbl.ofNat_eq, Dbl.fin_mul_fin, Dbl.fin_add_fin]
    norm_num

/-- C5. For every `s > 0`, `square(s)` has area `s^2`, perimeter `4*s` and
volume 0; `square(2)` has area 4, perimeter 8 and volume 0. -/
theorem square_properties (s : ℝ) (_hs : 0 < s) :
    ((square.mk s).area = fin (s ^ 2) ∧ (square.mk s).perimeter = fin (4 * s) ∧
      (polygon.square (square.mk s)).volume = fin 0) ∧
    ((square.mk 2).area = fin 4 ∧ (square.mk 2).perimeter = fin 8 ∧
      (polygon.square (square.mk 2)).volume = fin 0) := by
  refine ⟨⟨pow_two_eq s, ?_, ?_⟩, ?_, ?_, ?_⟩
  · delta square.perimeter
    simp
  · delta polygon.volume
    simp
  · delta square.area
    simp only [pow_two_eq]; norm_num
  · delta square.perimeter
    simp only [Dbl.ofNat_eq, Dbl.fin_mul_fin]; norm_num
  · delta polygon.volume
    simp

/-- Witness of C5 at side 3: area 9, perimeter 12. -/
theorem square_properties_witness :
    (0 : ℝ) < 3 ∧ (square.mk 3).area = fin 9 ∧ (square.mk 3).perimeter = fin 12 := by
  obtain ⟨⟨ha, hp, -⟩, -⟩ := square_properties 3 (by norm_num)
  refine ⟨by norm_num, ?_, ?_⟩
  · rw [ha]; norm_num
  · rw [hp]; norm_num

/-- C6. For every 2-D variant and every choice of dimensions, `volume()`
returns exactly 0. -/
theorem polygon_volume_zero (l h a b r : ℝ) :
    (∀ p : polygon, p.volume = fin 0) ∧
      (polygon.square ⟨l⟩).volume = fin 0 ∧ (polygon.rectangle ⟨l, h⟩).volume = fin 0 ∧
      (polygon.ellipse ⟨a, b⟩).volume = fin 0 ∧ (polygon.circle ⟨r⟩).volume = fin 0 := by
  have h0 : ∀ p : polygon, p.volume = fin 0 := fun p => by (delta polygon.volume; simp)
  exact ⟨h0, h0 _, h0 _, h0 _, h0 _⟩

/-- C10. For every `w`, `d`, `h`, `cuboid(w, d, h)` has area
`2*(w*d + w*h + d*h)` and volume `w*d*h`; `cuboid(2, 3, 4)` has area 52 and
volume 24. -/
theorem cuboid_properties (w d h : ℝ) :
    ((cuboid.mk w d h).area = fin (2 * (w * d + w * h + d * h)) ∧
      (cuboid.mk w d h).volume = fin (w * d * h)) ∧
    ((cuboid.mk 2 3 4).area = fin 52 ∧ (cuboid.mk 2 3 4).volume = fin 24) := by
  refine ⟨⟨?_, ?_⟩, ?_, ?_⟩
  · delta cuboid.area
    simp
  · delta cuboid.volume
    simp
  · delta cuboid.area
    simp only [Dbl.ofNat_eq, Dbl.fin_mul_fin, Dbl.fin_add_fin]; norm_num
  · delta cuboid.volume
    simp only [Dbl.fin_mul_fin]; norm_num

/-- The value of `sphere::area` over the reals. -/
theorem sphere_area_value (r : ℝ) : (sphere.mk r).area = fin (4 * Real.pi * r ^ 2) := by
  delta sphere.area
  simp [pi_eq]

/-- The value of `sphere::volume` over the reals. -/
theorem sphere_volume_value (r : ℝ) :
    (sphere.mk r).volume = fin ((4 * Real.pi * r ^ 3) / 3) := by
  have h3 : ((3 : ℕ) : ℝ) ≠ 0 := by norm_num
  delta sphere.volume
  simp only [pi_eq, Dbl.ofNat_eq, pow_natCast, Dbl.fin_mul_fin, Dbl.fin_div_fin_of_ne h3]
  norm_num

/-- On every value, `std::pow(x, 2)` is the square. -/
theorem pow_two_eq_sq (x : Dbl) : pow x 2 = x ^ 2 := by
  cases x with
  | fin r => exact pow_two_eq r
  | nan => rfl

/-- On every value, `std::pow(x, 0.5)` is `sqrt(x)`. -/
theorem pow_half_eq_sqrt (x : Dbl) : pow x 0.5 = sqrt x := by
  cases x with
  | fin r => exact pow_half_eq r
  | nan => rfl

/-- For equal semi-axes the eccentricity is zero and `ellipsoid::area`
divides by it: the result is not a finite number. -/
theorem ellipsoid_area_equal_axes (r : ℝ) : (ellipsoid.mk r r r).area = nan := by
  have hlt : ¬ r > r := lt_irrefl r
  by_cases hr : r = 0
  · subst hr
    have hpow : ∀ y : Dbl, pow nan y = nan := fun _ => rfl
    delta ellipsoid.area
    simp only [if_pos, if_neg hlt, Dbl.fin_div_zero, hpow, Dbl.sub_nan, Dbl.mul_nan,
      Dbl.div_nan, Dbl.add_nan, Dbl.nan_mul]
  · have h1 : (fin r / fin r : Dbl) = fin 1 := by
      rw [Dbl.fin_div_fin_of_ne hr, div_self hr]
    have h4 : pow (fin 0) 0.5 = fin 0 := by
      rw [pow_half_eq, if_neg (lt_irrefl 0), Real.sqrt_zero]
    delta ellipsoid.area
    simp only [if_pos, if_neg hlt, h1, pow_fin_two, Dbl.ofNat_eq, Nat.cast_one, Nat.cast_ofNat,
      Dbl.fin_sub_fin, one_pow, sub_self, h4, Dbl.fin_mul_fin, mul_zero, Dbl.fin_div_zero,
      Dbl.nan_mul, Dbl.add_nan, Dbl.mul_nan]

/-! ### The claims on the area of an ellipsoid -/

/-- C2, evaluated on the code. The claim is that for every `r > 0` the area of
`ellipsoid(r, r, r)` is the area `4*pi*r^2` of `sphere(r)`. On the code the
area of `sphere(r)` is `4*pi*r^2`, but the area of `ellipsoid(r, r, r)` is not
a finite number, for every `r`, and for `r = 2` in particular. -/
theorem ellipsoid_equal_axes_not_sphere (r : ℝ) :
    (ellipsoid.mk r r r).area = nan ∧ (sphere.mk r).area = fin (4 * Real.pi * r ^ 2) ∧
      (ellipsoid.mk r r r).area ≠ (sphere.mk r).area ∧
      (ellipsoid.mk 2 2 2).area = nan ∧ (sphere.mk 2).area = fin (16 * Real.pi) := by
  have hs : ∀ x : ℝ, (sphere.mk x).area = fin (4 * Real.pi * x ^ 2) := sphere_area_value
  refine ⟨ellipsoid_area_equal_axes r, hs r, ?_, ellipsoid_area_equal_axes 2, ?_⟩
  · rw [ellipsoid_area_equal_axes r, hs r]
    exact fun h => Dbl.noConfusion h
  · rw [hs 2]
    congr 1
    ring

/-- C3. The method `ellipsoid::area` selects its formula by the exact
equality of `a` and `b`: the oblate spheroid formula when `a = b` and `a > c`,
the prolate spheroid formula when `a = b` and `a < c`, and the triaxial
approximation with `p = 1.6075` for every `a != b`, whatever `c` is, also
when `c = a` or `c = b`. -/
theorem ellipsoid_area_formula (a b c : ℝ) :
    (a = b → a > c → (ellipsoid.mk a b c).area = spec_oblate_area a c) ∧
      (a = b → a < c → (ellipsoid.mk a b c).area = spec_prolate_area a c) ∧
      (a ≠ b → (ellipsoid.mk a b c).area = spec_triaxial_area a b c) ∧
      (a ≠ b → (ellipsoid.mk a b a).area = spec_triaxial_area a b a) ∧
      (a ≠ b → (ellipsoid.mk a b b).area = spec_triaxial_area a b b) := by
  have htri : ∀ z : ℝ, a ≠ b → (ellipsoid.mk a b z).area = spec_triaxial_area a b z := by
    intro z hab
    delta ellipsoid.area spec_triaxial_area
    simp only [if_neg hab, pi_eq]
  refine ⟨fun hab hac => ?_, fun hab hac => ?_, htri c, htri a, htri b⟩
  · delta ellipsoid.area spec_oblate_area
    simp only [if_pos hab, if_pos hac, pow_two_eq_sq, pow_half_eq_sqrt, pi_eq]
  · have hca : ¬ a > c := not_lt.mpr hac.le
    delta ellipsoid.area spec_prolate_area
    simp only [if_pos hab, if_neg hca, pow_two_eq_sq, pow_half_eq_sqrt, pi_eq]

/-! ### The claims on cylinders, ellipses and signs -/

/-- The value of `circle::area` over the reals. -/
theorem circle_area_value (r : ℝ) : (circle.mk r).area = fin (Real.pi * r ^ 2) := by
  delta circle.area
  simp [pi_eq]

/-- The value of `circle::perimeter` over the reals. -/
theorem circle_perimeter_value (r : ℝ) : (circle.mk r).perimeter = fin (2 * Real.pi * r) := by
  delta circle.perimeter
  simp [pi_eq]

/-- The value of `ellipse::area` over the reals. -/
theorem ellipse_area_value (a b : ℝ) : (ellipse.mk a b).area = fin (Real.pi * a * b) := by
  delta ellipse.area
  simp [pi_eq]

/-- The value of `ellipse::perimeter` over the reals, when the product under
the root is not negative. -/
theorem ellipse_perimeter_value {a b : ℝ} (h : 0 ≤ (3 * a + b) * (a + 3 * b)) :
    (ellipse.mk a b).perimeter =
      fin (Real.pi * (3 * (a + b) - Real.sqrt ((3 * a + b) * (a + 3 * b)))) := by
  have h4 : pow (fin ((3 * a + b) * (a + 3 * b))) 0.5
      = fin (Real.sqrt ((3 * a + b) * (a + 3 * b))) := by
    rw [pow_half_eq, if_neg (not_lt.mpr h)]
  delta ellipse.perimeter
  simp only [pi_eq, Dbl.ofNat_eq, Nat.cast_ofNat, Dbl.fin_mul_fin, Dbl.fin_add_fin, h4,
    Dbl.fin_sub_fin]

/-- The inequality behind the sign of the Ramanujan approximation. -/
theorem ramanujan_root_le {a b : ℝ} (ha : 0 < a) (hb : 0 < b) :
    Real.sqrt ((3 * a + b) * (a + 3 * b)) ≤ 3 * (a + b) := by
  rw [Real.sqrt_le_iff]
  constructor
  · positivity
  · nlinarith [sq_nonneg (a - b), sq_nonneg (a + b), mul_pos ha hb]

/-- C11. For every `r >= 0` and height `h`, the prism over `circle(r)` is the
cylinder: its area is `2*pi*r^2 + 2*pi*r*h` and its volume is `pi*r^2*h`;
`prism(circle(2), 4)` has area `24*pi` and volume `16*pi`. -/
theorem cylinder_properties (r h : ℝ) (_hr : 0 ≤ r) :
    ((prism.mk (polygon.circle ⟨r⟩) h).area = fin (2 * Real.pi * r ^ 2 + 2 * Real.pi * r * h) ∧
      (prism.mk (polygon.circle ⟨r⟩) h).volume = fin (Real.pi * r ^ 2 * h)) ∧
    ((prism.mk (polygon.circle ⟨2⟩) 4).area = fin (24 * Real.pi) ∧
      (prism.mk (polygon.circle ⟨2⟩) 4).volume = fin (16 * Real.pi)) := by
  have ha : ∀ x y : ℝ, (prism.mk (polygon.circle ⟨x⟩) y).area
      = fin (2 * Real.pi * x ^ 2 + 2 * Real.pi * x * y) := by
    intro x y
    delta prism.area polygon.area polygon.perimeter
    simp only [circle_area_value, circle_perimeter_value, Dbl.ofNat_eq, Nat.cast_ofNat,
      Dbl.fin_mul_fin, Dbl.fin_add_fin]
    congr 1
    ring
  have hv : ∀ x y : ℝ, (prism.mk (polygon.circle ⟨x⟩) y).volume = fin (Real.pi * x ^ 2 * y) := by
    intro x y
    delta prism.volume polygon.area
    simp only [circle_area_value, Dbl.fin_mul_fin]
  refine ⟨⟨ha r h, hv r h⟩, ?_, ?_⟩
  · rw [ha]
    congr 1
    ring
  · rw [hv]
    congr 1
    ring

/-- Witness of C11: the cylinder of radius 1 and height 1 has area `4*pi` and
volume `pi`. -/
theorem cylinder_properties_witness :
    (0 : ℝ) ≤ 1 ∧ (prism.mk (polygon.circle ⟨1⟩) 1).area = fin (4 * Real.pi) ∧
      (prism.mk (polygon.circle ⟨1⟩) 1).volume = fin Real.pi := by
  obtain ⟨⟨ha, hv⟩, -⟩ := cylinder_properties 1 1 (by norm_num)
  refine ⟨by norm_num, ?_, ?_⟩
  · rw [ha]
    congr 1
    ring
  · rw [hv]
    congr 1
    ring

/-- C12. For every `a`, `b` with `(3a+b)(a+3b) >= 0`, `ellipse(a, b)` has
area `pi*a*b` and perimeter `pi*(3*(a+b) - sqrt((3a+b)*(a+3b)))`;
`ellipse(2, 3)` has area `6*pi` and a perimeter strictly between 15.865 and
15.866. -/
theorem ellipse_properties (a b : ℝ) (h : 0 ≤ (3 * a + b) * (a + 3 * b)) :
    ((ellipse.mk a b).area = fin (Real.pi * a * b) ∧
      (ellipse.mk a b).perimeter =
        fin (Real.pi * (3 * (a + b) - Real.sqrt ((3 * a + b) * (a + 3 * b))))) ∧
    ((ellipse.mk 2 3).area = fin (6 * Real.pi) ∧
      ∃ p : ℝ, (ellipse.mk 2 3).perimeter = fin p ∧ 15.865 < p ∧ p < 15.866) := by
  refine ⟨⟨ellipse_area_value a b, ellipse_perimeter_value h⟩, ?_, ?_⟩
  · rw [ellipse_area_value]
    congr 1
    ring
  · have h99 : (0 : ℝ) ≤ (3 * 2 + 3) * (2 + 3 * 3) := by norm_num
    refine ⟨_, ellipse_perimeter_value h99, ?_, ?_⟩
    · have hs : Real.sqrt ((3 * 2 + 3) * (2 + 3 * 3)) < 9.9499 := by
        rw [Real.sqrt_lt' (by norm_num)]
        norm_num
      have hpi := Real.pi_gt_d6
      nlinarith [Real.pi_pos]
    · have hs : (9.9498 : ℝ) < Real.sqrt ((3 * 2 + 3) * (2 + 3 * 3)) := by
        rw [Real.lt_sqrt (by norm_num)]
        norm_num
      have hpi := Real.pi_lt_d6
      nlinarith [Real.pi_pos]

/-- Witness of C12: the circle seen as `ellipse(1, 1)` has area `pi` and
perimeter `2*pi`. -/
theorem ellipse_properties_witness :
    (0 : ℝ) ≤ (3 * 1 + 1) * (1 + 3 * 1) ∧ (ellipse.mk 1 1).area = fin Real.pi ∧
      (ellipse.mk 1 1).perimeter = fin (2 * Real.pi) := by
  obtain ⟨⟨ha, hp⟩, -⟩ := ellipse_properties 1 1 (by norm_num)
  refine ⟨by norm_num, ?_, ?_⟩
  · rw [ha]
    congr 1
    ring
  · rw [hp]
    congr 1
    have h16 : Real.sqrt ((3 * 1 + 1) * (1 + 3 * 1)) = 4 := by
      rw [show ((3 * 1 + 1) * (1 + 3 * 1) : ℝ) = 4 ^ 2 by norm_num]
      exact Real.sqrt_sq (by norm_num)
    rw [h16]
    ring

/-- The perimeter of a 2-D shape of positive dimensions is a finite number
that is at least 0. -/
theorem polygon_perimeter_sign (p : polygon) (hp : p.dims_pos) : p.perimeter.nonneg := by
  cases p with
  | square s =>
    have hl : 0 < s.length := hp
    exact ⟨4 * s.length, by (delta polygon.perimeter square.perimeter; simp), by positivity⟩
  | rectangle s =>
    obtain ⟨hl, hh⟩ : 0 < s.length ∧ 0 < s.height := hp
    exact ⟨2 * (s.length + s.height), by (delta polygon.perimeter rectangle.perimeter; simp),
      by positivity⟩
  | ellipse s =>
    obtain ⟨ha, hb⟩ : 0 < s.semi_axis_a ∧ 0 < s.semi_axis_b := hp
    have h0 : 0 ≤ (3 * s.semi_axis_a + s.semi_axis_b) * (s.semi_axis_a + 3 * s.semi_axis_b) := by
      positivity
    refine ⟨_, ellipse_perimeter_value h0, ?_⟩
    have := ramanujan_root_le ha hb
    have := Real.pi_pos
    apply mul_nonneg <;> linarith
  | circle s =>
    have hr : 0 < s.radius := hp
    refine ⟨_, circle_perimeter_value s.radius, ?_⟩
    have := Real.pi_pos
    positivity

/-- C13, evaluated on the code. The claim is that `area()` is non-negative for
every shape whose dimensions are all strictly positive. On the code this
fails for `ellipsoid(2, 2, 2)`, and for every `ellipsoid(r, r, r)`, whose area
is not a number. -/
theorem area_not_nonneg_on_equal_axes :
    ((shape.polyhedron (polyhedron.ellipsoid ⟨2, 2, 2⟩)).dims_pos ∧
      (shape.polyhedron (polyhedron.ellipsoid ⟨2, 2, 2⟩)).area = nan ∧
      ¬ (shape.polyhedron (polyhedron.ellipsoid ⟨2, 2, 2⟩)).area.nonneg) ∧
    (∀ r : ℝ, ¬ (shape.polyhedron (polyhedron.ellipsoid ⟨r, r, r⟩)).area.nonneg) := by
  have hnan : ∀ r : ℝ, ¬ (shape.polyhedron (polyhedron.ellipsoid ⟨r, r, r⟩)).area.nonneg := by
    rintro r ⟨x, hx, -⟩
    have h : (ellipsoid.mk r r r).area = fin x := hx
    rw [ellipsoid_area_equal_axes] at h
    exact Dbl.noConfusion h
  refine ⟨⟨?_, ellipsoid_area_equal_axes 2, hnan 2⟩, hnan⟩
  show (0 : ℝ) < 2 ∧ (0 : ℝ) < 2 ∧ (0 : ℝ) < 2
  norm_num

/-! ### Comparisons of finite numbers and of NaN -/

@[simp] theorem is_eq_nan_left (y : Dbl) : ¬ Dbl.is_eq nan y := by
  intro h
  cases y <;> exact h

/-- The literal 0. -/
theorem zero_eq_fin : (0 : Dbl) = fin 0 := by
  rw [Dbl.ofNat_eq, Nat.cast_zero]

end Shapes

/-! ## The claims on the class `complex` -/

namespace ComplexNumbers

open Shapes Shapes.Dbl

/-- The value of `operator+` on finite components. -/
theorem add_fin (x1 y1 x2 y2 : ℝ) :
    (complex.mk (fin x1) (fin y1) + complex.mk (fin x2) (fin y2) : complex)
      = complex.mk (fin (x1 + x2)) (fin (y1 + y2)) := rfl

/-- The value of `operator-` on finite components. -/
theorem sub_fin (x1 y1 x2 y2 : ℝ) :
    (complex.mk (fin x1) (fin y1) - complex.mk (fin x2) (fin y2) : complex)
      = complex.mk (fin (x1 - x2)) (fin (y1 - y2)) := rfl

/-- The value of `operator*` on finite components. -/
theorem mul_fin (x1 y1 x2 y2 : ℝ) :
    (complex.mk (fin x1) (fin y1) * complex.mk (fin x2) (fin y2) : complex)
      = complex.mk (fin (x1 * x2 - y1 * y2)) (fin (y1 * x2 + x1 * y2)) := rfl

/-- A finite number other than `0 + 0i` has a positive squared modulus. -/
theorem denominator_pos {x y : ℝ}
    (h : complex.mk (fin x) (fin y) ≠ complex.mk (fin 0) (fin 0)) : 0 < x * x + y * y := by
  have hxy : ¬ (x = 0 ∧ y = 0) := by
    rintro ⟨rfl, rfl⟩
    exact h rfl
  by_cases hx : x = 0
  · have hy : y ≠ 0 := fun hy => hxy ⟨hx, hy⟩
    have := mul_self_pos.mpr hy
    nlinarith [mul_self_nonneg x]
  · have := mul_self_pos.mpr hx
    nlinarith [mul_self_nonneg y]

/-- The guard of `operator/` holds for the divisor `0 + 0i` only. -/
theorem guard_iff (b : complex) :
    (Dbl.is_eq b.real 0 ∧ Dbl.is_eq b.imaginary 0) ↔ b = complex.mk 0 0 := by
  obtain ⟨re, im⟩ := b
  constructor
  · rintro ⟨h1, h2⟩
    cases re with
    | nan => exact absurd h1 (is_eq_nan_left _)
    | fin x =>
      cases im with
      | nan => exact absurd h2 (is_eq_nan_left _)
      | fin y =>
        have hx : x = ((0 : ℕ) : ℝ) := h1
        have hy : y = ((0 : ℕ) : ℝ) := h2
        subst hx
        subst hy
        rfl
  · intro h
    have h1 : re = 0 := congrArg complex.real h
    have h2 : im = 0 := congrArg complex.imaginary h
    subst h1
    subst h2
    exact ⟨rfl, rfl⟩

/-- The value of `operator/` on finite components, for a divisor other than
`0 + 0i`: both components are finite. -/
theorem div_fin (x1 y1 : ℝ) {x2 y2 : ℝ}
    (h : complex.mk (fin x2) (fin y2) ≠ complex.mk (fin 0) (fin 0)) :
    (complex.mk (fin x1) (fin y1) / complex.mk (fin x2) (fin y2) : complex)
      = complex.mk (fin ((x1 * x2 + y1 * y2) / (x2 * x2 + y2 * y2)))
          (fin ((y1 * x2 - x1 * y2) / (x2 * x2 + y2 * y2))) := by
  have hd : x2 * x2 + y2 * y2 ≠ 0 := (denominator_pos h).ne.symm
  have hg : ¬ (Dbl.is_eq (fin x2) 0 ∧ Dbl.is_eq (fin y2) 0) := by
    rw [guard_iff (complex.mk (fin x2) (fin y2)), zero_eq_fin]
    exact h
  show complex.div _ _ = _
  delta complex.div
  simp only [if_neg hg, Dbl.fin_mul_fin, Dbl.fin_add_fin, Dbl.fin_sub_fin, Dbl.fin_div_fin_of_ne hd]

/-- C15. Operations without a numeric answer return NaN: for every complex
`a`, both components of `a / (0 + 0i)` are NaN, `a /= (0 + 0i)` leaves `a`
with both components NaN, and `argument()` of `0 + 0i` is NaN; for every
divisor other than `0 + 0i` the guard of `operator/` is false, so that its NaN
branch is not taken and the quotient is computed. -/
theorem nan_protections (a b : complex) :
    ((a / complex.mk 0 0).real = nan ∧ (a / complex.mk 0 0).imaginary = nan) ∧
    ((a.div_assign (complex.mk 0 0)).real = nan ∧
      (a.div_assign (complex.mk 0 0)).imaginary = nan) ∧
    ((complex.mk 0 0).argument false = nan ∧ (complex.mk 0 0).argument true = nan) ∧
    (b ≠ complex.mk 0 0 →
      ¬ (Dbl.is_eq b.real 0 ∧ Dbl.is_eq b.imaginary 0) ∧
      a / b = complex.mk
        (((a.real * b.real) + (a.imaginary * b.imaginary))
          / ((b.real * b.real) + (b.imaginary * b.imaginary)))
        (((a.imaginary * b.real) - (a.real * b.imaginary))
          / ((b.real * b.real) + (b.imaginary * b.imaginary)))) := by
  have hg : Dbl.is_eq (complex.mk 0 0).real 0 ∧ Dbl.is_eq (complex.mk 0 0).imaginary 0 :=
    (guard_iff _).mpr rfl
  have hdiv : a / complex.mk 0 0 = complex.mk nan nan := by
    show complex.div _ _ = _
    delta complex.div
    simp only [if_pos hg]
  have hassign : a.div_assign (complex.mk 0 0) = complex.mk nan nan := by
    delta complex.div_assign
    simp only [if_pos hg]
  have harg : ∀ positive : Bool, (complex.mk 0 0).argument positive = nan := by
    intro positive
    have h1 : Dbl.is_eq (complex.mk 0 0).imaginary 0 := hg.2
    have h2 : ¬ Dbl.is_gt (complex.mk 0 0).real 0 := by
      show ¬ (((0 : ℕ) : ℝ) > ((0 : ℕ) : ℝ))
      exact lt_irrefl _
    have h3 : ¬ Dbl.is_lt (complex.mk 0 0).real 0 := by
      show ¬ (((0 : ℕ) : ℝ) < ((0 : ℕ) : ℝ))
      exact lt_irrefl _
    delta complex.argument
    simp only [if_pos h1, if_neg h2, if_neg h3]
  refine ⟨⟨by rw [hdiv], by rw [hdiv]⟩, ⟨by rw [hassign], by rw [hassign]⟩,
    ⟨harg false, harg true⟩, ?_⟩
  intro hb
  have hn : ¬ (Dbl.is_eq b.real 0 ∧ Dbl.is_eq b.imaginary 0) := fun h => hb ((guard_iff b).mp h)
  refine ⟨hn, ?_⟩
  show complex.div _ _ = _
  delta complex.div
  simp only [if_neg hn]

/-- C16. Over exact real components, `operator+`, `operator-` and `operator*`
are the addition, subtraction and multiplication of complex numbers:
`(x1, y1) + (x2, y2) = (x1+x2, y1+y2)`, `(x1, y1) - (x2, y2) = (x1-x2, y1-y2)`
and `(x1, y1) * (x2, y2) = (x1*x2 - y1*y2, y1*x2 + x1*y2)`, in agreement with
the operations of the field of complex numbers; on the values of `main`,
`(3+4i) + (1-2i) = 4+2i`, `(3+4i) - (1-2i) = 2+6i` and
`(3+4i) * (1-2i) = 11-2i`. -/
theorem arithmetic_agrees (x1 y1 x2 y2 : ℝ) :
    ((complex.mk (fin x1) (fin y1) + complex.mk (fin x2) (fin y2) : complex)
        = complex.mk (fin (x1 + x2)) (fin (y1 + y2)) ∧
      (complex.mk (fin x1) (fin y1) - complex.mk (fin x2) (fin y2) : complex)
        = complex.mk (fin (x1 - x2)) (fin (y1 - y2)) ∧
      (complex.mk (fin x1) (fin y1) * complex.mk (fin x2) (fin y2) : complex)
        = complex.mk (fin (x1 * x2 - y1 * y2)) (fin (y1 * x2 + x1 * y2))) ∧
    (toComplex (x1 + x2) (y1 + y2) = toComplex x1 y1 + toComplex x2 y2 ∧
      toComplex (x1 - x2) (y1 - y2) = toComplex x1 y1 - toComplex x2 y2 ∧
      toComplex (x1 * x2 - y1 * y2) (y1 * x2 + x1 * y2) = toComplex x1 y1 * toComplex x2 y2) ∧
    ((complex.mk 3 4 + complex.mk 1 (-2) : complex) = complex.mk (fin 4) (fin 2) ∧
      (complex.mk 3 4 - complex.mk 1 (-2) : complex) = complex.mk (fin 2) (fin 6) ∧
      (complex.mk 3 4 * complex.mk 1 (-2) : complex) = complex.mk (fin 11) (fin (-2))) := by
  have h3 : (3 : Dbl) = fin 3 := by simp
  have h4 : (4 : Dbl) = fin 4 := by simp
  have h1 : (1 : Dbl) = fin 1 := by simp
  have h2 : (-2 : Dbl) = fin (-2) := by
    show fin (-((2 : ℕ) : ℝ)) = fin (-2)
    simp
  refine ⟨⟨add_fin _ _ _ _, sub_fin _ _ _ _, mul_fin _ _ _ _⟩, ⟨?_, ?_, ?_⟩, ?_, ?_, ?_⟩
  · apply Complex.ext <;> (delta toComplex; simp)
  · apply Complex.ext <;> (delta toComplex; simp)
  · apply Complex.ext <;> (delta toComplex; simp)
    ring
  · rw [h3, h4, h1, h2, add_fin]
    norm_num
  · rw [h3, h4, h1, h2, sub_fin]
    norm_num
  · rw [h3, h4, h1, h2, mul_fin]
    norm_num

/-- C17. Over exact real components, for every complex `a` and every `b`
other than `0 + 0i`, `operator/` is the inverse of `operator*`:
`(a / b) * b = a` and `(a * b) / b = a`; on the values of `main`,
`(3+4i) / (1-2i) = -1+2i`. -/
theorem division_inverts_multiplication (x1 y1 x2 y2 : ℝ)
    (hb : complex.mk (fin x2) (fin y2) ≠ complex.mk (fin 0) (fin 0)) :
    (complex.mk (fin x1) (fin y1) / complex.mk (fin x2) (fin y2)) * complex.mk (fin x2) (fin y2)
        = complex.mk (fin x1) (fin y1) ∧
      (complex.mk (fin x1) (fin y1) * complex.mk (fin x2) (fin y2)) / complex.mk (fin x2) (fin y2)
        = complex.mk (fin x1) (fin y1) ∧
      (complex.mk 3 4 / complex.mk 1 (-2) : complex) = complex.mk (fin (-1)) (fin 2) := by
  have hd : x2 * x2 + y2 * y2 ≠ 0 := (denominator_pos hb).ne.symm
  refine ⟨?_, ?_, ?_⟩
  · rw [div_fin x1 y1 hb, mul_fin]
    congr 2
    · field_simp
      ring
    · field_simp
      ring
  · rw [mul_fin, div_fin _ _ hb]
    congr 2
    · field_simp
      ring
    · field_simp
      ring
  · have h3 : (3 : Dbl) = fin 3 := by simp
    have h4 : (4 : Dbl) = fin 4 := by simp
    have h1 : (1 : Dbl) = fin 1 := by simp
    have h2 : (-2 : Dbl) = fin (-2) := by
      show fin (-((2 : ℕ) : ℝ)) = fin (-2)
      simp
    have hne : complex.mk (fin 1) (fin (-2)) ≠ complex.mk (fin 0) (fin 0) := by
      intro h
      have h0 : (1 : ℝ) = 0 := Dbl.fin.inj (congrArg complex.real h)
      exact one_ne_zero h0
    rw [h3, h4, h1, h2, div_fin 3 4 hne]
    norm_num

/-- Witness of C17: `a = 1 + 1i` and `b = 0 + 1i`. -/
theorem division_inverts_multiplication_witness :
    complex.mk (fin 0) (fin 1) ≠ complex.mk (fin 0) (fin 0) ∧
      (complex.mk (fin 1) (fin 1) / complex.mk (fin 0) (fin 1)) * complex.mk (fin 0) (fin 1)
        = complex.mk (fin 1) (fin 1) ∧
      (complex.mk (fin 1) (fin 1) * complex.mk (fin 0) (fin 1)) / complex.mk (fin 0) (fin 1)
        = complex.mk (fin 1) (fin 1) :=
  have hne : complex.mk (fin 0) (fin 1) ≠ complex.mk (fin 0) (fin 0) := fun h =>
    one_ne_zero (Dbl.fin.inj (congrArg complex.imaginary h) : (1 : ℝ) = 0)
  ⟨hne, (division_inverts_multiplication 1 1 0 1 hne).1,
    (division_inverts_multiplication 1 1 0 1 hne).2.1⟩

end ComplexNumbers

/-! ## The claim on the statistics of the grades -/

namespace CourseList

open Shapes Shapes.Dbl

/-- The loop of `grade_mean` adds the grades to its accumulator. -/
theorem sum_loop (grades : List ℝ) (a : ℝ) :
    grades.foldl (fun (sum : Dbl) (grade : ℝ) => sum + (grade : Dbl)) (fin a) = fin (a + grades.sum) := by
  induction grades generalizing a with
  | nil => simp
  | cons g gs ih =>
    rw [List.foldl_cons, Dbl.fin_add_fin, ih, List.sum_cons, add_assoc]

/-- The loop of `grade_stand_dev` adds the squared differences to its
accumulator. -/
theorem difference_loop (grades : List ℝ) (m a : ℝ) :
    grades.foldl
        (fun (difference_sum : Dbl) (grade : ℝ) => difference_sum + pow ((grade : Dbl) - fin m) 2)
        (fin a)
      = fin (a + (grades.map fun g => (g - m) ^ 2).sum) := by
  induction grades generalizing a with
  | nil => simp
  | cons g gs ih =>
    rw [List.foldl_cons, Dbl.fin_sub_fin, pow_two_eq, Dbl.fin_add_fin, ih, List.map_cons,
      List.sum_cons, add_assoc]

/-- A sum of squares is not negative. -/
theorem sum_sq_nonneg (grades : List ℝ) (m : ℝ) :
    0 ≤ (grades.map fun g => (g - m) ^ 2).sum := by
  apply List.sum_nonneg
  intro x hx
  obtain ⟨g, -, rfl⟩ := List.mem_map.mp hx
  positivity

/-- The value of `std::pow(n, -0.5)` for a positive `n`. -/
theorem pow_neg_half {x : ℝ} (hx : 0 < x) : pow (fin x) (-0.5) = fin (1 / Real.sqrt x) := by
  have hneg : (-0.5 : Dbl) = fin (-(1 / 2)) := by
    show fin (-(0.5 : ℝ)) = fin (-(1 / 2))
    norm_num
  have h1 : ¬ (x < 0 ∧ ((⌊(-(1 / 2) : ℝ)⌋ : ℤ) : ℝ) ≠ (-(1 / 2) : ℝ)) :=
    fun h => absurd h.1 (not_lt.mpr hx.le)
  have h2 : ¬ (x = 0 ∧ (-(1 / 2) : ℝ) < 0) := fun h => hx.ne.symm h.1
  rw [hneg]
  delta pow map₂
  simp only [if_neg h1, if_neg h2]
  congr 1
  rw [Real.rpow_neg hx.le, Real.sqrt_eq_rpow, one_div, one_div]

/-- A size below `2^31` is kept by the conversion to `int`. -/
theorem to_int_of_lt {n : ℕ} (h : n < 2 ^ 31) : to_int n = (n : ℤ) := by
  have h1 : (0 : ℤ) ≤ (n : ℤ) + 2 ^ 31 := by positivity
  have h2 : (n : ℤ) + 2 ^ 31 < 2 ^ 32 := by
    have : (n : ℤ) < 2 ^ 31 := by exact_mod_cast h
    linarith
  delta to_int
  rw [Int.emod_eq_of_lt h1 h2]
  ring

/-- C19. For a list of `n >= 2` grades, `grade_mean` returns the sum of the
grades over `n`, `grade_stand_dev` returns the root of the sum of the squared
differences to the mean over `n - 1`, and `grade_stand_err` returns that
standard deviation over the root of `n`; `grade_statistics` computes these
three values when `n` is in the range of `int`. -/
theorem grade_statistics_formulas (grades : List ℝ) (hn : 2 ≤ grades.length) :
    grade_mean grades (grades.length : ℤ) = fin (spec_mean grades) ∧
      grade_stand_dev grades (fin (spec_mean grades)) (grades.length : ℤ)
        = fin (spec_stand_dev grades) ∧
      grade_stand_err (fin (spec_stand_dev grades)) (grades.length : ℤ)
        = fin (spec_stand_err grades) ∧
      (grades.length < 2 ^ 31 → grade_statistics grades
        = (fin (spec_mean grades), fin (spec_stand_dev grades), fin (spec_stand_err grades))) := by
  have hn2 : (2 : ℝ) ≤ (grades.length : ℝ) := by exact_mod_cast hn
  have hlen : int_to_double (grades.length : ℤ) = fin (grades.length : ℝ) := by
    delta int_to_double
    simp
  have hlen1 : int_to_double ((grades.length : ℤ) - 1) = fin ((grades.length : ℝ) - 1) := by
    delta int_to_double
    simp
  have hne : (grades.length : ℝ) ≠ 0 := by linarith
  have hne1 : (grades.length : ℝ) - 1 ≠ 0 := by linarith
  have hmean : grade_mean grades (grades.length : ℤ) = fin (spec_mean grades) := by
    delta grade_mean spec_mean
    simp only [zero_eq_fin, sum_loop, hlen, Dbl.fin_div_fin_of_ne hne, zero_add]
  have hdev : grade_stand_dev grades (fin (spec_mean grades)) (grades.length : ℤ)
      = fin (spec_stand_dev grades) := by
    have h0 : ¬ ((grades.map fun g => (g - spec_mean grades) ^ 2).sum
        / ((grades.length : ℝ) - 1) < 0) := by
      apply not_lt.mpr
      apply div_nonneg (sum_sq_nonneg grades _)
      linarith
    delta grade_stand_dev spec_stand_dev
    simp only [zero_eq_fin, difference_loop, hlen1, Dbl.fin_div_fin_of_ne hne1, zero_add,
      pow_half_eq, if_neg h0]
  have herr : grade_stand_err (fin (spec_stand_dev grades)) (grades.length : ℤ)
      = fin (spec_stand_err grades) := by
    delta grade_stand_err spec_stand_err
    simp only [hlen, pow_neg_half (by linarith : (0 : ℝ) < grades.length), Dbl.fin_mul_fin]
    congr 1
    ring
  refine ⟨hmean, hdev, herr, fun hlt => ?_⟩
  delta grade_statistics
  simp only [to_int_of_lt hlt, hmean, hdev, herr]

/-- Witness of C19: the two grades 60 and 70 have mean 65. -/
theorem grade_statistics_formulas_witness :
    2 ≤ [(60 : ℝ), 70].length ∧ grade_mean [60, 70] 2 = fin 65 := by
  have h := (grade_statistics_formulas [60, 70] (by simp)).1
  refine ⟨by simp, ?_⟩
  have h2 : (([(60 : ℝ), 70].length : ℕ) : ℤ) = 2 := by simp
  rw [h2] at h
  rw [h]
  delta spec_mean
  norm_num

end CourseList

/-! ## The claim on the Hubble types -/

namespace Galaxies

/-- The string inserted for a Hubble type is found at its rank. -/
theorem indexOf_insert_string (h : hubble_class) :
    hubble_types.indexOf (insert_string h) = h.to_int := by
  cases h <;> decide

/-- The conversion from the rank gives the Hubble type back. -/
theorem of_index_to_int (h : hubble_class) (hlt : h.to_int < hubble_types.length) :
    hubble_class.of_index h.to_int hlt = h := by
  cases h <;> rfl

/-- The effect of `operator>>` on a string found in `hubble_types`. -/
theorem extract_found (input_string : String) (target : hubble_class) (failbit : Bool)
    (h : hubble_types.indexOf input_string < hubble_types.length) :
    extract input_string target failbit
      = (hubble_class.of_index (hubble_types.indexOf input_string) h, failbit) := by
  have hc : hubble_types.indexOf input_string < hubble_types.length
      ∧ hubble_types.indexOf input_string ≥ 0 := ⟨h, Nat.zero_le _⟩
  delta extract
  simp only [dif_pos hc]

/-- The effect of `operator>>` on a string absent from `hubble_types`. -/
theorem extract_absent (input_string : String) (target : hubble_class) (failbit : Bool)
    (h : input_string ∉ hubble_types) :
    extract input_string target failbit = (target, true) := by
  have hc : ¬ (hubble_types.indexOf input_string < hubble_types.length
      ∧ hubble_types.indexOf input_string ≥ 0) := by
    rintro ⟨hlt, -⟩
    exact h (List.indexOf_lt_length.mp hlt)
  delta extract
  simp only [dif_neg hc]

/-- C20. Printing and parsing of Hubble types round-trip: for each of the 16
values `h`, the string written by `operator<<` is one of the names of
`hubble_types`, and extracting that string with `operator>>` stores `h` again
and leaves the fail state as it was; a string that is not one of the 16 names
sets the fail state and leaves the target unchanged. -/
theorem hubble_round_trip (h target : hubble_class) (failbit : Bool) (input_string : String) :
    (hubble_types.length = 16 ∧ insert_string h ∈ hubble_types) ∧
      extract (insert_string h) target failbit = (h, failbit) ∧
      (extract (insert_string h) target false).2 = false ∧
      (input_string ∉ hubble_types → extract input_string target failbit = (target, true)) := by
  have hlt : hubble_types.indexOf (insert_string h) < hubble_types.length := by
    rw [indexOf_insert_string]
    cases h <;> decide
  have hex : ∀ f : Bool, extract (insert_string h) target f = (h, f) := by
    intro f
    rw [extract_found _ _ _ hlt]
    congr 1
    have hidx := indexOf_insert_string h
    have key : ∀ (n : ℕ) (hn : n < hubble_types.length), n = h.to_int →
        hubble_class.of_index n hn = h := by
      intro n hn e
      subst e
      exact of_index_to_int h hn
    exact key _ hlt hidx
  refine ⟨⟨rfl, List.indexOf_lt_length.mp hlt⟩, hex failbit, ?_,
    fun habs => extract_absent input_string target failbit habs⟩
  rw [hex false]

end Galaxies

/-! ## The claim on the energy of the Bohr atom -/

namespace BohrAtom

open Shapes Shapes.Dbl

/-- The value of `std::pow(x, -2)` for a non-zero `x`. -/
theorem pow_neg_two {x : ℝ} (hx : x ≠ 0) : pow (fin x) (-2) = fin (1 / x ^ 2) := by
  have hneg : (-2 : Dbl) = fin (((-2 : ℤ) : ℝ)) := by
    show fin (-((2 : ℕ) : ℝ)) = fin (((-2 : ℤ) : ℝ))
    norm_num
  have h1 : ¬ (x < 0 ∧ ((⌊(((-2 : ℤ) : ℝ))⌋ : ℤ) : ℝ) ≠ (((-2 : ℤ) : ℝ))) := by
    rintro ⟨-, h⟩
    exact h (by rw [Int.floor_intCast])
  have h2 : ¬ (x = 0 ∧ (((-2 : ℤ) : ℝ)) < 0) := fun h => hx h.1
  rw [hneg]
  delta pow map₂
  simp only [if_neg h1, if_neg h2]
  congr 1
  rw [Real.rpow_intCast, zpow_neg, one_div]
  norm_cast

/-- The constant `ev_to_J` is `1.60217663e-19`. -/
theorem ev_to_J_value : ev_to_J = fin 1.60217663e-19 := by
  have hneg : (-19 : Dbl) = fin (((-19 : ℤ) : ℝ)) := by
    show fin (-((19 : ℕ) : ℝ)) = fin (((-19 : ℤ) : ℝ))
    norm_num
  have h10 : (10 : Dbl) = fin 10 := by simp
  have h1 : ¬ ((10 : ℝ) < 0 ∧ ((⌊(((-19 : ℤ) : ℝ))⌋ : ℤ) : ℝ) ≠ (((-19 : ℤ) : ℝ))) := by
    rintro ⟨h, -⟩
    norm_num at h
  have h2 : ¬ ((10 : ℝ) = 0 ∧ (((-19 : ℤ) : ℝ)) < 0) := by
    rintro ⟨h, -⟩
    norm_num at h
  have hlit : (1.60217663 : Dbl) = fin 1.60217663 := rfl
  delta ev_to_J
  rw [hneg, h10, hlit]
  delta pow map₂
  simp only [if_neg h1, if_neg h2, Dbl.fin_mul_fin]
  congr 1
  rw [Real.rpow_intCast]
  norm_num

/-- The value of `delta_E_calc` in eV, for non-zero quantum numbers. -/
theorem delta_E_eV (quantum_initial quantum_final atomic_no : ℤ)
    (hi : quantum_initial ≠ 0) (hf : quantum_final ≠ 0) :
    delta_E_calc quantum_initial quantum_final atomic_no false
      = fin (spec_delta_E quantum_initial quantum_final atomic_no) := by
  have hi0 : (quantum_initial : ℝ) ≠ 0 := by exact_mod_cast hi
  have hf0 : (quantum_final : ℝ) ≠ 0 := by exact_mod_cast hf
  have hlit : (13.6 : Dbl) = fin 13.6 := rfl
  have hfalse : (false = true) = False := by simp
  delta delta_E_calc int_to_double spec_delta_E
  simp only [pow_two_eq, pow_neg_two hi0, pow_neg_two hf0, hlit, Dbl.fin_mul_fin, Dbl.fin_sub_fin,
    hfalse, if_false]

/-- The value of `delta_E_calc` in J, for non-zero quantum numbers. -/
theorem delta_E_J (quantum_initial quantum_final atomic_no : ℤ)
    (hi : quantum_initial ≠ 0) (hf : quantum_final ≠ 0) :
    delta_E_calc quantum_initial quantum_final atomic_no true
      = fin (spec_delta_E quantum_initial quantum_final atomic_no * 1.60217663e-19) := by
  have hi0 : (quantum_initial : ℝ) ≠ 0 := by exact_mod_cast hi
  have hf0 : (quantum_final : ℝ) ≠ 0 := by exact_mod_cast hf
  have hlit : (13.6 : Dbl) = fin 13.6 := rfl
  delta delta_E_calc int_to_double spec_delta_E
  simp only [pow_two_eq, pow_neg_two hi0, pow_neg_two hf0, hlit, Dbl.fin_mul_fin, Dbl.fin_sub_fin,
    if_true, ev_to_J_value]

/-- C21. For every atomic number `Z >= 1` and quantum numbers with
`1 <= n_final <= n_initial`, `delta_E_calc(n_initial, n_final, Z, false)` is
`13.6 * Z^2 * (1/n_final^2 - 1/n_initial^2)`, is non-negative, and is zero
exactly when `n_final = n_initial`; with `convert = true` the result is that
value multiplied by `1.60217663e-19`. -/
theorem delta_E_properties (quantum_initial quantum_final atomic_no : ℤ)
    (hZ : 1 ≤ atomic_no) (hf : 1 ≤ quantum_final) (hfi : quantum_final ≤ quantum_initial) :
    delta_E_calc quantum_initial quantum_final atomic_no false
        = fin (13.6 * (atomic_no : ℝ) ^ 2
            * (1 / (quantum_final : ℝ) ^ 2 - 1 / (quantum_initial : ℝ) ^ 2)) ∧
      0 ≤ spec_delta_E quantum_initial quantum_final atomic_no ∧
      (spec_delta_E quantum_initial quantum_final atomic_no = 0
        ↔ quantum_final = quantum_initial) ∧
      delta_E_calc quantum_initial quantum_final atomic_no true
        = fin (spec_delta_E quantum_initial quantum_final atomic_no * 1.60217663e-19) := by
  have hi : 1 ≤ quantum_initial := hf.trans hfi
  have hZr : (1 : ℝ) ≤ (atomic_no : ℝ) := by exact_mod_cast hZ
  have hfr : (1 : ℝ) ≤ (quantum_final : ℝ) := by exact_mod_cast hf
  have hfir : (quantum_final : ℝ) ≤ (quantum_initial : ℝ) := by exact_mod_cast hfi
  have hf2 : 0 < (quantum_final : ℝ) ^ 2 := by positivity
  have hi2 : 0 < (quantum_initial : ℝ) ^ 2 := by
    have : (0 : ℝ) < (quantum_initial : ℝ) := by linarith
    positivity
  have hsq : (quantum_final : ℝ) ^ 2 ≤ (quantum_initial : ℝ) ^ 2 := by nlinarith
  have hdiff : 0 ≤ 1 / (quantum_final : ℝ) ^ 2 - 1 / (quantum_initial : ℝ) ^ 2 :=
    sub_nonneg.mpr (one_div_le_one_div_of_le hf2 hsq)
  have hZ2 : 0 < 13.6 * (atomic_no : ℝ) ^ 2 := by positivity
  refine ⟨delta_E_eV _ _ _ (by omega) (by omega), mul_nonneg hZ2.le hdiff, ?_,
    delta_E_J _ _ _ (by omega) (by omega)⟩
  constructor
  · intro h0
    rcases mul_eq_zero.mp h0 with h | h
    · exact absurd h hZ2.ne.symm
    · have heq : 1 / (quantum_final : ℝ) ^ 2 = 1 / (quantum_initial : ℝ) ^ 2 := by linarith
      have h2 : (quantum_final : ℝ) ^ 2 = (quantum_initial : ℝ) ^ 2 := by
        rw [one_div, one_div] at heq
        exact inv_inj.mp heq
      have h3 : (quantum_final : ℝ) = (quantum_initial : ℝ) := by nlinarith
      exact_mod_cast h3
  · intro h
    delta spec_delta_E
    rw [h, sub_self, mul_zero]

/-- Witness of C21: the first Lyman line of hydrogen, `n = 2` to `n = 1` with
`Z = 1`, has the energy `10.2` eV. -/
theorem delta_E_properties_witness :
    (1 : ℤ) ≤ 1 ∧ (1 : ℤ) ≤ 1 ∧ (1 : ℤ) ≤ 2 ∧ delta_E_calc 2 1 1 false = fin 10.2 := by
  have h := (delta_E_properties 2 1 1 (le_refl 1) (le_refl 1) (by norm_num)).1
  refine ⟨le_refl 1, le_refl 1, by norm_num, ?_⟩
  rw [h]
  congr 1
  norm_num

end BohrAtom

/-! ## The claim on the selection of a year -/

namespace CourseList

/-- An index inside a vector is read by the unchecked access. -/
theorem at_index_of_lt {α : Type} (v : List α) {i : ℤ} (h0 : 0 ≤ i) (h : i.toNat < v.length) :
    at_index v i = some (v.get ⟨i.toNat, h⟩) := by
  delta at_index
  rw [if_pos h0]
  exact List.get?_eq_get h

/-- What the loop of `main` computes when every index read is inside `grades`
and `course_titles`: it subtracts `first_index` from every entry and pushes
back one grade and one title for each. -/
theorem reduction_loop_result (grades : List ℝ) (course_titles : List String)
    (first_index : ℤ) (indices : List ℤ) (state : selection)
    (h : ∀ i ∈ indices, 0 ≤ i ∧ i.toNat < grades.length ∧ i.toNat < course_titles.length) :
    ∃ gs : List ℝ, ∃ ts : List String,
      reduction_loop grades course_titles first_index indices state
        = some ⟨state.selection_indices ++ indices.map (fun i => i - first_index),
            state.selection_grades ++ gs, state.selection_titles ++ ts⟩ ∧
      gs.length = indices.length ∧ ts.length = indices.length := by
  induction indices generalizing state with
  | nil =>
    refine ⟨[], [], ?_, rfl, rfl⟩
    show some state = _
    simp
  | cons i rest ih =>
    obtain ⟨h0, hg, ht⟩ := h i (List.mem_cons_self i rest)
    have hrest : ∀ j ∈ rest,
        0 ≤ j ∧ j.toNat < grades.length ∧ j.toNat < course_titles.length :=
      fun j hj => h j (List.mem_cons_of_mem i hj)
    obtain ⟨gs, ts, hloop, hgs, hts⟩ := ih
      ⟨state.selection_indices ++ [i - first_index],
        state.selection_grades ++ [grades.get ⟨i.toNat, hg⟩],
        state.selection_titles ++ [course_titles.get ⟨i.toNat, ht⟩]⟩ hrest
    refine ⟨grades.get ⟨i.toNat, hg⟩ :: gs, course_titles.get ⟨i.toNat, ht⟩ :: ts, ?_, ?_, ?_⟩
    · have hstep : ∀ (grade : Option ℝ) (title : Option String),
          at_index grades i = grade → at_index course_titles i = title →
          reduction_loop grades course_titles first_index (i :: rest) state
            = match grade, title with
              | some grade, some title =>
                reduction_loop grades course_titles first_index rest
                  ⟨state.selection_indices ++ [i - first_index],
                    state.selection_grades ++ [grade], state.selection_titles ++ [title]⟩
              | _, _ => none := by
        intro grade title hgrade htitle
        subst hgrade
        subst htitle
        rfl
      rw [hstep _ _ (at_index_of_lt grades h0 hg) (at_index_of_lt course_titles h0 ht)]
      simp only [hloop, List.map_cons, List.append_assoc, List.singleton_append]
    · simp [hgs]
    · simp [hts]

/-- The indices pushed back by the loop of `selection_menu` are positions of
the part of `years` that it visits. -/
theorem selection_loop_mem (selection : ℤ) (years : List ℤ) (index : ℤ)
    (selection_indices : List ℤ) (i : ℤ)
    (h : i ∈ selection_loop selection years index selection_indices) :
    i ∈ selection_indices ∨ (index ≤ i ∧ i < index + years.length) := by
  induction years generalizing index selection_indices with
  | nil => exact Or.inl h
  | cons year rest ih =>
    have hstep : i ∈ selection_indices ++ [index] ∨ i ∈ selection_indices
        ∨ (index + 1 ≤ i ∧ i < index + 1 + rest.length) := by
      have hstep : selection_loop selection (year :: rest) index selection_indices
          = if selection ≠ 0 then
              if year = selection then
                selection_loop selection rest (index + 1) (selection_indices ++ [index])
              else selection_loop selection rest (index + 1) selection_indices
            else selection_loop selection rest (index + 1) (selection_indices ++ [index]) := rfl
      rw [hstep] at h
      split_ifs at h
      · exact (ih _ _ h).imp_right Or.inr
      · exact Or.inr (ih _ _ h)
      · exact (ih _ _ h).imp_right Or.inr
    have hlen : ((year :: rest).length : ℤ) = (rest.length : ℤ) + 1 := by simp
    rcases hstep with h1 | h1 | ⟨h1, h2⟩
    · rcases List.mem_append.mp h1 with h3 | h3
      · exact Or.inl h3
      · have hi : i = index := by simpa using h3
        right
        constructor <;> omega
    · exact Or.inl h1
    · right
      constructor <;> omega

/-- Every index returned by `selection_menu` on an empty `selection_indices`
is a position of `years`. -/
theorem selection_menu_range (years : List ℤ) (selection : ℤ) (i : ℤ)
    (h : i ∈ selection_menu years selection []) : 0 ≤ i ∧ i.toNat < years.length := by
  rcases selection_loop_mem selection years 0 [] i h with h1 | ⟨h1, h2⟩
  · exact absurd h1 (List.not_mem_nil i)
  · constructor
    · exact h1
    · omega

/-- C22, evaluated on the code. The claim is that, when a single year is
selected, the loop of `main` leaves in the `k`-th entry of `selection_indices`
the value `k`, a valid index of the shortened vectors. The loop subtracts the
first selected index from every entry: for the years `1, 2, 1` and the
selection of year 1 the indices `0, 2` stay `0, 2`, and `2` is not an index of
the two grades and two titles selected. When the courses of the year follow
one another, as for the years `1, 1, 2`, the entries are `0, 1`. -/
theorem selection_indices_after_reduction :
    (selection_menu [1, 2, 1] 1 [] = [0, 2] ∧
      ∀ (g0 g1 g2 : ℝ) (t0 t1 t2 : String),
        reduce_selection [g0, g1, g2] [t0, t1, t2] [1, 2, 1] (selection_menu [1, 2, 1] 1 [])
            = some ⟨[0, 2], [g0, g2], [t0, t2]⟩ ∧
          at_index [g0, g2] 2 = none ∧ at_index [t0, t2] 2 = none) ∧
    (∀ (grades : List ℝ) (course_titles : List String) (years : List ℤ) (year : ℤ)
        (first_index : ℤ) (rest : List ℤ),
      grades.length = years.length → course_titles.length = years.length →
      selection_menu years year [] = first_index :: rest →
      (first_index :: rest).length ≠ years.length →
      ∃ state : selection,
        reduce_selection grades course_titles years (selection_menu years year []) = some state ∧
        state.selection_indices = (first_index :: rest).map (fun i => i - first_index) ∧
        state.selection_grades.length = (first_index :: rest).length ∧
        state.selection_titles.length = (first_index :: rest).length) ∧
    (selection_menu [1, 1, 2] 1 [] = [0, 1] ∧
      ∀ (g0 g1 g2 : ℝ) (t0 t1 t2 : String),
        reduce_selection [g0, g1, g2] [t0, t1, t2] [1, 1, 2] (selection_menu [1, 1, 2] 1 [])
          = some ⟨[0, 1], [g0, g1], [t0, t1]⟩) := by
  have hm1 : selection_menu [1, 2, 1] 1 [] = [0, 2] := by decide
  have hm2 : selection_menu [1, 1, 2] 1 [] = [0, 1] := by decide
  refine ⟨⟨hm1, fun g0 g1 g2 t0 t1 t2 => ⟨?_, rfl, rfl⟩⟩, ?_, hm2, fun g0 g1 g2 t0 t1 t2 => ?_⟩
  · rw [hm1]
    rfl
  · intro grades course_titles years year first_index rest hg ht hmenu hlen
    have hrange : ∀ i ∈ first_index :: rest,
        0 ≤ i ∧ i.toNat < grades.length ∧ i.toNat < course_titles.length := by
      intro i hi
      rw [← hmenu] at hi
      obtain ⟨h0, h1⟩ := selection_menu_range years year i hi
      exact ⟨h0, by rw [hg]; exact h1, by rw [ht]; exact h1⟩
    rw [hmenu]
    obtain ⟨gs, ts, hloop, hgs, hts⟩ :=
      reduction_loop_result grades course_titles first_index (first_index :: rest) ⟨[], [], []⟩
        hrange
    refine ⟨⟨(first_index :: rest).map (fun i => i - first_index), gs, ts⟩, ?_, rfl, hgs, hts⟩
    delta reduce_selection
    rw [if_pos hlen]
    simpa using hloop
  · rw [hm2]
    rfl

end CourseList

/-! ## The claims that depend on binary64 arithmetic -/

namespace Binary64

open F64

/-- An integer is its own nearest integer. -/
theorem round_even_intCast (n : ℤ) : round_even (n : ℝ) = n := by
  have h : (n : ℝ) - ((⌊(n : ℝ)⌋ : ℤ) : ℝ) < 1 / 2 := by
    rw [Int.floor_intCast, sub_self]
    norm_num
  delta round_even
  rw [if_pos h, Int.floor_intCast]

/-- The nearest integer is at most one half away. -/
theorem round_even_error (t : ℝ) : |((round_even t : ℤ) : ℝ) - t| ≤ 1 / 2 := by
  have h1 := Int.floor_le t
  have h2 := Int.lt_floor_add_one t
  delta round_even
  rw [abs_le]
  split_ifs with ha hb hc
  · constructor <;> linarith
  · push_cast
    constructor <;> linarith
  · constructor <;> linarith
  · push_cast
    constructor <;> linarith

/-- The unit in the last place of a non-zero `x` below `2^(e+53)`, with
`e >= -1074`, is at most `2^e`. -/
theorem ulp_exponent_le {x : ℝ} {e : ℤ} (hx : x ≠ 0) (hlt : |x| < (2 : ℝ) ^ (e + 53))
    (he : -1074 ≤ e) : ulp_exponent x ≤ e := by
  have hpos : 0 < |x| := abs_pos.mpr hx
  have hlog : Int.log 2 |x| < e + 53 := by
    rw [← Int.lt_zpow_iff_log_lt (by norm_num) hpos]
    exact_mod_cast hlt
  delta ulp_exponent
  exact max_le (by omega) he

/-- A number `m * 2^e` with `|m| < 2^53` and `e >= -1074` is not changed by
the rounding: it has at most 53 significant bits. -/
theorem round_unbounded_exact (m e : ℤ) (hm : |m| < 2 ^ 53) (he : -1074 ≤ e) :
    round_unbounded ((m : ℝ) * (2 : ℝ) ^ e) = (m : ℝ) * (2 : ℝ) ^ e := by
  have h2 : (2 : ℝ) ≠ 0 := two_ne_zero
  by_cases hm0 : m = 0
  · subst hm0
    have h := round_even_intCast 0
    simp only [Int.cast_zero] at h
    delta round_unbounded
    simp [h]
  · have hx : (m : ℝ) * (2 : ℝ) ^ e ≠ 0 :=
      mul_ne_zero (by exact_mod_cast hm0) (zpow_ne_zero e h2)
    have hmr : |(m : ℝ)| < (2 : ℝ) ^ (53 : ℤ) := by
      have : ((|m| : ℤ) : ℝ) < ((2 ^ 53 : ℤ) : ℝ) := by exact_mod_cast hm
      rw [Int.cast_abs] at this
      have h53 : ((2 ^ 53 : ℤ) : ℝ) = (2 : ℝ) ^ (53 : ℤ) := by norm_num
      rwa [h53] at this
    have hlt : |(m : ℝ) * (2 : ℝ) ^ e| < (2 : ℝ) ^ (e + 53) := by
      rw [abs_mul, abs_of_pos (zpow_pos (by norm_num : (0 : ℝ) < 2) e), zpow_add₀ h2, mul_comm]
      exact mul_lt_mul_of_pos_left hmr (zpow_pos (by norm_num) e)
    have hu := ulp_exponent_le hx hlt he
    obtain ⟨n, hn⟩ : ∃ n : ℕ, e = ulp_exponent ((m : ℝ) * (2 : ℝ) ^ e) + n :=
      ⟨(e - ulp_exponent ((m : ℝ) * (2 : ℝ) ^ e)).toNat, by omega⟩
    have hq : (m : ℝ) * (2 : ℝ) ^ e / (2 : ℝ) ^ ulp_exponent ((m : ℝ) * (2 : ℝ) ^ e)
        = ((m * 2 ^ n : ℤ) : ℝ) := by
      have hu0 : (2 : ℝ) ^ ulp_exponent ((m : ℝ) * (2 : ℝ) ^ e) ≠ 0 := zpow_ne_zero _ h2
      rw [div_eq_iff hu0]
      nth_rewrite 1 [hn]
      rw [zpow_add₀ h2, zpow_natCast]
      push_cast
      ring
    delta round_unbounded
    rw [hq, round_even_intCast, ← hq]
    exact div_mul_cancel₀ _ (zpow_ne_zero _ h2)

/-- A number `m * 2^e` with `|m| < 2^53` and `e >= -1074`, below `2^1024` in
magnitude, is a `double`: it is its own rounding. -/
theorem round_nearest_exact (m e : ℤ) (hm : |m| < 2 ^ 53) (he : -1074 ≤ e)
    (hlt : |(m : ℝ) * (2 : ℝ) ^ e| < (2 : ℝ) ^ (1024 : ℤ)) :
    round_nearest ((m : ℝ) * (2 : ℝ) ^ e) = fin ((m : ℝ) * (2 : ℝ) ^ e) := by
  obtain ⟨h1, h2⟩ := abs_lt.mp hlt
  delta round_nearest
  rw [round_unbounded_exact m e hm he, if_neg (not_le.mpr h2),
    if_neg (not_le.mpr h1)]

/-- The rounding of 0 is 0. -/
theorem round_nearest_zero : round_nearest 0 = fin 0 := by
  have h := round_nearest_exact 0 0 (by norm_num) (by norm_num) (by
    simp only [Int.cast_zero, zero_mul, abs_zero]
    positivity)
  simpa using h

/-- A number of magnitude below `2^-1075`, half the smallest subnormal
number, underflows to 0. -/
theorem round_nearest_underflow {x : ℝ} (h : |x| < (2 : ℝ) ^ (-1075 : ℤ)) :
    round_nearest x = fin 0 := by
  -- A real of magnitude below one half is nearest to 0.
  have round_even_small {t : ℝ} (h : |t| < 1 / 2) : round_even t = 0 := by
    obtain ⟨h1, h2⟩ := abs_lt.mp h
    by_cases h0 : 0 ≤ t
    · have hf : ⌊t⌋ = 0 := by
        rw [Int.floor_eq_iff]
        constructor
        · simpa using h0
        · norm_num
          linarith
      have hlt : t - ((⌊t⌋ : ℤ) : ℝ) < 1 / 2 := by
        rw [hf]
        simpa using h2
      delta round_even
      rw [if_pos hlt, hf]
    · have hf : ⌊t⌋ = -1 := by
        rw [Int.floor_eq_iff]
        constructor
        · norm_num
          linarith
        · norm_num
          linarith
      have hnlt : ¬ t - ((⌊t⌋ : ℤ) : ℝ) < 1 / 2 := by
        rw [hf]
        norm_num
        linarith
      have hgt : 1 / 2 < t - ((⌊t⌋ : ℤ) : ℝ) := by
        rw [hf]
        norm_num
        linarith
      delta round_even
      rw [if_neg hnlt, if_pos hgt, hf]
      norm_num
  have h2 : (2 : ℝ) ≠ 0 := two_ne_zero
  by_cases hx : x = 0
  · rw [hx]
    exact round_nearest_zero
  · have hpos : 0 < |x| := abs_pos.mpr hx
    have hlog : Int.log 2 |x| < -1075 := by
      rw [← Int.lt_zpow_iff_log_lt (by norm_num) hpos]
      exact_mod_cast h
    have hu : ulp_exponent x = -1074 := by
      delta ulp_exponent
      exact max_eq_right (by omega)
    have ht : |x / (2 : ℝ) ^ (-1074 : ℤ)| < 1 / 2 := by
      have hp : (0 : ℝ) < (2 : ℝ) ^ (-1074 : ℤ) := zpow_pos (by norm_num) _
      rw [abs_div, abs_of_pos hp, div_lt_iff₀ hp]
      have he : (1 / 2 : ℝ) * (2 : ℝ) ^ (-1074 : ℤ) = (2 : ℝ) ^ (-1075 : ℤ) := by
        rw [show (-1074 : ℤ) = -1075 + 1 by norm_num, zpow_add₀ h2, zpow_one]
        ring
      rw [he]
      exact h
    have hru : round_unbounded x = 0 := by
      delta round_unbounded
      rw [hu, round_even_small ht]
      simp
    have hp1024 : (0 : ℝ) < (2 : ℝ) ^ (1024 : ℤ) := zpow_pos (by norm_num) _
    delta round_nearest
    rw [hru, if_neg (not_le.mpr hp1024), if_neg (by linarith)]

/-- In the normal range the rounding has a relative error of at most
`2^-53`. -/
theorem round_unbounded_error {x : ℝ} (h : (2 : ℝ) ^ (-1022 : ℤ) ≤ |x|) :
    |round_unbounded x - x| ≤ |x| * (2 : ℝ) ^ (-53 : ℤ) := by
  have h2 : (2 : ℝ) ≠ 0 := two_ne_zero
  have hpos : 0 < |x| := lt_of_lt_of_le (zpow_pos (by norm_num) _) h
  have hlog : -1022 ≤ Int.log 2 |x| := by
    rw [← Int.zpow_le_iff_le_log (by norm_num) hpos]
    exact_mod_cast h
  have hu : ulp_exponent x = Int.log 2 |x| - 52 := by
    delta ulp_exponent
    exact max_eq_left (by omega)
  have hp : (0 : ℝ) < (2 : ℝ) ^ ulp_exponent x := zpow_pos (by norm_num) _
  have hle : (2 : ℝ) ^ ulp_exponent x ≤ |x| * (2 : ℝ) ^ (-52 : ℤ) := by
    rw [hu, sub_eq_add_neg, zpow_add₀ h2]
    apply mul_le_mul_of_nonneg_right _ (zpow_pos (by norm_num) _).le
    have := Int.zpow_log_le_self (b := 2) (by norm_num) hpos
    exact_mod_cast this
  have herr := round_even_error (x / (2 : ℝ) ^ ulp_exponent x)
  have heq : round_unbounded x - x
      = (((round_even (x / (2 : ℝ) ^ ulp_exponent x) : ℤ) : ℝ) - x / (2 : ℝ) ^ ulp_exponent x)
        * (2 : ℝ) ^ ulp_exponent x := by
    delta round_unbounded
    rw [sub_mul, div_mul_cancel₀ _ hp.ne.symm]
  rw [heq, abs_mul, abs_of_pos hp]
  have h53 : (2 : ℝ) ^ (-53 : ℤ) = (2 : ℝ) ^ (-52 : ℤ) * (1 / 2) := by
    rw [show (-52 : ℤ) = -53 + 1 by norm_num, zpow_add₀ h2, zpow_one]
    ring
  calc |((round_even (x / (2 : ℝ) ^ ulp_exponent x) : ℤ) : ℝ) - x / (2 : ℝ) ^ ulp_exponent x|
        * (2 : ℝ) ^ ulp_exponent x
      ≤ (1 / 2) * (2 : ℝ) ^ ulp_exponent x := mul_le_mul_of_nonneg_right herr hp.le
    _ ≤ (1 / 2) * (|x| * (2 : ℝ) ^ (-52 : ℤ)) := by
        apply mul_le_mul_of_nonneg_left hle
        norm_num
    _ = |x| * (2 : ℝ) ^ (-53 : ℤ) := by
        rw [h53]
        ring

end Binary64

namespace Binary64

open F64

@[simp] theorem fin_mul (x y : ℝ) : (fin x * fin y : F64) = round_nearest (x * y) := rfl

@[simp] theorem fin_add (x y : ℝ) : (fin x + fin y : F64) = round_nearest (x + y) := rfl

@[simp] theorem fin_sub (x y : ℝ) : (fin x - fin y : F64) = round_nearest (x - y) := by
  show round_nearest (x + -y) = round_nearest (x - y)
  rw [sub_eq_add_neg]

theorem fin_div (x y : ℝ) :
    (fin x / fin y : F64) = if y = 0 then inf_of_sign x else round_nearest (x / y) := rfl

@[simp] theorem ofNat_eq_fin (n : ℕ) : (OfNat.ofNat n : F64) = fin (n : ℝ) := rfl

/-- The relative error `2^-53` is below one thousandth. -/
theorem eps_le : (2 : ℝ) ^ (-53 : ℤ) ≤ 1 / 1000 := by
  rw [zpow_neg, ← one_div]
  apply one_div_le_one_div_of_le (by norm_num)
  norm_num

/-- A number in the normal range and below the overflow threshold rounds to a
finite number, with a relative error of at most `2^-53`. -/
theorem round_nearest_near {x : ℝ} (h1 : (2 : ℝ) ^ (-1022 : ℤ) ≤ |x|)
    (h2 : |x| ≤ (2 : ℝ) ^ (1024 : ℤ) - (2 : ℝ) ^ (1017 : ℤ)) :
    ∃ y : ℝ, round_nearest x = fin y ∧ |y - x| ≤ |x| * (2 : ℝ) ^ (-53 : ℤ) := by
  -- A number in the normal range and not above `2^1024 - 2^1017` in magnitude
  -- rounds to a finite number.
  have round_nearest_finite {x : ℝ} (h : (2 : ℝ) ^ (-1022 : ℤ) ≤ |x|)
      (hle : |x| ≤ (2 : ℝ) ^ (1024 : ℤ) - (2 : ℝ) ^ (1017 : ℤ)) :
      round_nearest x = fin (round_unbounded x) := by
    have h2 : (2 : ℝ) ≠ 0 := two_ne_zero
    have herr := round_unbounded_error h
    have hx0 : 0 ≤ |x| := abs_nonneg x
    have h1024 : (0 : ℝ) < (2 : ℝ) ^ (1024 : ℤ) := zpow_pos (by norm_num) _
    have h1017 : (0 : ℝ) < (2 : ℝ) ^ (1017 : ℤ) := zpow_pos (by norm_num) _
    have h53 : (0 : ℝ) < (2 : ℝ) ^ (-53 : ℤ) := zpow_pos (by norm_num) _
    have hsmall : |x| * (2 : ℝ) ^ (-53 : ℤ) < (2 : ℝ) ^ (1017 : ℤ) := by
      have h971 : (2 : ℝ) ^ (1024 : ℤ) * (2 : ℝ) ^ (-53 : ℤ) = (2 : ℝ) ^ (971 : ℤ) := by
        rw [← zpow_add₀ h2]
        norm_num
      have hlt : (2 : ℝ) ^ (971 : ℤ) < (2 : ℝ) ^ (1017 : ℤ) :=
        zpow_lt_zpow_right₀ (by norm_num) (by norm_num)
      calc |x| * (2 : ℝ) ^ (-53 : ℤ) ≤ (2 : ℝ) ^ (1024 : ℤ) * (2 : ℝ) ^ (-53 : ℤ) :=
            mul_le_mul_of_nonneg_right (by linarith) h53.le
        _ = (2 : ℝ) ^ (971 : ℤ) := h971
        _ < (2 : ℝ) ^ (1017 : ℤ) := hlt
    obtain ⟨e1, e2⟩ := abs_le.mp herr
    obtain ⟨x1, x2⟩ := abs_le.mp (le_refl |x|)
    delta round_nearest
    rw [if_neg (not_le.mpr (by linarith)), if_neg (not_le.mpr (by linarith))]
  exact ⟨round_unbounded x, round_nearest_finite h1 h2, round_unbounded_error h1⟩

/-- A positive number between two bounds inside the range of `double` rounds
to a finite number between nearly the same bounds. -/
theorem round_nearest_between {x l u : ℝ} (hl : (2 : ℝ) ^ (-1022 : ℤ) ≤ l) (h1 : l ≤ x)
    (h2 : x ≤ u) (hu : u ≤ (2 : ℝ) ^ (1024 : ℤ) - (2 : ℝ) ^ (1017 : ℤ)) :
    ∃ y : ℝ, round_nearest x = fin y ∧ l * (999 / 1000) ≤ y ∧ y ≤ u * (1001 / 1000) := by
  have hl0 : 0 < l := lt_of_lt_of_le (zpow_pos (by norm_num) _) hl
  have hx : 0 < x := lt_of_lt_of_le hl0 h1
  have habs : |x| = x := abs_of_pos hx
  obtain ⟨y, hy, herr⟩ := round_nearest_near (x := x) (by rw [habs]; linarith)
    (by rw [habs]; linarith)
  rw [habs] at herr
  have he : x * (2 : ℝ) ^ (-53 : ℤ) ≤ x * (1 / 1000) :=
    mul_le_mul_of_nonneg_left eps_le hx.le
  obtain ⟨e1, e2⟩ := abs_le.mp herr
  generalize x * (2 : ℝ) ^ (-53 : ℤ) = d at he e1 e2
  refine ⟨y, hy, ?_, ?_⟩
  · linarith
  · linarith

/-- The exponent -1022 of the smallest normal number is below 1. -/
theorem normal_le_one : (2 : ℝ) ^ (-1022 : ℤ) ≤ 1 :=
  zpow_le_one_of_nonpos₀ (by norm_num) (by norm_num)

/-- The overflow threshold is far above 16. -/
theorem sixteen_le_threshold : (16 : ℝ) ≤ (2 : ℝ) ^ (1024 : ℤ) - (2 : ℝ) ^ (1017 : ℤ) := by
  have h2 : (2 : ℝ) ≠ 0 := two_ne_zero
  have h1 : (2 : ℝ) ^ (1024 : ℤ) = 128 * (2 : ℝ) ^ (1017 : ℤ) := by
    rw [show (1024 : ℤ) = 7 + 1017 by norm_num, zpow_add₀ h2]
    norm_num
  have h3 : (1 : ℝ) ≤ (2 : ℝ) ^ (1017 : ℤ) := one_le_zpow₀ (by norm_num) (by norm_num)
  rw [h1]
  linarith

/-- The constant `pi` is a finite number between 3.1 and 3.2. -/
theorem pi_value : ∃ p : ℝ, pi = fin p ∧ 3.1 ≤ p ∧ p ≤ 3.2 := by
  have hpi1 := Real.pi_gt_d2
  have hpi2 := Real.pi_lt_d2
  have hn := normal_le_one
  have ht := sixteen_le_threshold
  obtain ⟨y1, hy1, l1, u1⟩ := round_nearest_between (x := Real.arctan 1) (l := 0.785)
    (u := 0.788) (by linarith) (by rw [Real.arctan_one]; linarith)
    (by rw [Real.arctan_one]; linarith) (by linarith)
  obtain ⟨y2, hy2, l2, u2⟩ := round_nearest_between (x := 4 * y1) (l := 3.136)
    (u := 3.156) (by linarith) (by linarith) (by linarith) (by linarith)
  refine ⟨y2, ?_, by linarith, by linarith⟩
  have h1 : atan 1 = fin y1 := by
    show round_nearest (Real.arctan ((1 : ℕ) : ℝ)) = fin y1
    rw [Nat.cast_one, hy1]
  have h4 : ((4 : ℕ) : ℝ) = 4 := by norm_num
  delta pi
  rw [h1, ofNat_eq_fin, fin_mul, h4, hy2]

end Binary64

namespace Binary64

open F64

/-- A number `m * 2^e` with `|m| < 2^k`, `k <= 53`, `e >= -1074` and
`e + k <= 1024` is a `double`. -/
theorem round_nearest_dyadic (m e : ℤ) (k : ℕ) (hm : |m| < 2 ^ k) (hk : k ≤ 53)
    (he : -1074 ≤ e) (hek : e + k ≤ 1024) :
    round_nearest ((m : ℝ) * (2 : ℝ) ^ e) = fin ((m : ℝ) * (2 : ℝ) ^ e) := by
  have h2 : (2 : ℝ) ≠ 0 := two_ne_zero
  have hm53 : |m| < 2 ^ 53 :=
    lt_of_lt_of_le hm (pow_le_pow_right₀ (by norm_num) hk)
  refine round_nearest_exact m e hm53 he ?_
  have hmr : |(m : ℝ)| < (2 : ℝ) ^ (k : ℤ) := by
    have : ((|m| : ℤ) : ℝ) < ((2 ^ k : ℤ) : ℝ) := by exact_mod_cast hm
    rw [Int.cast_abs] at this
    rw [zpow_natCast]
    exact_mod_cast this
  have hp : (0 : ℝ) < (2 : ℝ) ^ e := zpow_pos (by norm_num) e
  rw [abs_mul, abs_of_pos hp]
  calc |(m : ℝ)| * (2 : ℝ) ^ e < (2 : ℝ) ^ (k : ℤ) * (2 : ℝ) ^ e :=
        mul_lt_mul_of_pos_right hmr hp
    _ = (2 : ℝ) ^ ((k : ℤ) + e) := (zpow_add₀ h2 _ _).symm
    _ ≤ (2 : ℝ) ^ (1024 : ℤ) := zpow_le_zpow_right₀ (by norm_num) (by omega)

/-- A number `m * 2^e` with `1 <= m < 2^53` and `e >= 1024` overflows to the
positive infinity. -/
theorem round_nearest_dyadic_overflow (m e : ℤ) (hm1 : 1 ≤ m) (hm : m < 2 ^ 53)
    (he : 1024 ≤ e) : round_nearest ((m : ℝ) * (2 : ℝ) ^ e) = pinf := by
  -- A number `m * 2^e` with `0 < m < 2^53` that reaches `2^1024` overflows to
  -- the positive infinity.
  have round_nearest_overflow (m e : ℤ) (hm : |m| < 2 ^ 53) (he : -1074 ≤ e)
      (hge : (2 : ℝ) ^ (1024 : ℤ) ≤ (m : ℝ) * (2 : ℝ) ^ e) :
      round_nearest ((m : ℝ) * (2 : ℝ) ^ e) = pinf := by
    delta round_nearest
    rw [round_unbounded_exact m e hm he, if_pos hge]
  have hp : (0 : ℝ) < (2 : ℝ) ^ e := zpow_pos (by norm_num) e
  have hm1r : (1 : ℝ) ≤ (m : ℝ) := by exact_mod_cast hm1
  refine round_nearest_overflow m e (by rw [abs_of_pos (by omega)]; exact hm) (by omega) ?_
  calc (2 : ℝ) ^ (1024 : ℤ) ≤ (2 : ℝ) ^ e := zpow_le_zpow_right₀ (by norm_num) he
    _ = 1 * (2 : ℝ) ^ e := (one_mul _).symm
    _ ≤ (m : ℝ) * (2 : ℝ) ^ e := mul_le_mul_of_nonneg_right hm1r hp.le

/-- The value of `std::pow` on a positive finite base. -/
theorem pow_fin_pos {a : ℝ} (ha : 0 < a) (y : ℝ) : pow (fin a) y = round_nearest (a ^ y) := by
  have h1 : ¬ (a < 0 ∧ ((⌊y⌋ : ℤ) : ℝ) ≠ y) := fun h => absurd h.1 (not_lt.mpr ha.le)
  have h2 : ¬ (a = 0 ∧ y < 0) := fun h => ha.ne.symm h.1
  show (if a < 0 ∧ ((⌊y⌋ : ℤ) : ℝ) ≠ y then nan
    else if a = 0 ∧ y < 0 then pinf else round_nearest (a ^ y)) = round_nearest (a ^ y)
  rw [if_neg h1, if_neg h2]

/-- The square computed by `std::pow` of a power of two. -/
theorem zpow_rpow_two (k : ℤ) : ((2 : ℝ) ^ k) ^ (2 : ℝ) = (2 : ℝ) ^ (2 * k) := by
  rw [Real.rpow_two, ← zpow_natCast, ← zpow_mul]
  congr 1
  push_cast
  ring

/-- The cube computed by `std::pow` of a power of two. -/
theorem zpow_rpow_three (k : ℤ) : ((2 : ℝ) ^ k) ^ (3 : ℝ) = (2 : ℝ) ^ (3 * k) := by
  rw [show (3 : ℝ) = ((3 : ℕ) : ℝ) by norm_num, Real.rpow_natCast, ← zpow_natCast, ← zpow_mul]
  congr 1
  push_cast
  ring

/-- A power of two from `2^-1074` to `2^1023` is a `double`. -/
theorem round_nearest_zpow (e : ℤ) (h1 : -1074 ≤ e) (h2 : e ≤ 1023) :
    round_nearest ((2 : ℝ) ^ e) = fin ((2 : ℝ) ^ e) := by
  have h := round_nearest_dyadic 1 e 1 (by norm_num) (by norm_num) h1 (by omega)
  simpa using h

/-- C7, counterexample. In binary64 arithmetic the cube of width `2^341` has
the finite volume `2^1023`, while `area() * w / 6` overflows: the product
`area() * w` is `6 * 2^1023`, above the largest `double`, so that the
quotient is the positive infinity and is not equal to the volume. -/
theorem cube_identity_fails :
    (0 : ℝ) < (2 : ℝ) ^ (341 : ℤ) ∧
      cube.volume ⟨(2 : ℝ) ^ (341 : ℤ)⟩ = fin ((2 : ℝ) ^ (1023 : ℤ)) ∧
      cube.area ⟨(2 : ℝ) ^ (341 : ℤ)⟩ * ((2 : ℝ) ^ (341 : ℤ) : ℝ) / 6 = pinf ∧
      ¬ F64.is_eq (cube.volume ⟨(2 : ℝ) ^ (341 : ℤ)⟩)
        (cube.area ⟨(2 : ℝ) ^ (341 : ℤ)⟩ * ((2 : ℝ) ^ (341 : ℤ) : ℝ) / 6) := by
  have hw : (0 : ℝ) < (2 : ℝ) ^ (341 : ℤ) := zpow_pos (by norm_num) _
  have hvol : cube.volume ⟨(2 : ℝ) ^ (341 : ℤ)⟩ = fin ((2 : ℝ) ^ (1023 : ℤ)) := by
    delta cube.volume
    rw [pow_fin_pos hw, zpow_rpow_three]
    exact round_nearest_zpow _ (by norm_num) (by norm_num)
  have harea : cube.area ⟨(2 : ℝ) ^ (341 : ℤ)⟩ = fin (((6 : ℤ) : ℝ) * (2 : ℝ) ^ (682 : ℤ)) := by
    delta cube.area
    rw [pow_fin_pos hw, zpow_rpow_two,
      round_nearest_zpow _ (by norm_num) (by norm_num), ofNat_eq_fin, fin_mul]
    have harg : ((6 : ℕ) : ℝ) * (2 : ℝ) ^ (2 * 341 : ℤ) = ((6 : ℤ) : ℝ) * (2 : ℝ) ^ (682 : ℤ) := by
      norm_num
    rw [harg]
    exact round_nearest_dyadic 6 682 3 (by norm_num) (by norm_num) (by norm_num) (by norm_num)
  have hquot : cube.area ⟨(2 : ℝ) ^ (341 : ℤ)⟩ * ((2 : ℝ) ^ (341 : ℤ) : ℝ) / 6 = pinf := by
    have harg : ((6 : ℤ) : ℝ) * (2 : ℝ) ^ (682 : ℤ) * (2 : ℝ) ^ (341 : ℤ)
        = ((3 : ℤ) : ℝ) * (2 : ℝ) ^ (1024 : ℤ) := by
      push_cast
      ring
    have hprod : (fin (((6 : ℤ) : ℝ) * (2 : ℝ) ^ (682 : ℤ)) * fin ((2 : ℝ) ^ (341 : ℤ)) : F64)
        = pinf := by
      rw [fin_mul, harg]
      exact round_nearest_dyadic_overflow 3 1024 (by norm_num) (by norm_num) (by norm_num)
    rw [harea]
    show (fin (((6 : ℤ) : ℝ) * (2 : ℝ) ^ (682 : ℤ)) * fin ((2 : ℝ) ^ (341 : ℤ)) : F64) / 6 = pinf
    rw [hprod]
    show (if (0 : ℝ) ≤ ((6 : ℕ) : ℝ) then pinf else ninf) = pinf
    have h6 : (0 : ℝ) ≤ ((6 : ℕ) : ℝ) := by norm_num
    rw [if_pos h6]
  refine ⟨hw, hvol, hquot, ?_⟩
  rw [hvol, hquot]
  exact fun h => h

end Binary64

namespace Binary64

open F64

/-- The product `4 * pi` is a finite number between 12 and 13. -/
theorem four_pi_value : ∃ q : ℝ, (4 * pi : F64) = fin q ∧ 12 ≤ q ∧ q ≤ 13 := by
  obtain ⟨p, hp, l, u⟩ := pi_value
  have hn := normal_le_one
  have ht := sixteen_le_threshold
  obtain ⟨q, hq, l2, u2⟩ := round_nearest_between (x := 4 * p) (l := 12.4) (u := 12.8)
    (by linarith) (by linarith) (by linarith) (by linarith)
  have h4 : ((4 : ℕ) : ℝ) = 4 := by norm_num
  refine ⟨q, ?_, by linarith, by linarith⟩
  rw [hp, ofNat_eq_fin, fin_mul, h4, hq]

/-- A finite number times zero is zero. -/
theorem fin_mul_zero (x : ℝ) : (fin x * fin 0 : F64) = fin 0 := by
  rw [fin_mul, mul_zero, round_nearest_zero]

/-- Zero over three is zero. -/
theorem zero_div_three : (fin 0 / 3 : F64) = fin 0 := by
  have h3 : ((3 : ℕ) : ℝ) ≠ 0 := by norm_num
  rw [ofNat_eq_fin, fin_div, if_neg h3, zero_div, round_nearest_zero]

/-- C4, counterexample. In binary64 arithmetic, for `r = 2^-400`, the volume
of `ellipsoid(r, r, r)` and the volume of `sphere(r)` are both 0: the
product `4*r*r*r` and the power `pow(r, 3)` underflow. They do not differ,
although `r` is not 0. -/
theorem volumes_equal_on_underflow :
    (2 : ℝ) ^ (-400 : ℤ) ≠ 0 ∧
      ellipsoid.volume ⟨(2 : ℝ) ^ (-400 : ℤ), (2 : ℝ) ^ (-400 : ℤ), (2 : ℝ) ^ (-400 : ℤ)⟩ = fin 0 ∧
      sphere.volume ⟨(2 : ℝ) ^ (-400 : ℤ)⟩ = fin 0 ∧
      F64.is_eq
        (ellipsoid.volume ⟨(2 : ℝ) ^ (-400 : ℤ), (2 : ℝ) ^ (-400 : ℤ), (2 : ℝ) ^ (-400 : ℤ)⟩)
        (sphere.volume ⟨(2 : ℝ) ^ (-400 : ℤ)⟩) := by
  have hr : (0 : ℝ) < (2 : ℝ) ^ (-400 : ℤ) := zpow_pos (by norm_num) _
  have he : ellipsoid.volume
      ⟨(2 : ℝ) ^ (-400 : ℤ), (2 : ℝ) ^ (-400 : ℤ), (2 : ℝ) ^ (-400 : ℤ)⟩ = fin 0 := by
    have h1 : ((4 : ℕ) : ℝ) * (2 : ℝ) ^ (-400 : ℤ) = ((4 : ℤ) : ℝ) * (2 : ℝ) ^ (-400 : ℤ) := by
      norm_num
    have h2 : ((4 : ℤ) : ℝ) * (2 : ℝ) ^ (-400 : ℤ) * (2 : ℝ) ^ (-400 : ℤ)
        = ((4 : ℤ) : ℝ) * (2 : ℝ) ^ (-800 : ℤ) := by
      push_cast
      ring
    have h3 : |((4 : ℤ) : ℝ) * (2 : ℝ) ^ (-800 : ℤ) * (2 : ℝ) ^ (-400 : ℤ)|
        < (2 : ℝ) ^ (-1075 : ℤ) := by
      have h4 : ((4 : ℤ) : ℝ) * (2 : ℝ) ^ (-800 : ℤ) * (2 : ℝ) ^ (-400 : ℤ)
          = (2 : ℝ) ^ (-1198 : ℤ) := by
        push_cast
        ring
      rw [h4, abs_of_pos (zpow_pos (by norm_num) _)]
      exact zpow_lt_zpow_right₀ (by norm_num) (by norm_num)
    delta ellipsoid.volume
    simp only [ofNat_eq_fin, fin_mul]
    rw [h1, round_nearest_dyadic 4 (-400) 3 (by norm_num) (by norm_num) (by norm_num)
      (by norm_num)]
    simp only [fin_mul]
    rw [h2, round_nearest_dyadic 4 (-800) 3 (by norm_num) (by norm_num) (by norm_num)
      (by norm_num)]
    simp only [fin_mul]
    rw [round_nearest_underflow h3]
    exact zero_div_three
  have hs : sphere.volume ⟨(2 : ℝ) ^ (-400 : ℤ)⟩ = fin 0 := by
    obtain ⟨q, hq, -, -⟩ := four_pi_value
    have hpow : pow (fin ((2 : ℝ) ^ (-400 : ℤ))) 3 = fin 0 := by
      rw [pow_fin_pos hr, zpow_rpow_three]
      apply round_nearest_underflow
      rw [abs_of_pos (zpow_pos (by norm_num) _)]
      exact zpow_lt_zpow_right₀ (by norm_num) (by norm_num)
    delta sphere.volume
    rw [hq]
    show (fin q * pow (fin ((2 : ℝ) ^ (-400 : ℤ))) 3 : F64) / 3 = fin 0
    rw [hpow, fin_mul_zero, zero_div_three]
  refine ⟨hr.ne.symm, he, hs, ?_⟩
  rw [he, hs]
  exact rfl

/-- C8, counterexample. In binary64 arithmetic, for `r = 2^-600`, the area of
`circle(r)` is 0 because `pow(r, 2)` underflows, the perimeter is a positive
number, and `perimeter() / area()` is the positive infinity, not the finite
number `2 / r = 2^601`. -/
theorem circle_ratio_fails :
    (0 : ℝ) < (2 : ℝ) ^ (-600 : ℤ) ∧
      circle.area ⟨(2 : ℝ) ^ (-600 : ℤ)⟩ = fin 0 ∧
      circle.perimeter ⟨(2 : ℝ) ^ (-600 : ℤ)⟩ / circle.area ⟨(2 : ℝ) ^ (-600 : ℤ)⟩ = pinf ∧
      (2 / ((2 : ℝ) ^ (-600 : ℤ) : ℝ) : F64) = fin ((2 : ℝ) ^ (601 : ℤ)) ∧
      ¬ F64.is_eq
        (circle.perimeter ⟨(2 : ℝ) ^ (-600 : ℤ)⟩ / circle.area ⟨(2 : ℝ) ^ (-600 : ℤ)⟩)
        (2 / ((2 : ℝ) ^ (-600 : ℤ) : ℝ) : F64) := by
  have h2 : (2 : ℝ) ≠ 0 := two_ne_zero
  have hr : (0 : ℝ) < (2 : ℝ) ^ (-600 : ℤ) := zpow_pos (by norm_num) _
  obtain ⟨p, hp, lp, up⟩ := pi_value
  have hn := normal_le_one
  have ht := sixteen_le_threshold
  have harea : circle.area ⟨(2 : ℝ) ^ (-600 : ℤ)⟩ = fin 0 := by
    have hpow : pow (fin ((2 : ℝ) ^ (-600 : ℤ))) 2 = fin 0 := by
      rw [pow_fin_pos hr, zpow_rpow_two]
      apply round_nearest_underflow
      rw [abs_of_pos (zpow_pos (by norm_num) _)]
      exact zpow_lt_zpow_right₀ (by norm_num) (by norm_num)
    delta circle.area
    rw [hp]
    show (fin p * pow (fin ((2 : ℝ) ^ (-600 : ℤ))) 2 : F64) = fin 0
    rw [hpow, fin_mul_zero]
  have hperim : ∃ y : ℝ, circle.perimeter ⟨(2 : ℝ) ^ (-600 : ℤ)⟩ = fin y ∧ 0 < y := by
    obtain ⟨q, hq, lq, uq⟩ := round_nearest_between (x := 2 * p) (l := 6.2) (u := 6.4)
      (by linarith) (by linarith) (by linarith) (by linarith)
    have hlow : (2 : ℝ) ^ (-1022 : ℤ) ≤ (2 : ℝ) ^ (-600 : ℤ) :=
      zpow_le_zpow_right₀ (by norm_num) (by norm_num)
    have hhigh : (2 : ℝ) ^ (-600 : ℤ) ≤ 1 := zpow_le_one_of_nonpos₀ (by norm_num) (by norm_num)
    obtain ⟨y, hy, ly, -⟩ := round_nearest_between (x := q * (2 : ℝ) ^ (-600 : ℤ))
      (l := (2 : ℝ) ^ (-600 : ℤ)) (u := 7) hlow (by nlinarith) (by nlinarith) (by linarith)
    refine ⟨y, ?_, by nlinarith⟩
    have h2n : ((2 : ℕ) : ℝ) = 2 := by norm_num
    delta circle.perimeter
    rw [hp, ofNat_eq_fin, fin_mul, h2n, hq]
    show (fin q * fin ((2 : ℝ) ^ (-600 : ℤ)) : F64) = fin y
    rw [fin_mul, hy]
  obtain ⟨y, hy, hy0⟩ := hperim
  have hquot : circle.perimeter ⟨(2 : ℝ) ^ (-600 : ℤ)⟩ / circle.area ⟨(2 : ℝ) ^ (-600 : ℤ)⟩
      = pinf := by
    rw [hy, harea, fin_div, if_pos rfl]
    delta inf_of_sign
    rw [if_pos hy0]
  have hrhs : (2 / ((2 : ℝ) ^ (-600 : ℤ) : ℝ) : F64) = fin ((2 : ℝ) ^ (601 : ℤ)) := by
    have harg : ((2 : ℕ) : ℝ) / (2 : ℝ) ^ (-600 : ℤ) = (2 : ℝ) ^ (601 : ℤ) := by
      rw [show (601 : ℤ) = 1 - (-600) by norm_num, zpow_sub₀ h2, zpow_one]
      norm_num
    show (fin ((2 : ℕ) : ℝ) / fin ((2 : ℝ) ^ (-600 : ℤ)) : F64) = _
    rw [fin_div, if_neg hr.ne.symm, harg]
    exact round_nearest_zpow _ (by norm_num) (by norm_num)
  refine ⟨hr, harea, hquot, hrhs, ?_⟩
  rw [hquot, hrhs]
  exact fun h => h

end Binary64

namespace Binary64

open F64

/-- C14, counterexample. In binary64 arithmetic the ellipse of semi-axes
`2^512` and `2^512`, both strictly positive, has the perimeter minus
infinity: the product `(3a+b)*(a+3b) = 2^1028` overflows, its root is the
positive infinity, and `3*(a+b)` minus that root is the negative infinity.
The perimeter is not `>= 0`. -/
theorem ellipse_perimeter_negative :
    (0 : ℝ) < (2 : ℝ) ^ (512 : ℤ) ∧
      ellipse.perimeter ⟨(2 : ℝ) ^ (512 : ℤ), (2 : ℝ) ^ (512 : ℤ)⟩ = ninf ∧
      ¬ F64.is_ge (ellipse.perimeter ⟨(2 : ℝ) ^ (512 : ℤ), (2 : ℝ) ^ (512 : ℤ)⟩) 0 := by
  have ha : (0 : ℝ) < (2 : ℝ) ^ (512 : ℤ) := zpow_pos (by norm_num) _
  obtain ⟨p, hp, lp, up⟩ := pi_value
  have h3n : ((3 : ℕ) : ℝ) = 3 := by norm_num
  have hsum : (fin ((2 : ℝ) ^ (512 : ℤ)) + fin ((2 : ℝ) ^ (512 : ℤ)) : F64)
      = fin (((2 : ℤ) : ℝ) * (2 : ℝ) ^ (512 : ℤ)) := by
    have harg : (2 : ℝ) ^ (512 : ℤ) + (2 : ℝ) ^ (512 : ℤ) = ((2 : ℤ) : ℝ) * (2 : ℝ) ^ (512 : ℤ) := by
      push_cast
      ring
    rw [fin_add, harg]
    exact round_nearest_dyadic 2 512 2 (by norm_num) (by norm_num) (by norm_num) (by norm_num)
  have hthree_sum : (3 * fin (((2 : ℤ) : ℝ) * (2 : ℝ) ^ (512 : ℤ)) : F64)
      = fin (((6 : ℤ) : ℝ) * (2 : ℝ) ^ (512 : ℤ)) := by
    have harg : (3 : ℝ) * (((2 : ℤ) : ℝ) * (2 : ℝ) ^ (512 : ℤ))
        = ((6 : ℤ) : ℝ) * (2 : ℝ) ^ (512 : ℤ) := by
      push_cast
      ring
    rw [ofNat_eq_fin, fin_mul, h3n, harg]
    exact round_nearest_dyadic 6 512 3 (by norm_num) (by norm_num) (by norm_num) (by norm_num)
  have hthree : (3 * fin ((2 : ℝ) ^ (512 : ℤ)) : F64)
      = fin (((3 : ℤ) : ℝ) * (2 : ℝ) ^ (512 : ℤ)) := by
    have harg : (3 : ℝ) * (2 : ℝ) ^ (512 : ℤ) = ((3 : ℤ) : ℝ) * (2 : ℝ) ^ (512 : ℤ) := by
      push_cast
      ring
    rw [ofNat_eq_fin, fin_mul, h3n, harg]
    exact round_nearest_dyadic 3 512 2 (by norm_num) (by norm_num) (by norm_num) (by norm_num)
  have hleft : (fin (((3 : ℤ) : ℝ) * (2 : ℝ) ^ (512 : ℤ)) + fin ((2 : ℝ) ^ (512 : ℤ)) : F64)
      = fin (((4 : ℤ) : ℝ) * (2 : ℝ) ^ (512 : ℤ)) := by
    have harg : ((3 : ℤ) : ℝ) * (2 : ℝ) ^ (512 : ℤ) + (2 : ℝ) ^ (512 : ℤ)
        = ((4 : ℤ) : ℝ) * (2 : ℝ) ^ (512 : ℤ) := by
      push_cast
      ring
    rw [fin_add, harg]
    exact round_nearest_dyadic 4 512 3 (by norm_num) (by norm_num) (by norm_num) (by norm_num)
  have hright : (fin ((2 : ℝ) ^ (512 : ℤ)) + fin (((3 : ℤ) : ℝ) * (2 : ℝ) ^ (512 : ℤ)) : F64)
      = fin (((4 : ℤ) : ℝ) * (2 : ℝ) ^ (512 : ℤ)) := by
    have harg : (2 : ℝ) ^ (512 : ℤ) + ((3 : ℤ) : ℝ) * (2 : ℝ) ^ (512 : ℤ)
        = ((4 : ℤ) : ℝ) * (2 : ℝ) ^ (512 : ℤ) := by
      push_cast
      ring
    rw [fin_add, harg]
    exact round_nearest_dyadic 4 512 3 (by norm_num) (by norm_num) (by norm_num) (by norm_num)
  have hprod : (fin (((4 : ℤ) : ℝ) * (2 : ℝ) ^ (512 : ℤ))
      * fin (((4 : ℤ) : ℝ) * (2 : ℝ) ^ (512 : ℤ)) : F64) = pinf := by
    have harg : ((4 : ℤ) : ℝ) * (2 : ℝ) ^ (512 : ℤ) * (((4 : ℤ) : ℝ) * (2 : ℝ) ^ (512 : ℤ))
        = ((16 : ℤ) : ℝ) * (2 : ℝ) ^ (1024 : ℤ) := by
      push_cast
      ring
    rw [fin_mul, harg]
    exact round_nearest_dyadic_overflow 16 1024 (by norm_num) (by norm_num) (by norm_num)
  have hroot : pow pinf 0.5 = pinf := by
    have h05 : (0 : ℝ) < 0.5 := by norm_num
    show (if (0 : ℝ) < 0.5 then pinf else if (0.5 : ℝ) < 0 then fin 0 else fin 1) = pinf
    rw [if_pos h05]
  have hdiff : (fin (((6 : ℤ) : ℝ) * (2 : ℝ) ^ (512 : ℤ)) - pinf : F64) = ninf := rfl
  have hmul : (fin p * ninf : F64) = ninf := by
    show inf_of_sign (-p) = ninf
    have h1 : ¬ (0 < -p) := by linarith
    have h2 : -p < 0 := by linarith
    delta inf_of_sign
    rw [if_neg h1, if_pos h2]
  have hper : ellipse.perimeter ⟨(2 : ℝ) ^ (512 : ℤ), (2 : ℝ) ^ (512 : ℤ)⟩ = ninf := by
    delta ellipse.perimeter
    rw [hp]
    show (fin p * (3 * (fin ((2 : ℝ) ^ (512 : ℤ)) + fin ((2 : ℝ) ^ (512 : ℤ)))
      - pow ((3 * fin ((2 : ℝ) ^ (512 : ℤ)) + fin ((2 : ℝ) ^ (512 : ℤ)))
        * (fin ((2 : ℝ) ^ (512 : ℤ)) + 3 * fin ((2 : ℝ) ^ (512 : ℤ)))) 0.5) : F64) = ninf
    rw [hsum, hthree_sum, hthree, hleft, hright, hprod, hroot, hdiff, hmul]
  refine ⟨ha, hper, ?_⟩
  rw [hper]
  rintro (h | h)
  · exact h
  · exact h

/-- C9, counterexample. In binary64 arithmetic, for `r = 3 * 2^339`, the
volume of `sphere(r)` is the positive infinity, because the product
`4*pi*pow(r, 3)` overflows before the division by 3, while `(r/3) * area()`
is a finite number. They are not equal. -/
theorem sphere_identity_fails :
    sphere.volume ⟨3 * (2 : ℝ) ^ (339 : ℤ)⟩ = pinf ∧
      (∃ z : ℝ, ((3 * (2 : ℝ) ^ (339 : ℤ) : ℝ) : F64) / 3 * sphere.area ⟨3 * (2 : ℝ) ^ (339 : ℤ)⟩
        = fin z) ∧
      ¬ F64.is_eq (sphere.volume ⟨3 * (2 : ℝ) ^ (339 : ℤ)⟩)
        (((3 * (2 : ℝ) ^ (339 : ℤ) : ℝ) : F64) / 3 * sphere.area ⟨3 * (2 : ℝ) ^ (339 : ℤ)⟩) := by
  -- The nearest integer of a real above an integer is not below it.
  have le_round_even {N : ℤ} {t : ℝ} (h : (N : ℝ) ≤ t) : N ≤ round_even t := by
    have hf : N ≤ ⌊t⌋ := Int.le_floor.mpr h
    delta round_even
    split_ifs <;> omega
  -- A number that reaches `2^1024` overflows to the positive infinity.
  have round_nearest_overflow_of_le {x : ℝ} (h : (2 : ℝ) ^ (1024 : ℤ) ≤ x) :
      round_nearest x = pinf := by
    have h2 : (2 : ℝ) ≠ 0 := two_ne_zero
    have hx : 0 < x := lt_of_lt_of_le (zpow_pos (by norm_num) _) h
    have habs : |x| = x := abs_of_pos hx
    have hlog : 1024 ≤ Int.log 2 |x| := by
      rw [← Int.zpow_le_iff_le_log (by norm_num) (abs_pos.mpr hx.ne.symm), habs]
      exact_mod_cast h
    have hu : ulp_exponent x = Int.log 2 |x| - 52 := by
      delta ulp_exponent
      exact max_eq_left (by omega)
    have hp : (0 : ℝ) < (2 : ℝ) ^ ulp_exponent x := zpow_pos (by norm_num) _
    have hlow : (2 : ℝ) ^ Int.log 2 |x| ≤ x := by
      have := Int.zpow_log_le_self (b := 2) (by norm_num) (abs_pos.mpr hx.ne.symm)
      rw [habs] at this
      rw [habs]
      exact_mod_cast this
    have ht : (((2 ^ 52 : ℤ) : ℤ) : ℝ) ≤ x / (2 : ℝ) ^ ulp_exponent x := by
      rw [le_div_iff₀ hp, hu]
      have h52 : (((2 ^ 52 : ℤ) : ℤ) : ℝ) = (2 : ℝ) ^ (52 : ℤ) := by norm_num
      rw [h52, ← zpow_add₀ h2]
      have : (52 : ℤ) + (Int.log 2 |x| - 52) = Int.log 2 |x| := by ring
      rw [this]
      exact hlow
    have hr := le_round_even ht
    have hr2 : (2 : ℝ) ^ (52 : ℤ) ≤ ((round_even (x / (2 : ℝ) ^ ulp_exponent x) : ℤ) : ℝ) := by
      have : (((2 ^ 52 : ℤ) : ℤ) : ℝ) ≤ ((round_even (x / (2 : ℝ) ^ ulp_exponent x) : ℤ) : ℝ) := by
        exact_mod_cast hr
      have h52 : (((2 ^ 52 : ℤ) : ℤ) : ℝ) = (2 : ℝ) ^ (52 : ℤ) := by norm_num
      rwa [h52] at this
    have hge : (2 : ℝ) ^ (1024 : ℤ) ≤ round_unbounded x := by
      delta round_unbounded
      calc (2 : ℝ) ^ (1024 : ℤ) ≤ (2 : ℝ) ^ Int.log 2 |x| :=
            zpow_le_zpow_right₀ (by norm_num) hlog
        _ = (2 : ℝ) ^ (52 : ℤ) * (2 : ℝ) ^ ulp_exponent x := by
            rw [hu, ← zpow_add₀ h2]
            congr 1
            ring
        _ ≤ _ := mul_le_mul_of_nonneg_right hr2 hp.le
    delta round_nearest
    rw [if_pos hge]
  have h2 : (2 : ℝ) ≠ 0 := two_ne_zero
  have hr : (0 : ℝ) < 3 * (2 : ℝ) ^ (339 : ℤ) := by positivity
  obtain ⟨q, hq, lq, uq⟩ := four_pi_value
  have hP : (0 : ℝ) < (2 : ℝ) ^ (1017 : ℤ) := zpow_pos (by norm_num) _
  have h1024 : (2 : ℝ) ^ (1024 : ℤ) = 128 * (2 : ℝ) ^ (1017 : ℤ) := by
    rw [show (1024 : ℤ) = 7 + 1017 by norm_num, zpow_add₀ h2]
    norm_num
  have hvol : sphere.volume ⟨3 * (2 : ℝ) ^ (339 : ℤ)⟩ = pinf := by
    have hcube : (3 * (2 : ℝ) ^ (339 : ℤ)) ^ (3 : ℝ) = ((27 : ℤ) : ℝ) * (2 : ℝ) ^ (1017 : ℤ) := by
      rw [show (3 : ℝ) = ((3 : ℕ) : ℝ) by norm_num, Real.rpow_natCast]
      push_cast
      ring
    have hpow : pow (fin (3 * (2 : ℝ) ^ (339 : ℤ))) 3
        = fin (((27 : ℤ) : ℝ) * (2 : ℝ) ^ (1017 : ℤ)) := by
      rw [pow_fin_pos hr, hcube]
      exact round_nearest_dyadic 27 1017 5 (by norm_num) (by norm_num) (by norm_num)
        (by norm_num)
    have hover : (fin q * fin (((27 : ℤ) : ℝ) * (2 : ℝ) ^ (1017 : ℤ)) : F64) = pinf := by
      rw [fin_mul]
      apply round_nearest_overflow_of_le
      rw [h1024]
      push_cast
      nlinarith
    delta sphere.volume
    rw [hq]
    show (fin q * pow (fin (3 * (2 : ℝ) ^ (339 : ℤ))) 3 : F64) / 3 = pinf
    rw [hpow, hover]
    show (if (0 : ℝ) ≤ ((3 : ℕ) : ℝ) then pinf else ninf) = pinf
    have h3 : (0 : ℝ) ≤ ((3 : ℕ) : ℝ) := by norm_num
    rw [if_pos h3]
  have hother : ∃ z : ℝ,
      ((3 * (2 : ℝ) ^ (339 : ℤ) : ℝ) : F64) / 3 * sphere.area ⟨3 * (2 : ℝ) ^ (339 : ℤ)⟩
        = fin z := by
    have hthird : (((3 * (2 : ℝ) ^ (339 : ℤ) : ℝ) : F64) / 3 : F64)
        = fin ((2 : ℝ) ^ (339 : ℤ)) := by
      have h3 : ((3 : ℕ) : ℝ) ≠ 0 := by norm_num
      have harg : 3 * (2 : ℝ) ^ (339 : ℤ) / ((3 : ℕ) : ℝ) = (2 : ℝ) ^ (339 : ℤ) := by
        push_cast
        field_simp
      show (fin (3 * (2 : ℝ) ^ (339 : ℤ)) / fin ((3 : ℕ) : ℝ) : F64) = _
      rw [fin_div, if_neg h3, harg]
      exact round_nearest_zpow _ (by norm_num) (by norm_num)
    have hsq : (3 * (2 : ℝ) ^ (339 : ℤ)) ^ (2 : ℝ) = ((9 : ℤ) : ℝ) * (2 : ℝ) ^ (678 : ℤ) := by
      rw [Real.rpow_two]
      push_cast
      ring
    have hpow : pow (fin (3 * (2 : ℝ) ^ (339 : ℤ))) 2
        = fin (((9 : ℤ) : ℝ) * (2 : ℝ) ^ (678 : ℤ)) := by
      rw [pow_fin_pos hr, hsq]
      exact round_nearest_dyadic 9 678 4 (by norm_num) (by norm_num) (by norm_num)
        (by norm_num)
    have hQ : (0 : ℝ) < (2 : ℝ) ^ (678 : ℤ) := zpow_pos (by norm_num) _
    have hQ1 : (1 : ℝ) ≤ (2 : ℝ) ^ (678 : ℤ) := one_le_zpow₀ (by norm_num) (by norm_num)
    have hPQ : (2 : ℝ) ^ (1017 : ℤ) = (2 : ℝ) ^ (339 : ℤ) * (2 : ℝ) ^ (678 : ℤ) := by
      rw [← zpow_add₀ h2]
      norm_num
    have hR : (0 : ℝ) < (2 : ℝ) ^ (339 : ℤ) := zpow_pos (by norm_num) _
    have hR1 : (1 : ℝ) ≤ (2 : ℝ) ^ (339 : ℤ) := one_le_zpow₀ (by norm_num) (by norm_num)
    have hn := normal_le_one
    obtain ⟨y, hy, ly, uy⟩ := round_nearest_between
      (x := q * (((9 : ℤ) : ℝ) * (2 : ℝ) ^ (678 : ℤ))) (l := 108 * (2 : ℝ) ^ (678 : ℤ))
      (u := 117 * (2 : ℝ) ^ (678 : ℤ)) (by linarith) (by push_cast; nlinarith)
      (by push_cast; nlinarith) (by rw [h1024, hPQ]; nlinarith)
    obtain ⟨z, hz, -, -⟩ := round_nearest_between
      (x := (2 : ℝ) ^ (339 : ℤ) * y) (l := 107 * (2 : ℝ) ^ (1017 : ℤ))
      (u := 118 * (2 : ℝ) ^ (1017 : ℤ)) (by rw [hPQ]; nlinarith) (by rw [hPQ]; nlinarith)
      (by rw [hPQ]; nlinarith) (by rw [h1024]; linarith)
    refine ⟨z, ?_⟩
    rw [hthird]
    delta sphere.area
    rw [hq]
    show (fin ((2 : ℝ) ^ (339 : ℤ)) * (fin q * pow (fin (3 * (2 : ℝ) ^ (339 : ℤ))) 2) : F64) = fin z
    rw [hpow, fin_mul, hy, fin_mul, hz]
  obtain ⟨z, hz⟩ := hother
  refine ⟨hvol, ⟨z, hz⟩, ?_⟩
  rw [hvol, hz]
  exact fun h => h

end Binary64

namespace Binary64

open F64

end Binary64

namespace Binary64

open F64

/-! ### Relative errors

A number `x` approximates `a` with the relative error `c * 2^-53` when
`|x - a| <= c * 2^-53 * |a|`.  Every operation below adds one rounding
to the errors of its operands. -/

/-- The relative error `2^-53` is below `10^-9`. -/
theorem eps_le_billionth : (2 : ℝ) ^ (-53 : ℤ) ≤ 1 / 1000000000 := by
  rw [zpow_neg, ← one_div]
  apply one_div_le_one_div_of_le (by norm_num)
  norm_num

/-- The normal range contains the magnitudes from `2^-1000` to `2^1000`. -/
theorem range_bounds :
    (2 : ℝ) ^ (-1022 : ℤ) ≤ (2 : ℝ) ^ (-1000 : ℤ) / 2 ∧
      2 * (2 : ℝ) ^ (1000 : ℤ) ≤ (2 : ℝ) ^ (1024 : ℤ) - (2 : ℝ) ^ (1017 : ℤ) := by
  have h2 : (2 : ℝ) ≠ 0 := two_ne_zero
  have hP : (0 : ℝ) < (2 : ℝ) ^ (-1022 : ℤ) := zpow_pos (by norm_num) _
  have hQ : (0 : ℝ) < (2 : ℝ) ^ (1000 : ℤ) := zpow_pos (by norm_num) _
  have e1 : (2 : ℝ) ^ (-1000 : ℤ) = 4194304 * (2 : ℝ) ^ (-1022 : ℤ) := by
    rw [show (-1000 : ℤ) = 22 + -1022 by norm_num, zpow_add₀ h2]
    norm_num
  have e2 : (2 : ℝ) ^ (1024 : ℤ) = 16777216 * (2 : ℝ) ^ (1000 : ℤ) := by
    rw [show (1024 : ℤ) = 24 + 1000 by norm_num, zpow_add₀ h2]
    norm_num
  have e3 : (2 : ℝ) ^ (1017 : ℤ) = 131072 * (2 : ℝ) ^ (1000 : ℤ) := by
    rw [show (1017 : ℤ) = 17 + 1000 by norm_num, zpow_add₀ h2]
    norm_num
  constructor
  · rw [e1]
    linarith
  · rw [e2, e3]
    linarith

/-- A number is an approximation of itself, with no error. -/
theorem rel_exact (a : ℝ) : |a - a| ≤ 0 * (2 : ℝ) ^ (-53 : ℤ) * |a| := by
  simp

/-- Rounding adds one unit to the relative error of an approximation. -/
theorem rel_round {x a c : ℝ} (hc0 : 0 ≤ c) (hc : c ≤ 100)
    (h1 : (2 : ℝ) ^ (-1000 : ℤ) ≤ |a|) (h2 : |a| ≤ (2 : ℝ) ^ (1000 : ℤ))
    (hx : |x - a| ≤ c * (2 : ℝ) ^ (-53 : ℤ) * |a|) :
    ∃ y : ℝ, round_nearest x = fin y ∧
      |y - a| ≤ (c + 1001 / 1000) * (2 : ℝ) ^ (-53 : ℤ) * |a| := by
  obtain ⟨r1, r2⟩ := range_bounds
  have hu := eps_le_billionth
  have hu0 : (0 : ℝ) < (2 : ℝ) ^ (-53 : ℤ) := zpow_pos (by norm_num) _
  have hlo : (0 : ℝ) < (2 : ℝ) ^ (-1000 : ℤ) := zpow_pos (by norm_num) _
  have ha0 : 0 < |a| := lt_of_lt_of_le hlo h1
  obtain ⟨u, hudef⟩ : ∃ u : ℝ, (2 : ℝ) ^ (-53 : ℤ) = u := ⟨_, rfl⟩
  rw [hudef] at hx hu hu0 ⊢
  have hcu : c * u ≤ 1 / 10000000 := by nlinarith
  have hxa : |x - a| ≤ |a| / 10000000 := by
    have := mul_le_mul_of_nonneg_right hcu ha0.le
    linarith
  have hx1 : |a| - |x - a| ≤ |x| := by
    have := abs_sub_abs_le_abs_sub a x
    rw [abs_sub_comm a x] at this
    linarith
  have hx2 : |x| ≤ |a| + |x - a| := by
    have := abs_sub_abs_le_abs_sub x a
    linarith
  have hn1 : (2 : ℝ) ^ (-1022 : ℤ) ≤ |x| := by
    generalize (2 : ℝ) ^ (-1022 : ℤ) = p at r1 ⊢
    generalize (2 : ℝ) ^ (-1000 : ℤ) = q at r1 h1 hlo
    linarith
  have hn2 : |x| ≤ (2 : ℝ) ^ (1024 : ℤ) - (2 : ℝ) ^ (1017 : ℤ) := by
    generalize (2 : ℝ) ^ (1024 : ℤ) - (2 : ℝ) ^ (1017 : ℤ) = p at r2 ⊢
    generalize (2 : ℝ) ^ (1000 : ℤ) = q at r2 h2
    linarith
  obtain ⟨y, hy, herr⟩ := round_nearest_near hn1 hn2
  refine ⟨y, hy, ?_⟩
  rw [hudef] at herr
  have h3 : |y - a| ≤ |y - x| + |x - a| := abs_sub_le y x a
  have h4 : |x| * u ≤ (|a| + c * u * |a|) * u := by
    apply mul_le_mul_of_nonneg_right _ hu0.le
    linarith
  have h5 : c * u * |a| * u ≤ 1 / 10000000 * (|a| * u) := by
    have := mul_le_mul_of_nonneg_right hcu (mul_nonneg ha0.le hu0.le)
    linarith
  have h6 : 0 ≤ |a| * u := mul_nonneg ha0.le hu0.le
  nlinarith

/-- The error of a product of two approximations. -/
theorem rel_mul {x a y b c d : ℝ} (hc0 : 0 ≤ c) (hc : c ≤ 100) (hd0 : 0 ≤ d) (hd : d ≤ 100)
    (hx : |x - a| ≤ c * (2 : ℝ) ^ (-53 : ℤ) * |a|)
    (hy : |y - b| ≤ d * (2 : ℝ) ^ (-53 : ℤ) * |b|) :
    |x * y - a * b| ≤ (c + d + 1 / 1000) * (2 : ℝ) ^ (-53 : ℤ) * |a * b| := by
  have hu := eps_le_billionth
  have hu0 : (0 : ℝ) < (2 : ℝ) ^ (-53 : ℤ) := zpow_pos (by norm_num) _
  generalize (2 : ℝ) ^ (-53 : ℤ) = u at hx hy hu hu0 ⊢
  have hid : x * y - a * b = (x - a) * (y - b) + (x - a) * b + a * (y - b) := by ring
  have ha0 := abs_nonneg a
  have hb0 := abs_nonneg b
  have h1 : |(x - a) * (y - b)| ≤ (c * u * |a|) * (d * u * |b|) := by
    rw [abs_mul]
    exact mul_le_mul hx hy (abs_nonneg _) (by positivity)
  have h2 : |(x - a) * b| ≤ c * u * |a| * |b| := by
    rw [abs_mul]
    exact mul_le_mul_of_nonneg_right hx hb0
  have h3 : |a * (y - b)| ≤ |a| * (d * u * |b|) := by
    rw [abs_mul]
    exact mul_le_mul_of_nonneg_left hy ha0
  have h4 : |x * y - a * b| ≤ |(x - a) * (y - b)| + |(x - a) * b| + |a * (y - b)| := by
    rw [hid]
    exact (abs_add _ _).trans (add_le_add_right (abs_add _ _) _)
  have hcd : c * d * u ≤ 1 / 1000 := by nlinarith [mul_nonneg hc0 hd0, mul_le_mul hc hd hd0 (by norm_num : (0:ℝ) ≤ 100)]
  have hm : 0 ≤ u * (|a| * |b|) := by positivity
  have h5 : c * d * u * (u * (|a| * |b|)) ≤ 1 / 1000 * (u * (|a| * |b|)) :=
    mul_le_mul_of_nonneg_right hcd hm
  rw [abs_mul a b]
  nlinarith

/-- The error of a quotient of two approximations. -/
theorem rel_div {x a y b c d : ℝ} (hc0 : 0 ≤ c) (hc : c ≤ 100) (hd0 : 0 ≤ d) (hd : d ≤ 100)
    (hb : b ≠ 0)
    (hx : |x - a| ≤ c * (2 : ℝ) ^ (-53 : ℤ) * |a|)
    (hy : |y - b| ≤ d * (2 : ℝ) ^ (-53 : ℤ) * |b|) :
    y ≠ 0 ∧ |x / y - a / b| ≤ (c + d + 1 / 1000) * (2 : ℝ) ^ (-53 : ℤ) * |a / b| := by
  have hu := eps_le_billionth
  have hu0 : (0 : ℝ) < (2 : ℝ) ^ (-53 : ℤ) := zpow_pos (by norm_num) _
  generalize (2 : ℝ) ^ (-53 : ℤ) = u at hx hy hu hu0 ⊢
  have ha0 := abs_nonneg a
  have hb0 : 0 < |b| := abs_pos.mpr hb
  have hdu : d * u ≤ 1 / 10000000 := by nlinarith
  have hdu0 : 0 ≤ d * u := mul_nonneg hd0 hu0.le
  have hy1 : |b| - |y - b| ≤ |y| := by
    have := abs_sub_abs_le_abs_sub b y
    rw [abs_sub_comm b y] at this
    linarith
  have hyb : |y - b| ≤ 1 / 10000000 * |b| := by
    have := mul_le_mul_of_nonneg_right hdu hb0.le
    linarith
  have hypos : 0 < |y| := by linarith
  have hy0 : y ≠ 0 := abs_pos.mp hypos
  refine ⟨hy0, ?_⟩
  have hid : x / y - a / b = ((x - a) * b - a * (y - b)) / (y * b) := by
    field_simp
    ring
  have hnum : |(x - a) * b - a * (y - b)| ≤ (c + d) * u * (|a| * |b|) := by
    have h1 : |(x - a) * b| ≤ c * u * |a| * |b| := by
      rw [abs_mul]
      exact mul_le_mul_of_nonneg_right hx hb0.le
    have h2 : |a * (y - b)| ≤ |a| * (d * u * |b|) := by
      rw [abs_mul]
      exact mul_le_mul_of_nonneg_left hy ha0
    have := abs_sub ((x - a) * b) (a * (y - b))
    linarith
  rw [hid, abs_div, abs_div, abs_mul y b, div_le_iff₀ (mul_pos hypos hb0)]
  have hk : (c + d + 1 / 1000) * u * (|a| / |b|) * (|y| * |b|)
      = (c + d + 1 / 1000) * u * (|a| * |y|) := by
    field_simp
    ring
  rw [hk]
  have hylow : (1 - 1 / 10000000) * |b| ≤ |y| := by linarith
  have hm : 0 ≤ u * |a| := by positivity
  have h6 : (c + d + 1 / 1000) * (u * |a|) * ((1 - 1 / 10000000) * |b|)
      ≤ (c + d + 1 / 1000) * (u * |a|) * |y| :=
    mul_le_mul_of_nonneg_left hylow (by positivity)
  have h7 : 0 ≤ u * |a| * |b| := by positivity
  nlinarith

/-- A constant between `1/64` and `64` lies between `2^-1000` and `2^1000`. -/
theorem const_range {c : ℝ} (hc1 : 1 / 64 ≤ c) (hc2 : c ≤ 64) :
    (2 : ℝ) ^ (-1000 : ℤ) ≤ c ∧ c ≤ (2 : ℝ) ^ (1000 : ℤ) := by
  have h2ne : (2 : ℝ) ≠ 0 := two_ne_zero
  have e1 : (2 : ℝ) ^ (-6 : ℤ) = 1 / 64 := by
    rw [zpow_neg, show (6 : ℤ) = ((6 : ℕ) : ℤ) by norm_num, zpow_natCast]
    norm_num
  have e2 : (2 : ℝ) ^ (6 : ℤ) = 64 := by
    rw [show (6 : ℤ) = ((6 : ℕ) : ℤ) by norm_num, zpow_natCast]
    norm_num
  have l1 : (2 : ℝ) ^ (-1000 : ℤ) ≤ (2 : ℝ) ^ (-6 : ℤ) :=
    zpow_le_zpow_right₀ (by norm_num) (by norm_num)
  have l2 : (2 : ℝ) ^ (6 : ℤ) ≤ (2 : ℝ) ^ (1000 : ℤ) :=
    zpow_le_zpow_right₀ (by norm_num) (by norm_num)
  rw [e1] at l1
  rw [e2] at l2
  exact ⟨l1.trans hc1, hc2.trans l2⟩

/-- The value `2^-50` is eight times the relative error `2^-53`. -/
theorem eight_eps : (2 : ℝ) ^ (-50 : ℤ) = 8 * (2 : ℝ) ^ (-53 : ℤ) := by
  rw [show (-50 : ℤ) = 3 + -53 by norm_num, zpow_add₀ two_ne_zero]
  norm_num

/-- Two approximations of one positive number are close to each other. -/
theorem close_of_rel {t v m u c d k : ℝ} (hm : 0 ≤ m) (hu : 0 ≤ u)
    (ht : |t - m| ≤ c * u * m) (hv : |v - m| ≤ d * u * m) (hk : c + d ≤ k) :
    |t - v| ≤ k * u * m := by
  have h3 : |t - v| ≤ |t - m| + |m - v| := abs_sub_le t m v
  rw [abs_sub_comm m v] at h3
  have h4 : (c + d) * (u * m) ≤ k * (u * m) :=
    mul_le_mul_of_nonneg_right hk (mul_nonneg hu hm)
  linarith

end Binary64

namespace Binary64

open F64

/-- The magnitudes of `c*w`, `c*w^2`, `c*w^3` and `c/w` for a dimension `w`
between `2^-300` and `2^300` and a constant `c` between `1/64` and `64`. -/
theorem mag_range {w : ℝ} (h1 : (2 : ℝ) ^ (-300 : ℤ) ≤ w) (h2 : w ≤ (2 : ℝ) ^ (300 : ℤ))
    {c : ℝ} (hc1 : 1 / 64 ≤ c) (hc2 : c ≤ 64) :
    ((2 : ℝ) ^ (-1000 : ℤ) ≤ c * w ∧ c * w ≤ (2 : ℝ) ^ (1000 : ℤ)) ∧
      ((2 : ℝ) ^ (-1000 : ℤ) ≤ c * w ^ 2 ∧ c * w ^ 2 ≤ (2 : ℝ) ^ (1000 : ℤ)) ∧
      ((2 : ℝ) ^ (-1000 : ℤ) ≤ c * w ^ 3 ∧ c * w ^ 3 ≤ (2 : ℝ) ^ (1000 : ℤ)) ∧
      ((2 : ℝ) ^ (-1000 : ℤ) ≤ c / w ∧ c / w ≤ (2 : ℝ) ^ (1000 : ℤ)) := by
  have h2ne : (2 : ℝ) ≠ 0 := two_ne_zero
  have hp : (0 : ℝ) < (2 : ℝ) ^ (-300 : ℤ) := zpow_pos (by norm_num) _
  have hq : (0 : ℝ) < (2 : ℝ) ^ (300 : ℤ) := zpow_pos (by norm_num) _
  have hw : 0 < w := lt_of_lt_of_le hp h1
  have hpq : (2 : ℝ) ^ (-300 : ℤ) * (2 : ℝ) ^ (300 : ℤ) = 1 := by
    rw [← zpow_add₀ h2ne]
    norm_num
  have elo : (2 : ℝ) ^ (-1000 : ℤ)
      = ((2 : ℝ) ^ (-300 : ℤ)) ^ 3 * (2 : ℝ) ^ (-100 : ℤ) := by
    rw [← zpow_natCast, ← zpow_mul, ← zpow_add₀ h2ne]
    norm_num
  have ehi : (2 : ℝ) ^ (1000 : ℤ)
      = ((2 : ℝ) ^ (300 : ℤ)) ^ 3 * (2 : ℝ) ^ (100 : ℤ) := by
    rw [← zpow_natCast, ← zpow_mul, ← zpow_add₀ h2ne]
    norm_num
  have e100 : (2 : ℝ) ^ (100 : ℤ) = 1267650600228229401496703205376 := by
    rw [show (100 : ℤ) = ((100 : ℕ) : ℤ) by norm_num, zpow_natCast]
    norm_num
  have em100 : (2 : ℝ) ^ (-100 : ℤ) = 1 / 1267650600228229401496703205376 := by
    rw [zpow_neg, e100, one_div]
  have hq1 : (1 : ℝ) ≤ (2 : ℝ) ^ (300 : ℤ) := one_le_zpow₀ (by norm_num) (by norm_num)
  have hp1 : (2 : ℝ) ^ (-300 : ℤ) ≤ 1 := zpow_le_one_of_nonpos₀ (by norm_num) (by norm_num)
  rw [elo, ehi, e100, em100]
  generalize (2 : ℝ) ^ (-300 : ℤ) = p at *
  generalize (2 : ℝ) ^ (300 : ℤ) = q at *
  have hp3 : 0 < p ^ 3 := pow_pos hp 3
  have hq3 : 0 < q ^ 3 := pow_pos hq 3
  have hpp : p ^ 3 ≤ p ^ 2 := pow_le_pow_of_le_one hp.le hp1 (by norm_num)
  have hpp1 : p ^ 2 ≤ p := by
    have := pow_le_pow_of_le_one hp.le hp1 (by norm_num : 1 ≤ 2)
    rwa [pow_one] at this
  have hqq : q ^ 2 ≤ q ^ 3 := pow_le_pow_right₀ hq1 (by norm_num)
  have hqq1 : q ≤ q ^ 2 := by
    have := pow_le_pow_right₀ hq1 (by norm_num : 1 ≤ 2)
    rwa [pow_one] at this
  have hw2lo : p ^ 2 ≤ w ^ 2 := pow_le_pow_left₀ hp.le h1 2
  have hw2hi : w ^ 2 ≤ q ^ 2 := pow_le_pow_left₀ hw.le h2 2
  have hw3lo : p ^ 3 ≤ w ^ 3 := pow_le_pow_left₀ hp.le h1 3
  have hw3hi : w ^ 3 ≤ q ^ 3 := pow_le_pow_left₀ hw.le h2 3
  have hc0 : 0 < c := by linarith
  have key : ∀ m : ℝ, p ^ 3 ≤ m → m ≤ q ^ 3 →
      p ^ 3 * (1 / 1267650600228229401496703205376) ≤ c * m ∧
        c * m ≤ q ^ 3 * 1267650600228229401496703205376 := by
    intro m hm1 hm2
    have hm0 : 0 < m := lt_of_lt_of_le hp3 hm1
    constructor
    · have := mul_le_mul hc1 hm1 hp3.le hc0.le
      linarith
    · have := mul_le_mul hc2 hm2 hm0.le (by norm_num : (0 : ℝ) ≤ 64)
      linarith
  have hinv1 : p ≤ 1 / w := by
    rw [le_div_iff₀ hw]
    have := mul_le_mul_of_nonneg_left h2 hp.le
    rw [hpq] at this
    exact this
  have hinv2 : 1 / w ≤ q := by
    rw [div_le_iff₀ hw]
    have := mul_le_mul_of_nonneg_right h1 hq.le
    rw [hpq, mul_comm w q] at this
    exact this
  refine ⟨key w (by linarith) (by linarith), key (w ^ 2) (by linarith) (by linarith),
    key (w ^ 3) hw3lo hw3hi, ?_⟩
  have hk := key (1 / w) (by linarith) (by linarith)
  have hcw : c * (1 / w) = c / w := mul_one_div c w
  rw [hcw] at hk
  exact hk

/-- The two sides of the identity `volume() = area() * w / 6` of a cube in
binary64 arithmetic, for a width between `2^-300` and `2^300`: both are
finite, and they differ by at most `2^-50 * w^3`. -/
theorem cube_sides_close {w : ℝ} (h1 : (2 : ℝ) ^ (-300 : ℤ) ≤ w)
    (h2 : w ≤ (2 : ℝ) ^ (300 : ℤ)) :
    ∃ v t : ℝ, cube.volume ⟨w⟩ = fin v ∧ cube.area ⟨w⟩ * (w : F64) / 6 = fin t ∧
      |t - v| ≤ (2 : ℝ) ^ (-50 : ℤ) * w ^ 3 := by
  have hw : 0 < w := lt_of_lt_of_le (zpow_pos (by norm_num) _) h1
  have m1 := @mag_range w h1 h2 1 (by norm_num) (by norm_num)
  have m6 := @mag_range w h1 h2 6 (by norm_num) (by norm_num)
  simp only [one_mul] at m1
  have hw2 : (0 : ℝ) < w ^ 2 := by positivity
  have hw3 : (0 : ℝ) < w ^ 3 := by positivity
  -- the volume
  obtain ⟨v, hv, ev⟩ := rel_round (x := w ^ 3) (a := w ^ 3) (c := 0) le_rfl (by norm_num)
    (by rw [abs_of_pos hw3]; exact m1.2.2.1.1) (by rw [abs_of_pos hw3]; exact m1.2.2.1.2)
    (rel_exact _)
  -- the square in the area
  obtain ⟨s, hs, es⟩ := rel_round (x := w ^ 2) (a := w ^ 2) (c := 0) le_rfl (by norm_num)
    (by rw [abs_of_pos hw2]; exact m1.2.1.1) (by rw [abs_of_pos hw2]; exact m1.2.1.2)
    (rel_exact _)
  -- the area
  have e6 := rel_mul (x := 6) (a := 6) (y := s) (b := w ^ 2) (c := 0) le_rfl (by norm_num)
    (by norm_num) (by norm_num) (rel_exact _) es
  obtain ⟨a, ha, ea⟩ := rel_round (by norm_num) (by norm_num)
    (by rw [abs_of_pos (by positivity)]; exact m6.2.1.1)
    (by rw [abs_of_pos (by positivity)]; exact m6.2.1.2) e6
  -- the area times the width
  have e7 := rel_mul (x := a) (a := 6 * w ^ 2) (y := w) (b := w) (d := 0) (by norm_num)
    (by norm_num) le_rfl (by norm_num) ea (rel_exact _)
  have e67 : 6 * w ^ 2 * w = 6 * w ^ 3 := by ring
  rw [e67] at e7
  obtain ⟨b, hb, eb⟩ := rel_round (by norm_num) (by norm_num)
    (by rw [abs_of_pos (by positivity)]; exact m6.2.2.1.1)
    (by rw [abs_of_pos (by positivity)]; exact m6.2.2.1.2) e7
  -- the division by 6
  have e8 := rel_div (x := b) (a := 6 * w ^ 3) (y := 6) (b := 6) (d := 0) (by norm_num)
    (by norm_num) le_rfl (by norm_num) (by norm_num) eb (rel_exact _)
  have e68 : 6 * w ^ 3 / 6 = w ^ 3 := by ring
  rw [e68] at e8
  obtain ⟨t, ht, et⟩ := rel_round (by norm_num) (by norm_num)
    (by rw [abs_of_pos hw3]; exact m1.2.2.1.1) (by rw [abs_of_pos hw3]; exact m1.2.2.1.2) e8.2
  refine ⟨v, t, ?_, ?_, ?_⟩
  · delta cube.volume
    show pow (fin w) 3 = fin v
    rw [pow_fin_pos hw, show (3 : ℝ) = ((3 : ℕ) : ℝ) by norm_num, Real.rpow_natCast]
    exact hv
  · delta cube.area
    show (6 * pow (fin w) 2 * fin w / 6 : F64) = fin t
    have h6 : ((6 : ℕ) : ℝ) = 6 := by norm_num
    have h6ne : (6 : ℝ) ≠ 0 := by norm_num
    rw [pow_fin_pos hw, Real.rpow_two, hs, ofNat_eq_fin, fin_mul, h6, ha, fin_mul, hb,
      fin_div, if_neg h6ne, ht]
  · have hu0 : (0 : ℝ) < (2 : ℝ) ^ (-53 : ℤ) := zpow_pos (by norm_num) _
    rw [eight_eps]
    rw [abs_of_pos hw3] at ev et
    exact close_of_rel hw3.le hu0.le et ev (by norm_num)

end Binary64

namespace Binary64

open F64

/-- The two sides of the identity `perimeter() / area() = 2 / r` of a circle
in binary64 arithmetic, for a radius between `2^-300` and `2^300`: both are
finite, and they differ by at most `2^-50 * (2 / r)`. -/
theorem circle_sides_close {r : ℝ} (h1 : (2 : ℝ) ^ (-300 : ℤ) ≤ r)
    (h2 : r ≤ (2 : ℝ) ^ (300 : ℤ)) :
    ∃ q t : ℝ, circle.perimeter ⟨r⟩ / circle.area ⟨r⟩ = fin q ∧
      (2 : F64) / (r : F64) = fin t ∧ |q - t| ≤ (2 : ℝ) ^ (-50 : ℤ) * (2 / r) := by
  have hr : 0 < r := lt_of_lt_of_le (zpow_pos (by norm_num) _) h1
  have hr2 : (0 : ℝ) < r ^ 2 := by positivity
  obtain ⟨p, hp, lp, up⟩ := pi_value
  have hp0 : 0 < p := by linarith
  have m1 := @mag_range r h1 h2 1 (by norm_num) (by norm_num)
  have m2 := @mag_range r h1 h2 2 (by norm_num) (by norm_num)
  have mp := @mag_range r h1 h2 p (by linarith) (by linarith)
  have m2p := @mag_range r h1 h2 (2 * p) (by linarith) (by linarith)
  have c2p := @const_range (2 * p) (by linarith) (by linarith)
  simp only [one_mul] at m1
  -- the other side, 2 / r
  obtain ⟨t, ht, et⟩ := rel_round (x := 2 / r) (a := 2 / r) (c := 0) le_rfl (by norm_num)
    (by rw [abs_of_pos (by positivity)]; exact m2.2.2.2.1)
    (by rw [abs_of_pos (by positivity)]; exact m2.2.2.2.2) (rel_exact _)
  -- the perimeter
  obtain ⟨d, hd, ed⟩ := rel_round (x := 2 * p) (a := 2 * p) (c := 0) le_rfl (by norm_num)
    (by rw [abs_of_pos (by positivity)]; exact c2p.1)
    (by rw [abs_of_pos (by positivity)]; exact c2p.2) (rel_exact _)
  have e1 := rel_mul (x := d) (a := 2 * p) (y := r) (b := r) (d := 0) (by norm_num)
    (by norm_num) le_rfl (by norm_num) ed (rel_exact _)
  obtain ⟨l, hl, el⟩ := rel_round (by norm_num) (by norm_num)
    (by rw [abs_of_pos (by positivity)]; exact m2p.1.1)
    (by rw [abs_of_pos (by positivity)]; exact m2p.1.2) e1
  -- the area
  obtain ⟨s, hs, es⟩ := rel_round (x := r ^ 2) (a := r ^ 2) (c := 0) le_rfl (by norm_num)
    (by rw [abs_of_pos hr2]; exact m1.2.1.1) (by rw [abs_of_pos hr2]; exact m1.2.1.2)
    (rel_exact _)
  have e2 := rel_mul (x := p) (a := p) (y := s) (b := r ^ 2) (c := 0) le_rfl (by norm_num)
    (by norm_num) (by norm_num) (rel_exact _) es
  obtain ⟨a, ha, ea⟩ := rel_round (by norm_num) (by norm_num)
    (by rw [abs_of_pos (by positivity)]; exact mp.2.1.1)
    (by rw [abs_of_pos (by positivity)]; exact mp.2.1.2) e2
  -- the quotient
  have hane : p * r ^ 2 ≠ 0 := by positivity
  have e3 := rel_div (by norm_num) (by norm_num) (by norm_num) (by norm_num) hane el ea
  have equot : 2 * p * r / (p * r ^ 2) = 2 / r := by
    field_simp
    ring
  rw [equot] at e3
  obtain ⟨q, hq, eq⟩ := rel_round (by norm_num) (by norm_num)
    (by rw [abs_of_pos (by positivity)]; exact m2.2.2.2.1)
    (by rw [abs_of_pos (by positivity)]; exact m2.2.2.2.2) e3.2
  refine ⟨q, t, ?_, ?_, ?_⟩
  · delta circle.perimeter
    delta circle.area
    rw [hp]
    show (2 * fin p * fin r / (fin p * pow (fin r) 2) : F64) = fin q
    have h2n : ((2 : ℕ) : ℝ) = 2 := by norm_num
    rw [pow_fin_pos hr, Real.rpow_two, hs, ofNat_eq_fin, fin_mul, h2n, hd, fin_mul, hl, fin_mul,
      ha, fin_div, if_neg e3.1, hq]
  · show (fin ((2 : ℕ) : ℝ) / fin r : F64) = fin t
    have h2n : ((2 : ℕ) : ℝ) = 2 := by norm_num
    rw [fin_div, if_neg hr.ne', h2n, ht]
  · have hu0 : (0 : ℝ) < (2 : ℝ) ^ (-53 : ℤ) := zpow_pos (by norm_num) _
    rw [eight_eps]
    have hpos : (0 : ℝ) < 2 / r := by positivity
    rw [abs_of_pos hpos] at eq et
    exact close_of_rel hpos.le hu0.le eq et (by norm_num)

/-- The two sides of the identity `volume() = (r/3) * area()` of a sphere in
binary64 arithmetic, for a radius between `2^-300` and `2^300`: both are
finite, and they differ by at most `2^-47 * r^3`. -/
theorem sphere_sides_close {r : ℝ} (h1 : (2 : ℝ) ^ (-300 : ℤ) ≤ r)
    (h2 : r ≤ (2 : ℝ) ^ (300 : ℤ)) :
    ∃ v t : ℝ, sphere.volume ⟨r⟩ = fin v ∧
      (r : F64) / 3 * sphere.area ⟨r⟩ = fin t ∧
      |t - v| ≤ (2 : ℝ) ^ (-47 : ℤ) * r ^ 3 := by
  have hr : 0 < r := lt_of_lt_of_le (zpow_pos (by norm_num) _) h1
  have hr2 : (0 : ℝ) < r ^ 2 := by positivity
  have hr3 : (0 : ℝ) < r ^ 3 := by positivity
  obtain ⟨q, hq, lq, uq⟩ := four_pi_value
  have hq0 : 0 < q := by linarith
  have m1 := @mag_range r h1 h2 1 (by norm_num) (by norm_num)
  have m3 := @mag_range r h1 h2 (1 / 3) (by norm_num) (by norm_num)
  have mq := @mag_range r h1 h2 q (by linarith) (by linarith)
  have mq3 := @mag_range r h1 h2 (q / 3) (by linarith) (by linarith)
  simp only [one_mul] at m1
  -- the volume
  obtain ⟨c, hc, ec⟩ := rel_round (x := r ^ 3) (a := r ^ 3) (c := 0) le_rfl (by norm_num)
    (by rw [abs_of_pos hr3]; exact m1.2.2.1.1) (by rw [abs_of_pos hr3]; exact m1.2.2.1.2)
    (rel_exact _)
  have e1 := rel_mul (x := q) (a := q) (y := c) (b := r ^ 3) (c := 0) le_rfl (by norm_num)
    (by norm_num) (by norm_num) (rel_exact _) ec
  obtain ⟨n, hn, en⟩ := rel_round (by norm_num) (by norm_num)
    (by rw [abs_of_pos (by positivity)]; exact mq.2.2.1.1)
    (by rw [abs_of_pos (by positivity)]; exact mq.2.2.1.2) e1
  have e2 := rel_div (x := n) (a := q * r ^ 3) (y := 3) (b := 3) (d := 0) (by norm_num)
    (by norm_num) le_rfl (by norm_num) (by norm_num) en (rel_exact _)
  have ev : q * r ^ 3 / 3 = q / 3 * r ^ 3 := by ring
  rw [ev] at e2
  obtain ⟨v, hv, evv⟩ := rel_round (by norm_num) (by norm_num)
    (by rw [abs_of_pos (by positivity)]; exact mq3.2.2.1.1)
    (by rw [abs_of_pos (by positivity)]; exact mq3.2.2.1.2) e2.2
  -- the third of the radius
  have e3 := rel_div (x := r) (a := r) (y := 3) (b := 3) (c := 0) (d := 0) le_rfl (by norm_num)
    le_rfl (by norm_num) (by norm_num) (rel_exact _) (rel_exact _)
  have e13 : r / 3 = 1 / 3 * r := by ring
  obtain ⟨k, hk, ek⟩ := rel_round (by norm_num) (by norm_num)
    (by rw [e13, abs_of_pos (by positivity)]; exact m3.1.1)
    (by rw [e13, abs_of_pos (by positivity)]; exact m3.1.2) e3.2
  -- the area
  obtain ⟨s, hs, es⟩ := rel_round (x := r ^ 2) (a := r ^ 2) (c := 0) le_rfl (by norm_num)
    (by rw [abs_of_pos hr2]; exact m1.2.1.1) (by rw [abs_of_pos hr2]; exact m1.2.1.2)
    (rel_exact _)
  have e4 := rel_mul (x := q) (a := q) (y := s) (b := r ^ 2) (c := 0) le_rfl (by norm_num)
    (by norm_num) (by norm_num) (rel_exact _) es
  obtain ⟨a, ha, ea⟩ := rel_round (by norm_num) (by norm_num)
    (by rw [abs_of_pos (by positivity)]; exact mq.2.1.1)
    (by rw [abs_of_pos (by positivity)]; exact mq.2.1.2) e4
  -- the product
  have e5 := rel_mul (by norm_num) (by norm_num) (by norm_num) (by norm_num) ek ea
  have et : r / 3 * (q * r ^ 2) = q / 3 * r ^ 3 := by ring
  rw [et] at e5
  obtain ⟨t, ht, ett⟩ := rel_round (by norm_num) (by norm_num)
    (by rw [abs_of_pos (by positivity)]; exact mq3.2.2.1.1)
    (by rw [abs_of_pos (by positivity)]; exact mq3.2.2.1.2) e5
  have h3n : ((3 : ℕ) : ℝ) = 3 := by norm_num
  have h3ne : (3 : ℝ) ≠ 0 := by norm_num
  refine ⟨v, t, ?_, ?_, ?_⟩
  · delta sphere.volume
    rw [hq]
    show (fin q * pow (fin r) 3 / 3 : F64) = fin v
    rw [pow_fin_pos hr, show (3 : ℝ) = ((3 : ℕ) : ℝ) by norm_num, Real.rpow_natCast, hc,
      fin_mul, hn, ofNat_eq_fin, fin_div, h3n, if_neg h3ne, hv]
  · delta sphere.area
    rw [hq]
    show (fin r / 3 * (fin q * pow (fin r) 2) : F64) = fin t
    rw [pow_fin_pos hr, Real.rpow_two, hs, fin_mul, ha, ofNat_eq_fin, fin_div, h3n,
      if_neg h3ne, hk, fin_mul, ht]
  · have hu0 : (0 : ℝ) < (2 : ℝ) ^ (-53 : ℤ) := zpow_pos (by norm_num) _
    have e47 : (2 : ℝ) ^ (-47 : ℤ) = 64 * (2 : ℝ) ^ (-53 : ℤ) := by
      rw [show (-47 : ℤ) = 6 + -53 by norm_num, zpow_add₀ two_ne_zero]
      norm_num
    rw [e47]
    have hpos : (0 : ℝ) < q / 3 * r ^ 3 := by positivity
    rw [abs_of_pos hpos] at evv ett
    have hclose : |t - v| ≤ 8 * (2 : ℝ) ^ (-53 : ℤ) * (q / 3 * r ^ 3) :=
      close_of_rel hpos.le hu0.le ett evv (by norm_num)
    have hq3 : q / 3 * r ^ 3 ≤ 8 * r ^ 3 := by
      apply mul_le_mul_of_nonneg_right _ hr3.le
      linarith
    have hm2 : 8 * (2 : ℝ) ^ (-53 : ℤ) * (q / 3 * r ^ 3)
        ≤ 8 * (2 : ℝ) ^ (-53 : ℤ) * (8 * r ^ 3) :=
      mul_le_mul_of_nonneg_left hq3 (by positivity)
    calc |t - v| ≤ 8 * (2 : ℝ) ^ (-53 : ℤ) * (q / 3 * r ^ 3) := hclose
      _ ≤ 8 * (2 : ℝ) ^ (-53 : ℤ) * (8 * r ^ 3) := hm2
      _ = 64 * (2 : ℝ) ^ (-53 : ℤ) * r ^ 3 := by ring

end Binary64

namespace Binary64

open F64

/-- The volumes of `ellipsoid(r, r, r)` and of `sphere(r)` in binary64
arithmetic, for `|r|` between `2^-300` and `2^300`: both are finite, and they
differ. -/
theorem volumes_differ_in_range {r : ℝ} (h1 : (2 : ℝ) ^ (-300 : ℤ) ≤ |r|)
    (h2 : |r| ≤ (2 : ℝ) ^ (300 : ℤ)) :
    ∃ e s : ℝ, ellipsoid.volume ⟨r, r, r⟩ = fin e ∧ sphere.volume ⟨r⟩ = fin s ∧ e ≠ s := by
  -- The value of `std::pow(a, 3)` for every finite `a`.
  have pow_three_value (a : ℝ) : pow (fin a) 3 = round_nearest (a ^ 3) := by
    have hfl : ((⌊(3 : ℝ)⌋ : ℤ) : ℝ) = 3 := by
      have h : ⌊(3 : ℝ)⌋ = 3 := by
        rw [Int.floor_eq_iff]
        norm_num
      rw [h]
      norm_num
    have h1 : ¬ (a < 0 ∧ ((⌊(3 : ℝ)⌋ : ℤ) : ℝ) ≠ 3) := fun h => h.2 hfl
    have h2 : ¬ (a = 0 ∧ (3 : ℝ) < 0) := fun h => by linarith [h.2]
    have h3 : a ^ (3 : ℝ) = a ^ 3 := by
      rw [show (3 : ℝ) = ((3 : ℕ) : ℝ) by norm_num, Real.rpow_natCast]
    show (if a < 0 ∧ ((⌊(3 : ℝ)⌋ : ℤ) : ℝ) ≠ 3 then nan
      else if a = 0 ∧ (3 : ℝ) < 0 then pinf else round_nearest (a ^ (3 : ℝ)))
        = round_nearest (a ^ 3)
    rw [if_neg h1, if_neg h2, h3]
  -- Two numbers that approximate two well separated numbers differ.
  have ne_of_rel {e s a b m u : ℝ} (hm : 0 < m) (hu : u ≤ 1 / 1000000000)
      (he : |e - a| ≤ 5 * u * |a|) (hs : |s - b| ≤ 5 * u * |b|)
      (ha : |a| ≤ 2 * m) (hb : |b| ≤ 5 * m) (hab : 2 * m ≤ |a - b|) : e ≠ s := by
    intro hes
    rw [hes] at he
    have h1 : |a - b| ≤ |a - s| + |s - b| := abs_sub_le a s b
    rw [abs_sub_comm a s] at h1
    have h2 : 5 * u * |a| ≤ 5 * (1 / 1000000000) * (2 * m) :=
      mul_le_mul (by linarith) ha (abs_nonneg a) (by norm_num)
    have h3 : 5 * u * |b| ≤ 5 * (1 / 1000000000) * (5 * m) :=
      mul_le_mul (by linarith) hb (abs_nonneg b) (by norm_num)
    linarith
  have hr : 0 < |r| := lt_of_lt_of_le (zpow_pos (by norm_num) _) h1
  have hr3 : (0 : ℝ) < |r| ^ 3 := by positivity
  obtain ⟨q, hq, lq, uq⟩ := four_pi_value
  have hq0 : 0 < q := by linarith
  have m1 := @mag_range |r| h1 h2 1 (by norm_num) (by norm_num)
  have m4 := @mag_range |r| h1 h2 4 (by norm_num) (by norm_num)
  have m43 := @mag_range |r| h1 h2 (4 / 3) (by norm_num) (by norm_num)
  have mq := @mag_range |r| h1 h2 q (by linarith) (by linarith)
  have mq3 := @mag_range |r| h1 h2 (q / 3) (by linarith) (by linarith)
  simp only [one_mul] at m1
  have a1 : |4 * r| = 4 * |r| := by rw [abs_mul, abs_of_pos (by norm_num : (0 : ℝ) < 4)]
  have a2 : |4 * r * r| = 4 * |r| ^ 2 := by
    rw [abs_mul, a1]
    ring
  have a3 : |4 * r * r * r| = 4 * |r| ^ 3 := by
    rw [abs_mul, a2]
    ring
  have a4 : |4 * r * r * r / 3| = 4 / 3 * |r| ^ 3 := by
    rw [abs_div, a3, abs_of_pos (by norm_num : (0 : ℝ) < 3)]
    ring
  have b1 : |r ^ 3| = |r| ^ 3 := abs_pow r 3
  have b2 : |q * r ^ 3| = q * |r| ^ 3 := by rw [abs_mul, b1, abs_of_pos hq0]
  have b3 : |q * r ^ 3 / 3| = q / 3 * |r| ^ 3 := by
    rw [abs_div, b2, abs_of_pos (by norm_num : (0 : ℝ) < 3)]
    ring
  -- the ellipsoid
  have f1 := rel_mul (x := 4) (a := 4) (y := r) (b := r) (c := 0) (d := 0) le_rfl (by norm_num)
    le_rfl (by norm_num) (rel_exact _) (rel_exact _)
  obtain ⟨x1, hx1, e1⟩ := rel_round (by norm_num) (by norm_num)
    (by rw [a1]; exact m4.1.1) (by rw [a1]; exact m4.1.2) f1
  have f2 := rel_mul (x := x1) (a := 4 * r) (y := r) (b := r) (d := 0) (by norm_num)
    (by norm_num) le_rfl (by norm_num) e1 (rel_exact _)
  obtain ⟨x2, hx2, e2⟩ := rel_round (by norm_num) (by norm_num)
    (by rw [a2]; exact m4.2.1.1) (by rw [a2]; exact m4.2.1.2) f2
  have f3 := rel_mul (x := x2) (a := 4 * r * r) (y := r) (b := r) (d := 0) (by norm_num)
    (by norm_num) le_rfl (by norm_num) e2 (rel_exact _)
  obtain ⟨x3, hx3, e3⟩ := rel_round (by norm_num) (by norm_num)
    (by rw [a3]; exact m4.2.2.1.1) (by rw [a3]; exact m4.2.2.1.2) f3
  have f4 := rel_div (x := x3) (a := 4 * r * r * r) (y := 3) (b := 3) (d := 0) (by norm_num)
    (by norm_num) le_rfl (by norm_num) (by norm_num) e3 (rel_exact _)
  obtain ⟨e, hev, ee⟩ := rel_round (by norm_num) (by norm_num)
    (by rw [a4]; exact m43.2.2.1.1) (by rw [a4]; exact m43.2.2.1.2) f4.2
  -- the sphere
  obtain ⟨c, hc, ec⟩ := rel_round (x := r ^ 3) (a := r ^ 3) (c := 0) le_rfl (by norm_num)
    (by rw [b1]; exact m1.2.2.1.1) (by rw [b1]; exact m1.2.2.1.2) (rel_exact _)
  have g1 := rel_mul (x := q) (a := q) (y := c) (b := r ^ 3) (c := 0) le_rfl (by norm_num)
    (by norm_num) (by norm_num) (rel_exact _) ec
  obtain ⟨n, hn, en⟩ := rel_round (by norm_num) (by norm_num)
    (by rw [b2]; exact mq.2.2.1.1) (by rw [b2]; exact mq.2.2.1.2) g1
  have g2 := rel_div (x := n) (a := q * r ^ 3) (y := 3) (b := 3) (d := 0) (by norm_num)
    (by norm_num) le_rfl (by norm_num) (by norm_num) en (rel_exact _)
  obtain ⟨s, hs, es⟩ := rel_round (by norm_num) (by norm_num)
    (by rw [b3]; exact mq3.2.2.1.1) (by rw [b3]; exact mq3.2.2.1.2) g2.2
  have h3n : ((3 : ℕ) : ℝ) = 3 := by norm_num
  have h4n : ((4 : ℕ) : ℝ) = 4 := by norm_num
  have h3ne : (3 : ℝ) ≠ 0 := by norm_num
  refine ⟨e, s, ?_, ?_, ?_⟩
  · delta ellipsoid.volume
    show (4 * fin r * fin r * fin r / 3 : F64) = fin e
    rw [ofNat_eq_fin, fin_mul, h4n, hx1, fin_mul, hx2, fin_mul, hx3, ofNat_eq_fin, fin_div,
      h3n, if_neg h3ne, hev]
  · delta sphere.volume
    rw [hq]
    show (fin q * pow (fin r) 3 / 3 : F64) = fin s
    rw [pow_three_value, hc, fin_mul, hn, ofNat_eq_fin, fin_div, h3n, if_neg h3ne, hs]
  · have hu0 : (0 : ℝ) < (2 : ℝ) ^ (-53 : ℤ) := zpow_pos (by norm_num) _
    have hee : |e - 4 * r * r * r / 3| ≤ 5 * (2 : ℝ) ^ (-53 : ℤ) * |4 * r * r * r / 3| := by
      refine ee.trans ?_
      apply mul_le_mul_of_nonneg_right _ (abs_nonneg _)
      apply mul_le_mul_of_nonneg_right _ hu0.le
      norm_num
    have hss : |s - q * r ^ 3 / 3| ≤ 5 * (2 : ℝ) ^ (-53 : ℤ) * |q * r ^ 3 / 3| := by
      refine es.trans ?_
      apply mul_le_mul_of_nonneg_right _ (abs_nonneg _)
      apply mul_le_mul_of_nonneg_right _ hu0.le
      norm_num
    have hdiff : 4 * r * r * r / 3 - q * r ^ 3 / 3 = (4 - q) / 3 * r ^ 3 := by ring
    have hab : 2 * |r| ^ 3 ≤ |4 * r * r * r / 3 - q * r ^ 3 / 3| := by
      rw [hdiff, abs_mul, b1, abs_div, abs_of_neg (by linarith : 4 - q < 0),
        abs_of_pos (by norm_num : (0 : ℝ) < 3)]
      apply mul_le_mul_of_nonneg_right _ hr3.le
      linarith
    refine ne_of_rel hr3 eps_le_billionth hee hss ?_ ?_ hab
    · rw [a4]
      linarith
    · rw [b3]
      have : q / 3 * |r| ^ 3 ≤ 5 * |r| ^ 3 := by
        apply mul_le_mul_of_nonneg_right _ hr3.le
        linarith
      exact this

end Binary64

namespace Binary64

open F64

/-- An approximation of a positive number is positive. -/
theorem rel_pos {y a c : ℝ} (ha : 0 < a) (hc : c ≤ 100)
    (h : |y - a| ≤ c * (2 : ℝ) ^ (-53 : ℤ) * |a|) : 0 < y := by
  have hu := eps_le_billionth
  have hu0 : (0 : ℝ) < (2 : ℝ) ^ (-53 : ℤ) := zpow_pos (by norm_num) _
  rw [abs_of_pos ha] at h
  generalize (2 : ℝ) ^ (-53 : ℤ) = u at h hu hu0
  have h1 : c * u ≤ 100 * (1 / 1000000000) := mul_le_mul hc hu hu0.le (by norm_num)
  have h2 : c * u * a ≤ 100 * (1 / 1000000000) * a := mul_le_mul_of_nonneg_right h1 ha.le
  have h3 := (abs_le.mp h).1
  linarith

/-- The bounds of an approximation of a positive number. -/
theorem rel_bounds {y a c : ℝ} (ha : 0 < a) (hc : c ≤ 100)
    (h : |y - a| ≤ c * (2 : ℝ) ^ (-53 : ℤ) * |a|) :
    a * (999 / 1000) ≤ y ∧ y ≤ a * (1001 / 1000) := by
  have hu := eps_le_billionth
  have hu0 : (0 : ℝ) < (2 : ℝ) ^ (-53 : ℤ) := zpow_pos (by norm_num) _
  rw [abs_of_pos ha] at h
  generalize (2 : ℝ) ^ (-53 : ℤ) = u at h hu hu0
  have h1 : c * u ≤ 100 * (1 / 1000000000) := mul_le_mul hc hu hu0.le (by norm_num)
  have h2 : c * u * a ≤ 100 * (1 / 1000000000) * a := mul_le_mul_of_nonneg_right h1 ha.le
  obtain ⟨h3, h4⟩ := abs_le.mp h
  constructor <;> linarith

/-- A positive number between two bounds from `2^-1000` to `2^1000` rounds to
a finite number between nearly the same bounds. -/
theorem round_pos {x l u : ℝ} (hl : (2 : ℝ) ^ (-1000 : ℤ) ≤ l) (h1 : l ≤ x) (h2 : x ≤ u)
    (hu : u ≤ (2 : ℝ) ^ (1000 : ℤ)) :
    ∃ y : ℝ, round_nearest x = fin y ∧ l * (999 / 1000) ≤ y ∧ y ≤ u * (1001 / 1000) := by
  obtain ⟨r1, r2⟩ := range_bounds
  have hlo : (0 : ℝ) < (2 : ℝ) ^ (-1000 : ℤ) := zpow_pos (by norm_num) _
  have hhi : (0 : ℝ) < (2 : ℝ) ^ (1000 : ℤ) := zpow_pos (by norm_num) _
  refine round_nearest_between ?_ h1 h2 ?_
  · generalize (2 : ℝ) ^ (-1022 : ℤ) = p at r1 ⊢
    generalize (2 : ℝ) ^ (-1000 : ℤ) = q at r1 hl hlo
    linarith
  · generalize (2 : ℝ) ^ (1024 : ℤ) - (2 : ℝ) ^ (1017 : ℤ) = p at r2 ⊢
    generalize (2 : ℝ) ^ (1000 : ℤ) = q at r2 hu hhi
    linarith

/-- The magnitude of `c*a + d*b` for two dimensions between `2^-300` and
`2^300` and two non-negative constants up to 16 with `c + d >= 1/2`. -/
theorem lin_range {a b c d : ℝ} (ha1 : (2 : ℝ) ^ (-300 : ℤ) ≤ a)
    (ha2 : a ≤ (2 : ℝ) ^ (300 : ℤ)) (hb1 : (2 : ℝ) ^ (-300 : ℤ) ≤ b)
    (hb2 : b ≤ (2 : ℝ) ^ (300 : ℤ)) (hc0 : 0 ≤ c) (hc : c ≤ 16) (hd0 : 0 ≤ d) (hd : d ≤ 16)
    (hcd : 1 / 2 ≤ c + d) :
    (2 : ℝ) ^ (-1000 : ℤ) ≤ c * a + d * b ∧ c * a + d * b ≤ (2 : ℝ) ^ (1000 : ℤ) := by
  have hp : (0 : ℝ) < (2 : ℝ) ^ (-300 : ℤ) := zpow_pos (by norm_num) _
  have hq : (0 : ℝ) < (2 : ℝ) ^ (300 : ℤ) := zpow_pos (by norm_num) _
  have hpq : (2 : ℝ) ^ (-300 : ℤ) ≤ (2 : ℝ) ^ (300 : ℤ) :=
    zpow_le_zpow_right₀ (by norm_num) (by norm_num)
  have mlo := @mag_range ((2 : ℝ) ^ (-300 : ℤ)) le_rfl hpq (1 / 2) (by norm_num) (by norm_num)
  have mhi := @mag_range ((2 : ℝ) ^ (300 : ℤ)) hpq le_rfl 32 (by norm_num) (by norm_num)
  have l1 := mlo.1.1
  have l2 := mhi.1.2
  generalize (2 : ℝ) ^ (-1000 : ℤ) = lo at l1 ⊢
  generalize (2 : ℝ) ^ (1000 : ℤ) = hi at l2 ⊢
  generalize (2 : ℝ) ^ (-300 : ℤ) = p at *
  generalize (2 : ℝ) ^ (300 : ℤ) = q at *
  have ha0 : 0 < a := lt_of_lt_of_le hp ha1
  have hb0 : 0 < b := lt_of_lt_of_le hp hb1
  have h1 : c * p ≤ c * a := mul_le_mul_of_nonneg_left ha1 hc0
  have h2 : d * p ≤ d * b := mul_le_mul_of_nonneg_left hb1 hd0
  have h3 : c * a ≤ 16 * q := mul_le_mul hc ha2 ha0.le (by norm_num)
  have h4 : d * b ≤ 16 * q := mul_le_mul hd hb2 hb0.le (by norm_num)
  have h5 : 1 / 2 * p ≤ (c + d) * p := mul_le_mul_of_nonneg_right hcd hp.le
  constructor <;> linarith

end Binary64

namespace Binary64

open F64

/-- The root of the Ramanujan formula is at most `2*(a+b)`. -/
theorem ramanujan_root_le_two {a b : ℝ} (ha : 0 < a) (hb : 0 < b) :
    Real.sqrt ((3 * a + b) * (a + 3 * b)) ≤ 2 * (a + b) := by
  have h0 : (0 : ℝ) ≤ 2 * (a + b) := by positivity
  rw [show 2 * (a + b) = Real.sqrt ((2 * (a + b)) ^ 2) from (Real.sqrt_sq h0).symm]
  apply Real.sqrt_le_sqrt
  nlinarith [sq_nonneg (a - b)]

/-- A factor `3*a + b` of the Ramanujan formula in binary64 arithmetic. -/
theorem ramanujan_factor {a b : ℝ} (ha1 : (2 : ℝ) ^ (-300 : ℤ) ≤ a)
    (ha2 : a ≤ (2 : ℝ) ^ (300 : ℤ)) (hb1 : (2 : ℝ) ^ (-300 : ℤ) ≤ b)
    (hb2 : b ≤ (2 : ℝ) ^ (300 : ℤ)) :
    ∃ v : ℝ, (3 * fin a + fin b : F64) = fin v ∧ (fin b + 3 * fin a : F64) = fin v ∧
      |v - (3 * a + b)| ≤ 4 * (2 : ℝ) ^ (-53 : ℤ) * |3 * a + b| := by
  -- The error of a sum of approximations of two positive numbers.
  have rel_add {x a y b c d k : ℝ} (ha : 0 < a) (hb : 0 < b) (hck : c ≤ k) (hdk : d ≤ k)
      (hx : |x - a| ≤ c * (2 : ℝ) ^ (-53 : ℤ) * |a|)
      (hy : |y - b| ≤ d * (2 : ℝ) ^ (-53 : ℤ) * |b|) :
      |x + y - (a + b)| ≤ k * (2 : ℝ) ^ (-53 : ℤ) * |a + b| := by
    have hu0 : (0 : ℝ) < (2 : ℝ) ^ (-53 : ℤ) := zpow_pos (by norm_num) _
    rw [abs_of_pos ha] at hx
    rw [abs_of_pos hb] at hy
    rw [abs_of_pos (add_pos ha hb)]
    generalize (2 : ℝ) ^ (-53 : ℤ) = u at hx hy hu0 ⊢
    have hid : x + y - (a + b) = (x - a) + (y - b) := by ring
    have h1 : |x + y - (a + b)| ≤ |x - a| + |y - b| := by
      rw [hid]
      exact abs_add _ _
    have h2 : c * u * a ≤ k * u * a :=
      mul_le_mul_of_nonneg_right (mul_le_mul_of_nonneg_right hck hu0.le) ha.le
    have h3 : d * u * b ≤ k * u * b :=
      mul_le_mul_of_nonneg_right (mul_le_mul_of_nonneg_right hdk hu0.le) hb.le
    linarith
  have hp0 : (0 : ℝ) < (2 : ℝ) ^ (-300 : ℤ) := zpow_pos (by norm_num) _
  have ha : 0 < a := lt_of_lt_of_le hp0 ha1
  have hb : 0 < b := lt_of_lt_of_le hp0 hb1
  have h3a : 0 < 3 * a := by linarith
  have h3ab : 0 < 3 * a + b := by linarith
  have ma := @mag_range a ha1 ha2 3 (by norm_num) (by norm_num)
  have n31 := lin_range ha1 ha2 hb1 hb2 (c := 3) (d := 1) (by norm_num) (by norm_num)
    (by norm_num) (by norm_num) (by norm_num)
  simp only [one_mul] at n31
  have f2 := rel_mul (x := 3) (a := 3) (y := a) (b := a) (c := 0) (d := 0) le_rfl
    (by norm_num) le_rfl (by norm_num) (rel_exact _) (rel_exact _)
  obtain ⟨x1, hx1, e1⟩ := rel_round (by norm_num) (by norm_num)
    (by rw [abs_of_pos h3a]; exact ma.1.1) (by rw [abs_of_pos h3a]; exact ma.1.2) f2
  have g1 := rel_add (x := x1) (a := 3 * a) (y := b) (b := b) (d := 0) (k := 2) h3a
    hb (by norm_num) (by norm_num) e1 (rel_exact _)
  obtain ⟨v, hv, ev⟩ := rel_round (by norm_num) (by norm_num)
    (by rw [abs_of_pos h3ab]; exact n31.1) (by rw [abs_of_pos h3ab]; exact n31.2) g1
  have h3n : ((3 : ℕ) : ℝ) = 3 := by norm_num
  refine ⟨v, ?_, ?_, ev.trans ?_⟩
  · rw [ofNat_eq_fin, fin_mul, h3n, hx1, fin_add, hv]
  · rw [ofNat_eq_fin, fin_mul, h3n, hx1, fin_add, add_comm b x1, hv]
  · apply mul_le_mul_of_nonneg_right _ (abs_nonneg _)
    apply mul_le_mul_of_nonneg_right _ (zpow_pos (by norm_num) _).le
    norm_num

/-- The perimeter of an ellipse in binary64 arithmetic, for semi-axes between
`2^-300` and `2^300`: a positive finite number. -/
theorem ellipse_perimeter_pos {a b : ℝ} (ha1 : (2 : ℝ) ^ (-300 : ℤ) ≤ a)
    (ha2 : a ≤ (2 : ℝ) ^ (300 : ℤ)) (hb1 : (2 : ℝ) ^ (-300 : ℤ) ≤ b)
    (hb2 : b ≤ (2 : ℝ) ^ (300 : ℤ)) :
    ∃ y : ℝ, ellipse.perimeter ⟨a, b⟩ = fin y ∧ 0 < y := by
  -- The root of the Ramanujan formula in binary64 arithmetic.
  have ramanujan_root {a b : ℝ} (ha1 : (2 : ℝ) ^ (-300 : ℤ) ≤ a)
      (ha2 : a ≤ (2 : ℝ) ^ (300 : ℤ)) (hb1 : (2 : ℝ) ^ (-300 : ℤ) ≤ b)
      (hb2 : b ≤ (2 : ℝ) ^ (300 : ℤ)) :
      ∃ w : ℝ, pow ((3 * fin a + fin b) * (fin a + 3 * fin b)) 0.5 = fin w ∧
        |w - Real.sqrt ((3 * a + b) * (a + 3 * b))|
          ≤ 11 * (2 : ℝ) ^ (-53 : ℤ) * |Real.sqrt ((3 * a + b) * (a + 3 * b))| := by
    -- The magnitude of the product under the root of the Ramanujan formula,
    -- for semi-axes between `2^-300` and `2^300`.
    have ramanujan_product_range {a b : ℝ} (ha1 : (2 : ℝ) ^ (-300 : ℤ) ≤ a)
        (ha2 : a ≤ (2 : ℝ) ^ (300 : ℤ)) (hb1 : (2 : ℝ) ^ (-300 : ℤ) ≤ b)
        (hb2 : b ≤ (2 : ℝ) ^ (300 : ℤ)) :
        (2 : ℝ) ^ (-1000 : ℤ) ≤ (3 * a + b) * (a + 3 * b) ∧
          (3 * a + b) * (a + 3 * b) ≤ (2 : ℝ) ^ (1000 : ℤ) := by
      have hp0 : (0 : ℝ) < (2 : ℝ) ^ (-300 : ℤ) := zpow_pos (by norm_num) _
      have ha : 0 < a := lt_of_lt_of_le hp0 ha1
      have hb : 0 < b := lt_of_lt_of_le hp0 hb1
      have hq : (2 : ℝ) ^ (-300 : ℤ) ≤ (2 : ℝ) ^ (300 : ℤ) :=
        zpow_le_zpow_right₀ (by norm_num) (by norm_num)
      have hq0 : (0 : ℝ) < (2 : ℝ) ^ (300 : ℤ) := zpow_pos (by norm_num) _
      have hlo := (@mag_range a ha1 ha2 3 (by norm_num) (by norm_num)).2.1.1
      have hhi := (@mag_range ((2 : ℝ) ^ (300 : ℤ)) hq le_rfl 16 (by norm_num)
        (by norm_num)).2.1.2
      constructor
      · refine hlo.trans ?_
        have hab := mul_pos ha hb
        have hbb := mul_pos hb hb
        have : (3 * a + b) * (a + 3 * b) = 3 * a ^ 2 + 10 * (a * b) + 3 * (b * b) := by ring
        rw [this]
        linarith
      · refine le_trans ?_ hhi
        have h1 : 3 * a + b ≤ 4 * (2 : ℝ) ^ (300 : ℤ) := by linarith
        have h2 : a + 3 * b ≤ 4 * (2 : ℝ) ^ (300 : ℤ) := by linarith
        have h3 : (3 * a + b) * (a + 3 * b)
            ≤ 4 * (2 : ℝ) ^ (300 : ℤ) * (4 * (2 : ℝ) ^ (300 : ℤ)) :=
          mul_le_mul h1 h2 (by positivity) (by positivity)
        refine h3.trans (le_of_eq ?_)
        ring
    -- The root of the Ramanujan formula is at least `a + b`.
    have add_le_ramanujan_root {a b : ℝ} (ha : 0 < a) (hb : 0 < b) :
        a + b ≤ Real.sqrt ((3 * a + b) * (a + 3 * b)) := by
      have h0 : (0 : ℝ) ≤ a + b := by positivity
      rw [show a + b = Real.sqrt ((a + b) ^ 2) from (Real.sqrt_sq h0).symm]
      apply Real.sqrt_le_sqrt
      nlinarith [mul_pos ha hb, sq_nonneg a, sq_nonneg b]
    -- The error of the square root of an approximation of a positive number.
    have rel_sqrt {x a c : ℝ} (ha : 0 < a) (hc0 : 0 ≤ c) (hc : c ≤ 100)
        (hx : |x - a| ≤ c * (2 : ℝ) ^ (-53 : ℤ) * |a|) :
        |Real.sqrt x - Real.sqrt a| ≤ c * (2 : ℝ) ^ (-53 : ℤ) * |Real.sqrt a| := by
      have hx0 : 0 < x := rel_pos ha hc hx
      have hu0 : (0 : ℝ) < (2 : ℝ) ^ (-53 : ℤ) := zpow_pos (by norm_num) _
      have hsa : 0 < Real.sqrt a := Real.sqrt_pos.mpr ha
      have hsx : 0 < Real.sqrt x := Real.sqrt_pos.mpr hx0
      rw [abs_of_pos ha] at hx
      rw [abs_of_pos hsa]
      generalize (2 : ℝ) ^ (-53 : ℤ) = u at hx hu0 ⊢
      have e1 : Real.sqrt a * Real.sqrt a = a := Real.mul_self_sqrt ha.le
      have e2 : Real.sqrt x * Real.sqrt x = x := Real.mul_self_sqrt hx0.le
      have hid : (Real.sqrt x - Real.sqrt a) * (Real.sqrt x + Real.sqrt a) = x - a := by
        ring_nf
        rw [sq, sq, e1, e2]
      have hsum : 0 < Real.sqrt x + Real.sqrt a := add_pos hsx hsa
      have h1 : |Real.sqrt x - Real.sqrt a| * (Real.sqrt x + Real.sqrt a) = |x - a| := by
        rw [← hid, abs_mul, abs_of_pos hsum]
      have hcu : 0 ≤ c * u := mul_nonneg hc0 hu0.le
      have h2 : c * u * a ≤ c * u * Real.sqrt a * (Real.sqrt x + Real.sqrt a) := by
        have : c * u * a = c * u * Real.sqrt a * Real.sqrt a := by
          rw [mul_assoc (c * u), e1]
        rw [this]
        apply mul_le_mul_of_nonneg_left _ (mul_nonneg hcu hsa.le)
        linarith
      have h3 : |Real.sqrt x - Real.sqrt a| * (Real.sqrt x + Real.sqrt a)
          ≤ c * u * Real.sqrt a * (Real.sqrt x + Real.sqrt a) := by
        rw [h1]
        linarith
      exact le_of_mul_le_mul_right h3 hsum
    -- The value of `std::pow(a, 0.5)` for a positive `a`.
    have pow_fin_half {a : ℝ} (ha : 0 < a) :
        pow (fin a) 0.5 = round_nearest (Real.sqrt a) := by
      rw [pow_fin_pos ha, Real.sqrt_eq_rpow]
      norm_num
    have hp0 : (0 : ℝ) < (2 : ℝ) ^ (-300 : ℤ) := zpow_pos (by norm_num) _
    have ha : 0 < a := lt_of_lt_of_le hp0 ha1
    have hb : 0 < b := lt_of_lt_of_le hp0 hb1
    obtain ⟨v1, hv1, -, ev1⟩ := ramanujan_factor ha1 ha2 hb1 hb2
    obtain ⟨v2, -, hv2, ev2⟩ := ramanujan_factor hb1 hb2 ha1 ha2
    rw [add_comm (3 * b) a] at ev2
    have h1 : 0 < 3 * a + b := by linarith
    have h2 : 0 < a + 3 * b := by linarith
    have hM : 0 < (3 * a + b) * (a + 3 * b) := mul_pos h1 h2
    have hroot1 := ramanujan_root_le_two ha hb
    have hroot2 := add_le_ramanujan_root ha hb
    have hroot0 : 0 < Real.sqrt ((3 * a + b) * (a + 3 * b)) := Real.sqrt_pos.mpr hM
    have k2 := lin_range ha1 ha2 hb1 hb2 (c := 2) (d := 2) (by norm_num) (by norm_num)
      (by norm_num) (by norm_num) (by norm_num)
    have k1 := lin_range ha1 ha2 hb1 hb2 (c := 1) (d := 1) (by norm_num) (by norm_num)
      (by norm_num) (by norm_num) (by norm_num)
    simp only [one_mul] at k1
    have e22 : 2 * a + 2 * b = 2 * (a + b) := by ring
    rw [e22] at k2
    have f4 := rel_mul (by norm_num) (by norm_num) (by norm_num) (by norm_num) ev1 ev2
    have hMr := ramanujan_product_range ha1 ha2 hb1 hb2
    obtain ⟨m, hm, em⟩ := rel_round (by norm_num) (by norm_num)
      (by rw [abs_of_pos hM]; exact hMr.1) (by rw [abs_of_pos hM]; exact hMr.2) f4
    have hm0 : 0 < m := rel_pos hM (by norm_num) em
    have f5 := rel_sqrt hM (by norm_num) (by norm_num) em
    obtain ⟨w, hw, ew⟩ := rel_round (by norm_num) (by norm_num)
      (by rw [abs_of_pos hroot0]; exact k1.1.trans hroot2)
      (by rw [abs_of_pos hroot0]; exact hroot1.trans k2.2) f5
    refine ⟨w, ?_, ew.trans ?_⟩
    · rw [hv1, hv2, fin_mul, hm, pow_fin_half hm0, hw]
    · apply mul_le_mul_of_nonneg_right _ (abs_nonneg _)
      apply mul_le_mul_of_nonneg_right _ (zpow_pos (by norm_num) _).le
      norm_num
  -- The term `3*(a+b)` of the Ramanujan formula in binary64 arithmetic.
  have ramanujan_sum {a b : ℝ} (ha1 : (2 : ℝ) ^ (-300 : ℤ) ≤ a)
      (ha2 : a ≤ (2 : ℝ) ^ (300 : ℤ)) (hb1 : (2 : ℝ) ^ (-300 : ℤ) ≤ b)
      (hb2 : b ≤ (2 : ℝ) ^ (300 : ℤ)) :
      ∃ t : ℝ, (3 * (fin a + fin b) : F64) = fin t ∧
        |t - 3 * (a + b)| ≤ 3 * (2 : ℝ) ^ (-53 : ℤ) * |3 * (a + b)| := by
    have hp0 : (0 : ℝ) < (2 : ℝ) ^ (-300 : ℤ) := zpow_pos (by norm_num) _
    have ha : 0 < a := lt_of_lt_of_le hp0 ha1
    have hb : 0 < b := lt_of_lt_of_le hp0 hb1
    have hab : 0 < a + b := add_pos ha hb
    have n1 := lin_range ha1 ha2 hb1 hb2 (c := 1) (d := 1) (by norm_num) (by norm_num)
      (by norm_num) (by norm_num) (by norm_num)
    have n3 := lin_range ha1 ha2 hb1 hb2 (c := 3) (d := 3) (by norm_num) (by norm_num)
      (by norm_num) (by norm_num) (by norm_num)
    simp only [one_mul] at n1
    have e33 : 3 * a + 3 * b = 3 * (a + b) := by ring
    rw [e33] at n3
    have h3ab : 0 < 3 * (a + b) := by linarith
    obtain ⟨s, hs, es⟩ := rel_round (x := a + b) (a := a + b) (c := 0) le_rfl (by norm_num)
      (by rw [abs_of_pos hab]; exact n1.1) (by rw [abs_of_pos hab]; exact n1.2) (rel_exact _)
    have f1 := rel_mul (x := 3) (a := 3) (y := s) (b := a + b) (c := 0) le_rfl (by norm_num)
      (by norm_num) (by norm_num) (rel_exact _) es
    obtain ⟨t, ht, et⟩ := rel_round (by norm_num) (by norm_num)
      (by rw [abs_of_pos h3ab]; exact n3.1) (by rw [abs_of_pos h3ab]; exact n3.2) f1
    refine ⟨t, ?_, et.trans ?_⟩
    · have h3n : ((3 : ℕ) : ℝ) = 3 := by norm_num
      rw [fin_add, hs, ofNat_eq_fin, fin_mul, h3n, ht]
    · apply mul_le_mul_of_nonneg_right _ (abs_nonneg _)
      apply mul_le_mul_of_nonneg_right _ (zpow_pos (by norm_num) _).le
      norm_num
  have hp0 : (0 : ℝ) < (2 : ℝ) ^ (-300 : ℤ) := zpow_pos (by norm_num) _
  have ha : 0 < a := lt_of_lt_of_le hp0 ha1
  have hb : 0 < b := lt_of_lt_of_le hp0 hb1
  obtain ⟨p, hp, lp, up⟩ := pi_value
  obtain ⟨t, ht, et⟩ := ramanujan_sum ha1 ha2 hb1 hb2
  obtain ⟨w, hw, ew⟩ := ramanujan_root ha1 ha2 hb1 hb2
  have hroot1 := ramanujan_root_le_two ha hb
  have hM : 0 < (3 * a + b) * (a + 3 * b) := mul_pos (by linarith) (by linarith)
  have hroot0 : 0 < Real.sqrt ((3 * a + b) * (a + 3 * b)) := Real.sqrt_pos.mpr hM
  have bt := rel_bounds (by linarith : (0 : ℝ) < 3 * (a + b)) (by norm_num) et
  have bw := rel_bounds hroot0 (by norm_num) ew
  have kl := lin_range ha1 ha2 hb1 hb2 (c := 1 / 2) (d := 1 / 2) (by norm_num) (by norm_num)
    (by norm_num) (by norm_num) (by norm_num)
  have ku := lin_range ha1 ha2 hb1 hb2 (c := 7 / 2) (d := 7 / 2) (by norm_num) (by norm_num)
    (by norm_num) (by norm_num) (by norm_num)
  have kl2 := lin_range ha1 ha2 hb1 hb2 (c := 1) (d := 1) (by norm_num) (by norm_num)
    (by norm_num) (by norm_num) (by norm_num)
  have ku2 := lin_range ha1 ha2 hb1 hb2 (c := 16) (d := 16) (by norm_num) (by norm_num)
    (by norm_num) (by norm_num) (by norm_num)
  generalize Real.sqrt ((3 * a + b) * (a + 3 * b)) = g at bw hroot1 hroot0
  obtain ⟨d, hd, ld, ud⟩ := round_pos (x := t - w) kl.1 (by linarith) (by linarith) ku.2
  have hd0 : 0 < d := by linarith
  have hpd1 : 3 * d ≤ p * d := mul_le_mul_of_nonneg_right (by linarith) hd0.le
  have hpd2 : p * d ≤ 4 * d := mul_le_mul_of_nonneg_right (by linarith) hd0.le
  obtain ⟨y, hy, ly, -⟩ := round_pos (x := p * d) kl2.1 (by linarith) (by linarith) ku2.2
  refine ⟨y, ?_, by linarith⟩
  delta ellipse.perimeter
  rw [hp]
  show (fin p * (3 * (fin a + fin b) - pow ((3 * fin a + fin b) * (fin a + 3 * fin b)) 0.5)
    : F64) = fin y
  rw [ht, hw, fin_sub, hd, fin_mul, hy]

/-- The perimeter of every 2-D shape in binary64 arithmetic, for dimensions
between `2^-300` and `2^300`: a positive finite number. -/
theorem polygon_perimeter_pos (s : Shapes.polygon)
    (h : polygon.dims_between ((2 : ℝ) ^ (-300 : ℤ)) ((2 : ℝ) ^ (300 : ℤ)) s) :
    ∃ y : ℝ, polygon.perimeter s = fin y ∧ 0 < y := by
  -- The perimeter of a circle in binary64 arithmetic, for a radius between
  -- `2^-300` and `2^300`: a positive finite number.
  have circle_perimeter_pos {r : ℝ} (h1 : (2 : ℝ) ^ (-300 : ℤ) ≤ r)
      (h2 : r ≤ (2 : ℝ) ^ (300 : ℤ)) : ∃ y : ℝ, circle.perimeter ⟨r⟩ = fin y ∧ 0 < y := by
    have hr : 0 < r := lt_of_lt_of_le (zpow_pos (by norm_num) _) h1
    obtain ⟨p, hp, lp, up⟩ := pi_value
    have c1 := @const_range 6 (by norm_num) (by norm_num)
    have c2 := @const_range 7 (by norm_num) (by norm_num)
    have m6 := @mag_range r h1 h2 6 (by norm_num) (by norm_num)
    have m7 := @mag_range r h1 h2 7 (by norm_num) (by norm_num)
    obtain ⟨d, hd, ld, ud⟩ := round_pos (x := 2 * p) c1.1 (by linarith) (by linarith) c2.2
    obtain ⟨y, hy, ly, -⟩ := round_pos (x := d * r) (l := 5 * r) (u := 8 * r)
      ((@mag_range r h1 h2 5 (by norm_num) (by norm_num)).1.1) (by nlinarith) (by nlinarith)
      ((@mag_range r h1 h2 8 (by norm_num) (by norm_num)).1.2)
    refine ⟨y, ?_, by nlinarith⟩
    delta circle.perimeter
    rw [hp]
    show (2 * fin p * fin r : F64) = fin y
    have h2n : ((2 : ℕ) : ℝ) = 2 := by norm_num
    rw [ofNat_eq_fin, fin_mul, h2n, hd, fin_mul, hy]
  -- The perimeter of a rectangle in binary64 arithmetic, for sides between
  -- `2^-300` and `2^300`: a positive finite number.
  have rectangle_perimeter_pos {l h : ℝ} (hl1 : (2 : ℝ) ^ (-300 : ℤ) ≤ l)
      (hl2 : l ≤ (2 : ℝ) ^ (300 : ℤ)) (hh1 : (2 : ℝ) ^ (-300 : ℤ) ≤ h)
      (hh2 : h ≤ (2 : ℝ) ^ (300 : ℤ)) :
      ∃ y : ℝ, rectangle.perimeter ⟨l, h⟩ = fin y ∧ 0 < y := by
    have hp : (0 : ℝ) < (2 : ℝ) ^ (-300 : ℤ) := zpow_pos (by norm_num) _
    have hl : 0 < l := lt_of_lt_of_le hp hl1
    have hh : 0 < h := lt_of_lt_of_le hp hh1
    have r1 := lin_range hl1 hl2 hh1 hh2 (c := 1) (d := 1) (by norm_num) (by norm_num)
      (by norm_num) (by norm_num) (by norm_num)
    have r2 := lin_range hl1 hl2 hh1 hh2 (c := 2) (d := 2) (by norm_num) (by norm_num)
      (by norm_num) (by norm_num) (by norm_num)
    have r3 := lin_range hl1 hl2 hh1 hh2 (c := 3) (d := 3) (by norm_num) (by norm_num)
      (by norm_num) (by norm_num) (by norm_num)
    simp only [one_mul] at r1
    obtain ⟨s, hs, ls, us⟩ := round_pos (x := l + h) r1.1 le_rfl le_rfl r1.2
    obtain ⟨y, hy, ly, -⟩ := round_pos (x := 2 * s) (l := 1 * l + 1 * h) (u := 3 * l + 3 * h)
      (by simp only [one_mul]; exact r1.1) (by linarith) (by linarith) r3.2
    refine ⟨y, ?_, by linarith⟩
    show (2 * (fin l + fin h) : F64) = fin y
    have h2n : ((2 : ℕ) : ℝ) = 2 := by norm_num
    rw [fin_add, hs, ofNat_eq_fin, fin_mul, h2n, hy]
  -- The perimeter of a square in binary64 arithmetic, for a side between
  -- `2^-300` and `2^300`: a positive finite number.
  have square_perimeter_pos {l : ℝ} (h1 : (2 : ℝ) ^ (-300 : ℤ) ≤ l)
      (h2 : l ≤ (2 : ℝ) ^ (300 : ℤ)) : ∃ y : ℝ, square.perimeter ⟨l⟩ = fin y ∧ 0 < y := by
    have hl : 0 < l := lt_of_lt_of_le (zpow_pos (by norm_num) _) h1
    have m4 := @mag_range l h1 h2 4 (by norm_num) (by norm_num)
    obtain ⟨y, hy, ly, -⟩ := round_pos (x := 4 * l) m4.1.1 le_rfl le_rfl m4.1.2
    refine ⟨y, ?_, by nlinarith⟩
    show (4 * fin l : F64) = fin y
    have h4n : ((4 : ℕ) : ℝ) = 4 := by norm_num
    rw [ofNat_eq_fin, fin_mul, h4n, hy]
  cases s with
  | square s => exact square_perimeter_pos h.1 h.2
  | rectangle s => exact rectangle_perimeter_pos h.1.1 h.1.2 h.2.1 h.2.2
  | ellipse s => exact ellipse_perimeter_pos h.1.1 h.1.2 h.2.1 h.2.2
  | circle s => exact circle_perimeter_pos h.1 h.2

end Binary64

namespace Binary64

open F64

end Binary64

/-! ## The claims that hold over exact reals and, within a range, in binary64 -/

namespace Shapes

open Dbl

/-- The numbers from 1 to 64 lie between `2^-300` and `2^300`. -/
theorem small_in_range {x : ℝ} (h1 : 1 ≤ x) (h2 : x ≤ 64) :
    (2 : ℝ) ^ (-300 : ℤ) ≤ x ∧ x ≤ (2 : ℝ) ^ (300 : ℤ) := by
  have l1 : (2 : ℝ) ^ (-300 : ℤ) ≤ 1 := zpow_le_one_of_nonpos₀ (by norm_num) (by norm_num)
  have l2 : (2 : ℝ) ^ (6 : ℤ) ≤ (2 : ℝ) ^ (300 : ℤ) :=
    zpow_le_zpow_right₀ (by norm_num) (by norm_num)
  have e2 : (2 : ℝ) ^ (6 : ℤ) = 64 := by
    rw [show (6 : ℤ) = ((6 : ℕ) : ℤ) by norm_num, zpow_natCast]
    norm_num
  rw [e2] at l2
  exact ⟨l1.trans h1, h2.trans l2⟩

/-- C7, amended. For every `w > 0`, over exact real arithmetic `cube(w)` has
area `6*w^2` and volume `w^3`, so that the volume is `area() * w / 6`. In
binary64 arithmetic the two sides of that equation are rounded separately:
for `2^-300 <= w <= 2^300` both are finite and they differ by at most
`2^-50 * w^3`. -/
theorem cube_properties (w : ℝ) (_hw : 0 < w) :
    ((cube.mk w).area = fin (6 * w ^ 2) ∧ (cube.mk w).volume = fin (w ^ 3) ∧
      (cube.mk w).volume = (cube.mk w).area * (w : Dbl) / 6) ∧
    ((2 : ℝ) ^ (-300 : ℤ) ≤ w → w ≤ (2 : ℝ) ^ (300 : ℤ) →
      ∃ v t : ℝ, Binary64.cube.volume ⟨w⟩ = Binary64.F64.fin v ∧
        Binary64.cube.area ⟨w⟩ * (w : Binary64.F64) / 6 = Binary64.F64.fin t ∧
        |t - v| ≤ (2 : ℝ) ^ (-50 : ℤ) * w ^ 3) := by
  have ha : (cube.mk w).area = fin (6 * w ^ 2) := by
    delta cube.area
    simp [pow_two_eq]
  have hv : (cube.mk w).volume = fin (w ^ 3) := by
    delta cube.volume
    simp [pow_three_eq]
  refine ⟨⟨ha, hv, ?_⟩, fun h1 h2 => Binary64.cube_sides_close h1 h2⟩
  have h6 : ((6 : ℕ) : ℝ) ≠ 0 := by norm_num
  rw [ha, hv, Dbl.ofNat_eq, Dbl.fin_mul_fin, Dbl.fin_div_fin_of_ne h6]
  congr 1
  push_cast
  ring

/-- Witness of C7: the cube of width 2 built in `main` has area 24 and
volume 8 over exact reals, and its width is in the range of the binary64
statement. -/
theorem cube_properties_witness :
    (0 : ℝ) < 2 ∧ ((cube.mk 2).area = fin 24 ∧ (cube.mk 2).volume = fin 8) ∧
      ∃ v t : ℝ, Binary64.cube.volume ⟨2⟩ = Binary64.F64.fin v ∧
        Binary64.cube.area ⟨2⟩ * ((2 : ℝ) : Binary64.F64) / 6 = Binary64.F64.fin t ∧
        |t - v| ≤ (2 : ℝ) ^ (-50 : ℤ) * (2 : ℝ) ^ 3 := by
  obtain ⟨⟨ha, hv, -⟩, hb⟩ := cube_properties 2 (by norm_num)
  have hr := small_in_range (x := 2) (by norm_num) (by norm_num)
  refine ⟨by norm_num, ⟨?_, ?_⟩, hb hr.1 hr.2⟩
  · rw [ha]; norm_num
  · rw [hv]; norm_num

/-- C8, amended. For every `r > 0`, over exact real arithmetic `circle(r)` has
area `pi*r^2` and perimeter `2*pi*r`, so that `perimeter() / area()` is
`2 / r`. In binary64 arithmetic the two sides of that equation are rounded
separately: for `2^-300 <= r <= 2^300` both are finite and they differ by at
most `2^-50 * (2 / r)`. -/
theorem circle_properties (r : ℝ) (hr : 0 < r) :
    ((circle.mk r).area = fin (Real.pi * r ^ 2) ∧
      (circle.mk r).perimeter = fin (2 * Real.pi * r) ∧
      (circle.mk r).perimeter / (circle.mk r).area = fin (2 / r)) ∧
    ((2 : ℝ) ^ (-300 : ℤ) ≤ r → r ≤ (2 : ℝ) ^ (300 : ℤ) →
      ∃ q t : ℝ, Binary64.circle.perimeter ⟨r⟩ / Binary64.circle.area ⟨r⟩
          = Binary64.F64.fin q ∧
        (2 : Binary64.F64) / (r : Binary64.F64) = Binary64.F64.fin t ∧
        |q - t| ≤ (2 : ℝ) ^ (-50 : ℤ) * (2 / r)) := by
  have ha : (circle.mk r).area = fin (Real.pi * r ^ 2) := by
    delta circle.area
    simp [pi_eq]
  have hp : (circle.mk r).perimeter = fin (2 * Real.pi * r) := by
    delta circle.perimeter
    simp [pi_eq]
  refine ⟨⟨ha, hp, ?_⟩, fun h1 h2 => Binary64.circle_sides_close h1 h2⟩
  have hne : Real.pi * r ^ 2 ≠ 0 := by positivity
  rw [ha, hp, Dbl.fin_div_fin_of_ne hne]
  congr 1
  have hpi : Real.pi ≠ 0 := Real.pi_ne_zero
  field_simp
  ring

/-- Witness of C8: the circle of radius 2 built in `main`. -/
theorem circle_properties_witness :
    (0 : ℝ) < 2 ∧ (circle.mk 2).perimeter / (circle.mk 2).area = fin 1 ∧
      ∃ q t : ℝ, Binary64.circle.perimeter ⟨2⟩ / Binary64.circle.area ⟨2⟩
          = Binary64.F64.fin q ∧
        (2 : Binary64.F64) / ((2 : ℝ) : Binary64.F64) = Binary64.F64.fin t ∧
        |q - t| ≤ (2 : ℝ) ^ (-50 : ℤ) * (2 / 2) := by
  obtain ⟨⟨-, -, hq⟩, hb⟩ := circle_properties 2 (by norm_num)
  have hr := small_in_range (x := 2) (by norm_num) (by norm_num)
  refine ⟨by norm_num, ?_, hb hr.1 hr.2⟩
  rw [hq]; norm_num

/-- C9, amended. For every `r`, over exact real arithmetic `sphere(r)` has
area `4*pi*r^2` and volume `(4*pi*r^3)/3`, so that the volume is
`(r/3) * area()`. In binary64 arithmetic the two sides of that equation are
rounded separately: for `2^-300 <= r <= 2^300` both are finite and they
differ by at most `2^-47 * r^3`. -/
theorem sphere_properties (r : ℝ) :
    ((sphere.mk r).area = fin (4 * Real.pi * r ^ 2) ∧
      (sphere.mk r).volume = fin ((4 * Real.pi * r ^ 3) / 3) ∧
      (sphere.mk r).volume = ((r : Dbl) / 3) * (sphere.mk r).area) ∧
    ((2 : ℝ) ^ (-300 : ℤ) ≤ r → r ≤ (2 : ℝ) ^ (300 : ℤ) →
      ∃ v t : ℝ, Binary64.sphere.volume ⟨r⟩ = Binary64.F64.fin v ∧
        (r : Binary64.F64) / 3 * Binary64.sphere.area ⟨r⟩ = Binary64.F64.fin t ∧
        |t - v| ≤ (2 : ℝ) ^ (-47 : ℤ) * r ^ 3) := by
  have h3 : ((3 : ℕ) : ℝ) ≠ 0 := by norm_num
  refine ⟨⟨sphere_area_value r, sphere_volume_value r, ?_⟩,
    fun h1 h2 => Binary64.sphere_sides_close h1 h2⟩
  rw [sphere_area_value, sphere_volume_value, Dbl.ofNat_eq, Dbl.fin_div_fin_of_ne h3,
    Dbl.fin_mul_fin]
  congr 1
  push_cast
  ring

/-- Witness of C9: the sphere of radius 2 built in `main`, whose radius is in
the range of the binary64 statement. -/
theorem sphere_properties_witness :
    ((2 : ℝ) ^ (-300 : ℤ) ≤ 2 ∧ (2 : ℝ) ≤ (2 : ℝ) ^ (300 : ℤ)) ∧
      ∃ v t : ℝ, Binary64.sphere.volume ⟨2⟩ = Binary64.F64.fin v ∧
        ((2 : ℝ) : Binary64.F64) / 3 * Binary64.sphere.area ⟨2⟩ = Binary64.F64.fin t ∧
        |t - v| ≤ (2 : ℝ) ^ (-47 : ℤ) * (2 : ℝ) ^ 3 :=
  have hr := small_in_range (x := 2) (by norm_num) (by norm_num)
  ⟨hr, (sphere_properties 2).2 hr.1 hr.2⟩

/-- C4, amended. For every `a`, `b`, `c`, the volume of `ellipsoid(a, b, c)`
is the value of `(4*a*b*c)/3`, without a factor of pi; over exact real
arithmetic it differs, for every `r != 0`, from the volume `(4*pi*r^3)/3` of
`sphere(r)`, and in binary64 arithmetic the two volumes are finite and differ
for every `r` with `2^-300 <= |r| <= 2^300`. -/
theorem ellipsoid_volume_no_pi (a b c r : ℝ) (hr : r ≠ 0) :
    ((ellipsoid.mk a b c).volume = fin ((4 * a * b * c) / 3) ∧
      (sphere.mk r).volume = fin ((4 * Real.pi * r ^ 3) / 3) ∧
      (ellipsoid.mk r r r).volume ≠ (sphere.mk r).volume) ∧
    ((2 : ℝ) ^ (-300 : ℤ) ≤ |r| → |r| ≤ (2 : ℝ) ^ (300 : ℤ) →
      ∃ e s : ℝ, Binary64.ellipsoid.volume ⟨r, r, r⟩ = Binary64.F64.fin e ∧
        Binary64.sphere.volume ⟨r⟩ = Binary64.F64.fin s ∧ e ≠ s) := by
  have h3 : ((3 : ℕ) : ℝ) ≠ 0 := by norm_num
  have hv : ∀ x y z : ℝ, (ellipsoid.mk x y z).volume = fin ((4 * x * y * z) / 3) := by
    intro x y z
    delta ellipsoid.volume
    simp only [Dbl.ofNat_eq, Dbl.fin_mul_fin, Dbl.fin_div_fin_of_ne h3]
    norm_num
  refine ⟨⟨hv a b c, sphere_volume_value r, ?_⟩,
    fun h1 h2 => Binary64.volumes_differ_in_range h1 h2⟩
  rw [hv r r r, sphere_volume_value r]
  intro h
  have h1 : (4 * r * r * r) / 3 = (4 * Real.pi * r ^ 3) / 3 := Dbl.fin.inj h
  have h2 : r ^ 3 * (Real.pi - 1) = 0 := by linarith [h1]
  have hpi : Real.pi - 1 ≠ 0 := by
    have := Real.pi_gt_three
    linarith
  rcases mul_eq_zero.mp h2 with h0 | h0
  · exact hr (pow_eq_zero_iff (by norm_num) |>.mp h0)
  · exact hpi h0

/-- Witness of C4: `ellipsoid(2, 2, 3)` of `main` has volume 16 over exact
reals, and `ellipsoid(2, 2, 2)` and `sphere(2)` have different volumes, over
exact reals and in binary64 arithmetic. -/
theorem ellipsoid_volume_no_pi_witness :
    (2 : ℝ) ≠ 0 ∧ (ellipsoid.mk 2 2 3).volume = fin 16 ∧
      (ellipsoid.mk 2 2 2).volume ≠ (sphere.mk 2).volume ∧
      ∃ e s : ℝ, Binary64.ellipsoid.volume ⟨2, 2, 2⟩ = Binary64.F64.fin e ∧
        Binary64.sphere.volume ⟨2⟩ = Binary64.F64.fin s ∧ e ≠ s := by
  obtain ⟨⟨hv, -, hne⟩, hb⟩ := ellipsoid_volume_no_pi 2 2 3 2 (by norm_num)
  have hr := small_in_range (x := 2) (by norm_num) (by norm_num)
  have habs : |(2 : ℝ)| = 2 := abs_of_pos (by norm_num)
  refine ⟨by norm_num, ?_, hne, hb (by rw [habs]; exact hr.1) (by rw [habs]; exact hr.2)⟩
  rw [hv]; norm_num

/-- C14, amended. For every 2-D variant whose dimensions are all strictly
positive, `perimeter()` is non-negative over exact real arithmetic; for the
ellipse this is the inequality `3*(a+b) >= sqrt((3a+b)*(a+3b))` for all
`a, b > 0`. In binary64 arithmetic, for every 2-D variant whose dimensions
all lie between `2^-300` and `2^300`, `perimeter()` is a finite number and
`perimeter() >= 0` holds. -/
theorem perimeter_nonneg (p : polygon) (hp : p.dims_pos) :
    (p.perimeter.nonneg ∧
      ∀ a b : ℝ, 0 < a → 0 < b →
        Real.sqrt ((3 * a + b) * (a + 3 * b)) ≤ 3 * (a + b) ∧
          (polygon.ellipse ⟨a, b⟩).perimeter.nonneg) ∧
    (Binary64.polygon.dims_between ((2 : ℝ) ^ (-300 : ℤ)) ((2 : ℝ) ^ (300 : ℤ)) p →
      (∃ y : ℝ, Binary64.polygon.perimeter p = Binary64.F64.fin y ∧ 0 < y) ∧
        Binary64.F64.is_ge (Binary64.polygon.perimeter p) 0) := by
  refine ⟨⟨polygon_perimeter_sign p hp, fun a b ha hb =>
    ⟨ramanujan_root_le ha hb, polygon_perimeter_sign (polygon.ellipse ⟨a, b⟩) ⟨ha, hb⟩⟩⟩,
    fun h => ?_⟩
  obtain ⟨y, hy, hpos⟩ := Binary64.polygon_perimeter_pos p h
  refine ⟨⟨y, hy, hpos⟩, ?_⟩
  rw [hy]
  left
  show y > ((0 : ℕ) : ℝ)
  rw [Nat.cast_zero]
  exact hpos

/-- Witness of C14: the ellipse of `main`, `ellipse(2, 3)`. -/
theorem perimeter_nonneg_witness :
    (polygon.ellipse ⟨2, 3⟩).dims_pos ∧ (polygon.ellipse ⟨2, 3⟩).perimeter.nonneg ∧
      Binary64.F64.is_ge (Binary64.polygon.perimeter (polygon.ellipse ⟨2, 3⟩)) 0 :=
  have hp : (polygon.ellipse ⟨2, 3⟩).dims_pos :=
    ⟨by norm_num [ellipse.semi_axis_a], by norm_num [ellipse.semi_axis_b]⟩
  have h2 := small_in_range (x := 2) (by norm_num) (by norm_num)
  have h3 := small_in_range (x := 3) (by norm_num) (by norm_num)
  ⟨hp, (perimeter_nonneg (polygon.ellipse ⟨2, 3⟩) hp).1.1,
    ((perimeter_nonneg (polygon.ellipse ⟨2, 3⟩) hp).2 ⟨h2, h3⟩).2⟩

end Shapes

namespace ComplexNumbers

open Shapes Shapes.Dbl

end ComplexNumbers
